import Mathlib

/-!
# Hermes2D views: `LinearizerBase` and `Orderizer`

A shallow embedding of `hermes2d/src/views/linearizer_base.cpp` and
`hermes2d/src/views/orderizer.cpp`.

Modelling conventions.

* The object is a record of its member variables; a member function is a
  function of that record.  Functions that write to the object or that may
  throw live in `Run`, a state-and-exception monad.
* A raw buffer (`int3* tris`, ...) is a pair of a flag (the pointer is not
  `nullptr`) and a total map from indices to contents.  Capacities are the
  separate `*_size` members, exactly as in the C++.
* `realloc` is an oracle: the object carries `heap`, the outcome of the
  k-th allocation request, and `heap_calls`, the number of requests so far.
* `while` loops and recursion take a bound `fuel`; exhausting it is the
  result `out_of_fuel`, which stands for "has not returned yet".  A thrown
  exception is the result `out_of_memory` or `invalid_input`, with the state
  the object is left in.
* `int` members are `Int`.  The sum of products in `hash` and the products
  of `reallocate_common` are taken with 32-bit wrap-around (`wrap32`).
  Counts and capacities are not wrapped: the growth step `(int)(n * 1.5)` is
  exact for capacities from 0 to 1431655765, and an append writes inside its
  buffer when the count is within a capacity of at least 2; outside that
  range the model does not follow the C++.
* A member function that neither throws nor loops is a plain function of the
  object; where it also returns a value, the value comes first and the object
  afterwards second.
* A `double` that the code only compares and copies is a rational.  Values
  the code computes in floating point (`std::pow`, `std::sqrt`) are inputs of
  the model.
-/

namespace Hermes2D

/-! ## Data model -/

/-- The member variables of `LinearizerBase`. -/
structure LinearizerBase where
  auto_max : Bool
  empty : Bool
  max : ℚ
  min_val : ℚ
  max_val : ℚ
  tris_live : Bool
  tris : Int → Int × Int × Int
  tri_markers_live : Bool
  tri_markers : Int → Int
  edges_live : Bool
  edges : Int → Int × Int
  edge_markers_live : Bool
  edge_markers : Int → Int
  hash_table : Int → Int
  info : Int → Int → Int
  vertex_count : Int
  triangle_count : Int
  edges_count : Int
  vertex_size : Int
  triangle_size : Int
  edges_size : Int
  level_map_live : Bool
  level_map : Int → Int
  lock_count : Int
  heap : Nat → Bool
  heap_calls : Nat

/-- Result of running a member function on an object of type `σ`: normal
return with a value, the out-of-memory exception, the exception for an
unusable argument, or exhaustion of the iteration bound (no result yet). -/
inductive Result (σ α : Type) where
  | ok (a : α) (s : σ)
  | out_of_memory (s : σ)
  | invalid_input (s : σ)
  | out_of_fuel

/-- State-and-exception computations over an object of type `σ`. -/
def Run (σ α : Type) : Type := σ → Result σ α

/-- Sequencing: an exception or an exhausted bound aborts the rest. -/
def Run.bind {σ α β : Type} (m : Run σ α) (k : α → Run σ β) : Run σ β := fun s =>
  match m s with
  | .ok a s' => k a s'
  | .out_of_memory s' => .out_of_memory s'
  | .invalid_input s' => .invalid_input s'
  | .out_of_fuel => .out_of_fuel

instance {σ : Type} : Monad (Run σ) where
  pure a := fun s => .ok a s
  bind := Run.bind

/-! ## `linearizer_base.cpp` -/

/-- The constructor `LinearizerBase::LinearizerBase(bool auto_max)`.  Null
buffers have no contents and `min_val`, `max_val` are left uninitialised by the
source; the model fills both with zeros.  The allocator oracle is a parameter. -/
def LinearizerBase.new (auto_max : Bool) (heap : Nat → Bool) : LinearizerBase where
  auto_max := auto_max
  empty := true
  max := -(10 : ℚ) ^ 100
  min_val := 0
  max_val := 0
  tris_live := false
  tris := fun _ => (0, 0, 0)
  tri_markers_live := false
  tri_markers := fun _ => 0
  edges_live := false
  edges := fun _ => (0, 0)
  edge_markers_live := false
  edge_markers := fun _ => 0
  hash_table := fun _ => 0
  info := fun _ _ => 0
  vertex_count := 0
  triangle_count := 0
  edges_count := 0
  vertex_size := 0
  triangle_size := 0
  edges_size := 0
  level_map_live := false
  level_map := fun _ => 0
  lock_count := 0
  heap := heap
  heap_calls := 0

/-- Two's-complement reduction of an integer to the range of a 32-bit `int`. -/
def wrap32 (x : Int) : Int := (x + 2147483648) % 4294967296 - 2147483648

/-- Bitwise `&` of two 32-bit `int`s, computed on their unsigned bit patterns. -/
def and32 (a b : Int) : Int :=
  wrap32 (Int.ofNat (Nat.land (a % 4294967296).toNat (b % 4294967296).toNat))

/-- The method `LinearizerBase::hash`:
`(984120265 * p1 + 125965121 * p2) & (vertex_size - 1)` in `int` arithmetic. -/
def LinearizerBase.hash (s : LinearizerBase) (p1 p2 : Int) : Int :=
  and32 (wrap32 (984120265 * p1 + 125965121 * p2)) (s.vertex_size - 1)

/-- The `while (i >= 0)` loop of `peek_vertex`, started at chain position `i`
with the already canonicalised pair `p1`, `p2`. -/
def LinearizerBase.peek_vertex_loop (s : LinearizerBase) (p1 p2 : Int) : Nat → Int → Option Int
  | 0, _ => none
  | fuel + 1, i =>
    if i ≥ 0 then
      if s.info i 0 = p1 ∧ s.info i 1 = p2 then some i
      else LinearizerBase.peek_vertex_loop s p1 p2 fuel (s.info i 2)
    else some (-1)

/-- The method `LinearizerBase::peek_vertex`; `none` when the chain search has
not finished within `fuel` iterations. -/
def LinearizerBase.peek_vertex (s : LinearizerBase) (fuel : Nat) (p1 p2 : Int) : Option Int :=
  if p1 > p2 then
    s.peek_vertex_loop p2 p1 fuel (s.hash_table (s.hash p2 p1))
  else
    s.peek_vertex_loop p1 p2 fuel (s.hash_table (s.hash p1 p2))

/-- The method `LinearizerBase::free`. -/
def LinearizerBase.free (s : LinearizerBase) : LinearizerBase :=
  let s := if s.tris_live then { s with tris_live := false, tri_markers_live := false } else s
  let s := if s.edges_live then { s with edges_live := false, edge_markers_live := false } else s
  let s := if s.level_map_live then { s with level_map_live := false } else s
  { s with empty := true }

/-- The method `LinearizerBase::unlock_data` (recursive mutex, counted): on a
mutex that is not held `pthread_mutex_unlock` fails and the count stays as it
is. -/
def LinearizerBase.unlock_data (s : LinearizerBase) : LinearizerBase :=
  { s with lock_count := if 0 < s.lock_count then s.lock_count - 1 else s.lock_count }

/-- The method `LinearizerBase::deinit_linearizer_base`. -/
def LinearizerBase.deinit_linearizer_base (s : LinearizerBase) : LinearizerBase :=
  s.unlock_data

/-- One call of `realloc`: the oracle decides, the request is counted. -/
def LinearizerBase.realloc (s : LinearizerBase) : Bool × LinearizerBase :=
  (s.heap s.heap_calls, { s with heap_calls := s.heap_calls + 1 })

/-- The conversion `(int)(n * 1.5)` of the growth steps: the product is exact in
`double` and the conversion truncates towards zero.  The value is an `int` for
`n` from -1431655765 to 1431655765; beyond that the conversion has no defined
result and the model does not follow it. -/
def grow (n : Int) : Int := Int.tdiv (3 * n) 2

/-- The method `LinearizerBase::add_triangle`.  The buffers are index maps, so
the model does not tell a write inside the buffer from one past its end; the
write at the old count is inside the buffer whenever the count is within a
capacity of at least 2 (a capacity of 0 or 1 does not grow). -/
def LinearizerBase.add_triangle (iv0 iv1 iv2 marker : Int) : Run LinearizerBase Unit := fun s =>
  let store (s : LinearizerBase) : Result LinearizerBase Unit :=
    let index := s.triangle_count
    let s := { s with triangle_count := s.triangle_count + 1 }
    .ok () { s with
      tris := fun i => if i = index then (iv0, iv1, iv2) else s.tris i
      tri_markers := fun i => if i = index then marker else s.tri_markers i }
  if s.triangle_count ≥ s.triangle_size then
    let (new_tris, s) := s.realloc
    if new_tris then
      let s := { s with tris_live := true }
      let s := { s with triangle_size := grow s.triangle_size }
      let (new_tri_markers, s) := s.realloc
      if new_tri_markers then
        store { s with tri_markers_live := true }
      else
        .out_of_memory s.free.deinit_linearizer_base
    else
      .out_of_memory s.free.deinit_linearizer_base
  else
    store s

/-- The call `peek_vertex(p1, p2)` as a step of a computation. -/
def LinearizerBase.peek (fuel : Nat) (p1 p2 : Int) : Run LinearizerBase Int := fun s =>
  match s.peek_vertex fuel p1 p2 with
  | some mid => .ok mid s
  | none => .out_of_fuel

/-- The method `LinearizerBase::regularize_triangle`. -/
def LinearizerBase.regularize_triangle :
    Nat → Int → Int → Int → Int → Int → Int → Int → Run LinearizerBase Unit
  | 0, _, _, _, _, _, _, _ => fun _ => .out_of_fuel
  | fuel + 1, iv0, iv1, iv2, mid0, mid1, mid2, marker =>
    -- count the number of hanging mid-edge vertices
    let n : Int := (if mid0 ≥ 0 then 1 else 0) + (if mid1 ≥ 0 then 1 else 0)
      + (if mid2 ≥ 0 then 1 else 0)
    if n = 3 then do
      -- three hanging vertices: split into four triangles
      regularize_triangle fuel iv0 mid0 mid2 (← peek fuel iv0 mid0) (-1) (← peek fuel mid2 iv0) marker
      regularize_triangle fuel mid0 iv1 mid1 (← peek fuel mid0 iv1) (← peek fuel iv1 mid1) (-1) marker
      regularize_triangle fuel mid2 mid1 iv2 (-1) (← peek fuel mid1 iv2) (← peek fuel iv2 mid2) marker
      regularize_triangle fuel mid0 mid1 mid2 (-1) (-1) (-1) marker
    else if n = 2 then
      -- two hanging vertices: split into three triangles
      if mid0 < 0 then do
        regularize_triangle fuel iv0 iv1 mid1 (← peek fuel iv0 iv1) (← peek fuel iv1 mid1) (-1) marker
        regularize_triangle fuel mid2 iv0 mid1 (← peek fuel mid2 iv0) (-1) (-1) marker
        regularize_triangle fuel mid2 mid1 iv2 (-1) (← peek fuel mid1 iv2) (← peek fuel iv2 mid2) marker
      else if mid1 < 0 then do
        regularize_triangle fuel iv1 iv2 mid2 (← peek fuel iv1 iv2) (← peek fuel iv2 mid2) (-1) marker
        regularize_triangle fuel mid0 iv1 mid2 (← peek fuel mid0 iv1) (-1) (-1) marker
        regularize_triangle fuel mid0 mid2 iv0 (-1) (← peek fuel mid2 iv0) (← peek fuel iv0 mid0) marker
      else do
        regularize_triangle fuel iv2 iv0 mid0 (← peek fuel iv2 iv0) (← peek fuel iv0 mid0) (-1) marker
        regularize_triangle fuel mid1 iv2 mid0 (← peek fuel mid1 iv2) (-1) (-1) marker
        regularize_triangle fuel mid1 mid0 iv1 (-1) (← peek fuel mid0 iv1) (← peek fuel iv1 mid1) marker
    else if n = 1 then
      -- one hanging vertex: split into two triangles
      if mid0 ≥ 0 then do
        regularize_triangle fuel iv0 mid0 iv2 (← peek fuel iv0 mid0) (-1) (← peek fuel iv2 iv0) marker
        regularize_triangle fuel mid0 iv1 iv2 (← peek fuel mid0 iv1) (← peek fuel iv1 iv2) (-1) marker
      else if mid1 ≥ 0 then do
        regularize_triangle fuel iv1 mid1 iv0 (← peek fuel iv1 mid1) (-1) (← peek fuel iv0 iv1) marker
        regularize_triangle fuel mid1 iv2 iv0 (← peek fuel mid1 iv2) (← peek fuel iv2 iv0) (-1) marker
      else do
        regularize_triangle fuel iv2 mid2 iv1 (← peek fuel iv2 mid2) (-1) (← peek fuel iv1 iv2) marker
        regularize_triangle fuel mid2 iv0 iv1 (← peek fuel mid2 iv0) (← peek fuel iv0 iv1) (-1) marker
    else
      -- no hanging vertices: produce a single triangle
      add_triangle iv0 iv1 iv2 marker

/-- Computations in sequence. -/
def runSeq {σ α : Type} (f : α → Run σ Unit) : List α → Run σ Unit
  | [] => pure ()
  | a :: rest => do
    f a
    runSeq f rest

/-- The method `LinearizerBase::add_edge`.  As in `add_triangle`, the write at
the old count is inside the buffer whenever the count is within a capacity of
at least 2. -/
def LinearizerBase.add_edge (iv1 iv2 marker : Int) : Run LinearizerBase Unit := fun s =>
  let store (s : LinearizerBase) : Result LinearizerBase Unit :=
    let index := s.edges_count
    .ok () { s with
      edges := fun i => if i = index then (iv1, iv2) else s.edges i
      edge_markers := fun i => if i = index then marker else s.edge_markers i
      edges_count := s.edges_count + 1 }
  if s.edges_count ≥ s.edges_size then
    let (new_edges, s) := s.realloc
    if new_edges then
      let s := { s with edges_live := true }
      let s := { s with edges_size := grow s.edges_size }
      let (new_edge_markers, s) := s.realloc
      if new_edge_markers then
        store { s with edge_markers_live := true }
      else
        .out_of_memory s.free.deinit_linearizer_base
    else
      .out_of_memory s.free.deinit_linearizer_base
  else
    store s

/-- The method `LinearizerBase::reallocate_common`, lines 385-435: everything
but the final call of the virtual `reallocate_specific`, which the model of the
derived class sequences after it.  The products of the multipliers with the
number of elements are products of two `int`s and wrap around. -/
def LinearizerBase.reallocate_common (number_of_elements : Int) : Run LinearizerBase Unit :=
  fun s =>
  let s := { s with
    vertex_size := Max.max (wrap32 (6 * number_of_elements)) (Max.max s.vertex_size 10000) }
  let s := { s with
    triangle_size := Max.max (wrap32 (6 * number_of_elements)) (Max.max s.triangle_size 10000) }
  let s := { s with
    edges_size := Max.max (wrap32 (10 * number_of_elements)) (Max.max s.edges_size 15000) }
  -- Set count.
  let s := { s with vertex_count := 0, triangle_count := 0, edges_count := 0 }
  let (new_tris, s) := s.realloc
  if new_tris then
    let s := { s with tris_live := true }
    let (new_tri_markers, s) := s.realloc
    if new_tri_markers then
      let s := { s with tri_markers_live := true }
      let (new_edges, s) := s.realloc
      if new_edges then
        let s := { s with edges_live := true }
        let (new_edge_markers, s) := s.realloc
        if new_edge_markers then
          .ok () { s with edge_markers_live := true, empty := false }
        else
          .out_of_memory s.free.deinit_linearizer_base
      else
        .out_of_memory s.free.deinit_linearizer_base
    else
      .out_of_memory s.deinit_linearizer_base
  else
    .out_of_memory s.free.deinit_linearizer_base

/-- The method `LinearizerBase::process_edge`. -/
def LinearizerBase.process_edge : Nat → Int → Int → Int → Run LinearizerBase Unit
  | 0, _, _, _ => fun _ => .out_of_fuel
  | fuel + 1, iv1, iv2, marker => do
    let mid ← LinearizerBase.peek fuel iv1 iv2
    if mid ≠ -1 then do
      process_edge fuel iv1 mid marker
      process_edge fuel mid iv2 marker
    else
      LinearizerBase.add_edge iv1 iv2 marker

/-! ## `orderizer.cpp`

`Orderizer::process_space` reads a space, its mesh, a reference map and the
point, triangle and edge tables of `orderizer_quad.cpp`; all of them are
defined in other files of the library and are inputs of the model.  Coordinates
and vertex values (`double`) are rationals: the code only copies, compares and
subtracts them. -/

/-- The member variables of `Orderizer` on top of those of `LinearizerBase`.
An entry of `ltext` points into the table `labels`; the model keeps the two
indices of that table entry. -/
structure Orderizer extends LinearizerBase where
  verts_live : Bool
  verts : Int → ℚ × ℚ × ℚ
  label_size : Int
  label_count : Int
  lvert_live : Bool
  lvert : Int → Int
  ltext_live : Bool
  ltext : Int → Int × Int
  lbox_live : Bool
  lbox : Int → ℚ × ℚ

/-- The constructor `Orderizer::Orderizer()`, as far as the buffers go (the
table `labels` it fills is a constant of the class and not part of the
record).  The default argument of the base constructor is declared in
`linearizer_base.h`; `auto_max` is a parameter here, as is the allocator
oracle. -/
def Orderizer.new (auto_max : Bool) (heap : Nat → Bool) : Orderizer where
  toLinearizerBase := LinearizerBase.new auto_max heap
  verts_live := false
  verts := fun _ => (0, 0, 0)
  label_size := 0
  label_count := 0
  lvert_live := false
  lvert := fun _ => 0
  ltext_live := false
  ltext := fun _ => (0, 0)
  lbox_live := false
  lbox := fun _ => (0, 0)

/-- A method of `LinearizerBase` called on an `Orderizer`.  Inside such a
method `this->free()` is `LinearizerBase::free`: `orderizer.h` declares
`Orderizer::free` as a plain member that calls the one of the base class. -/
def Orderizer.base {α : Type} (m : Run LinearizerBase α) : Run Orderizer α := fun s =>
  match m s.toLinearizerBase with
  | .ok a b => .ok a { s with toLinearizerBase := b }
  | .out_of_memory b => .out_of_memory { s with toLinearizerBase := b }
  | .invalid_input b => .invalid_input { s with toLinearizerBase := b }
  | .out_of_fuel => .out_of_fuel

/-- The method `Orderizer::free`: the four buffers of the class, then
`LinearizerBase::free`. -/
def Orderizer.free (s : Orderizer) : Orderizer :=
  let s := if s.verts_live then { s with verts_live := false } else s
  let s := if s.lvert_live then { s with lvert_live := false } else s
  let s := if s.ltext_live then { s with ltext_live := false } else s
  let s := if s.lbox_live then { s with lbox_live := false } else s
  { s with toLinearizerBase := s.toLinearizerBase.free }

/-- One allocation request (`malloc` or `realloc`) made by an `Orderizer`. -/
def Orderizer.realloc (s : Orderizer) : Bool × Orderizer :=
  (s.heap s.heap_calls, { s with heap_calls := s.heap_calls + 1 })

/-- The method `Orderizer::add_vertex`.  The index handed out is inside the
vertex buffer whenever the count is within a capacity of at least 2. -/
def Orderizer.add_vertex : Run Orderizer Int := fun s =>
  let next (s : Orderizer) : Result Orderizer Int :=
    .ok s.vertex_count { s with vertex_count := s.vertex_count + 1 }
  if s.vertex_count ≥ s.vertex_size then
    let s := { s with vertex_size := grow s.vertex_size }
    let (new_verts, s) := s.realloc
    if new_verts then
      next { s with verts_live := true }
    else
      let s := s.free
      .out_of_memory { s with toLinearizerBase := s.toLinearizerBase.deinit_linearizer_base }
  else
    next s

/-- The method `Orderizer::make_vert`; the index written through the reference
parameter is the value of the computation. -/
def Orderizer.make_vert (x y val : ℚ) : Run Orderizer Int := do
  let index ← Orderizer.add_vertex
  fun s => .ok index { s with verts := fun i => if i = index then (x, y, val) else s.verts i }

/-- The method `Orderizer::reallocate_specific`. -/
def Orderizer.reallocate_specific (number_of_elements : Int) : Run Orderizer Unit := fun s =>
  let s := { s with label_size := Max.max s.label_size (number_of_elements + 10) }
  let s := { s with label_count := 0 }
  let (verts, s) := s.realloc
  let s := { s with verts_live := verts }
  let (lvert, s) := s.realloc
  let s := { s with lvert_live := lvert }
  let (ltext, s) := s.realloc
  let s := { s with ltext_live := ltext }
  let (lbox, s) := s.realloc
  let s := { s with lbox_live := lbox }
  if !s.lbox_live || !s.ltext_live || !s.verts_live || !s.lvert_live then
    .out_of_memory s.free
  else
    .ok () s

/-- The call `reallocate_common(mesh)` on an `Orderizer`: the common part, then
the virtual `reallocate_specific`. -/
def Orderizer.reallocate_common (number_of_elements : Int) : Run Orderizer Unit := do
  Orderizer.base (LinearizerBase.reallocate_common number_of_elements)
  Orderizer.reallocate_specific number_of_elements

/-- What `process_space` reads of one active element, of the space on it and
of the reference map set to it. -/
structure Element where
  id : Int
  marker : Int
  nvert : Nat
  mode : Int
  is_curved : Bool
  is_triangle : Bool
  is_quad : Bool
  element_order : Int
  edge_order : Int → Int
  en_bnd : Int → Bool
  en_marker : Int → Int
  vn_x : Int → ℚ
  vn_y : Int → ℚ
  phys_x : Int → ℚ
  phys_y : Int → ℚ
  phys_x_simple : Int → ℚ
  phys_y_simple : Int → ℚ

/-- The tables of one quadrature (`quad_ord` or `quad_ord_simple`) for `type`
1, by element mode: number of points, the order slot `(int)pt[i][2]` of each
point, the triangles and the edges. -/
structure OrdTables where
  np : Int → Int
  pt : Int → Int → Int
  num_elem : Int → Int
  ord_elem : Int → Int → Int × Int × Int
  num_edge : Int → Int
  ord_edge : Int → Int → Int × Int × Int

/-- The inputs of `process_space` that come from other files, the two table
sets and the macros `H2D_GET_H_ORDER` and `H2D_GET_V_ORDER`, and the contents
of the uninitialised local arrays `o` and `id`. -/
structure OrdEnv where
  ord : OrdTables
  simple : OrdTables
  h_order : Int → Int
  v_order : Int → Int
  garbage : Int → Int

/-- The mesh as `process_space` sees it. -/
structure Mesh where
  num_elements : Int
  active : List Element

/-- The space as `process_space` sees it. -/
structure Space where
  is_up_to_date : Bool
  mesh : Mesh

/-- The indices `lo, lo + 1, ..., hi - 1` of a counting `for` loop. -/
def loop_range (lo hi : Int) : List Int :=
  (List.range (hi - lo).toNat).map fun (k : Nat) => lo + (k : Int)

/-- Array `a` with `a[i] = v`. -/
def set_at {α : Type} (a : Int → α) (i : Int) (v : α) : Int → α :=
  fun j => if j = i then v else a j

/-- The loop `for (i = lo; i < hi; i++) make_vert(id[i - shift], x[i], y[i],
o[(int)pt[i][2]])` of `process_space`; the value is the array `id`. -/
def Orderizer.make_verts (x y : Int → ℚ) (o : Int → Int) (pt : Int → Int) (shift : Int) :
    List Int → (Int → Int) → Run Orderizer (Int → Int)
  | [], id => pure id
  | i :: rest, id => do
    let index ← Orderizer.make_vert (x i) (y i) (o (pt i))
    Orderizer.make_verts x y o pt shift rest (set_at id (i - shift) index)

/-- The contents of the array `o` for element `e` (lines 195-207 and 238-242
of `process_space`), from the contents the previous iteration left. -/
def element_orders (env : OrdEnv) (show_edge_orders : Bool) (e : Element) (o : Int → Int) :
    Int → Int :=
  let oo := e.element_order
  let o := set_at (set_at o 5 oo) 4 oo
  let o :=
    if show_edge_orders then
      (loop_range 0 e.nvert).foldl (fun o k => set_at o k (e.edge_order k)) o
    else if e.is_curved then
      if e.is_triangle then
        (loop_range 0 e.nvert).foldl (fun o k => set_at o k oo) o
      else
        (loop_range 0 e.nvert).foldl (fun o k => set_at o k (env.h_order oo)) o
    else o
  if e.is_quad then set_at (set_at o 4 (env.h_order oo)) 5 (env.v_order oo) else o

/-- The extent of the bounding box of the corners of `e` (lines 280-289 of
`process_space`). -/
def element_box (e : Element) : ℚ × ℚ :=
  let box := (loop_range 0 e.nvert).foldl
    (fun (b : ℚ × ℚ × ℚ × ℚ) k =>
      let xmin := if e.vn_x k < b.1 then e.vn_x k else b.1
      let xmax := if e.vn_x k > b.2.1 then e.vn_x k else b.2.1
      let ymin := if e.vn_y k < b.2.2.1 then e.vn_y k else b.2.2.1
      let ymax := if e.vn_y k > b.2.2.2 then e.vn_y k else b.2.2.2
      (xmin, xmax, ymin, ymax))
    ((10 : ℚ) ^ 100, -(10 : ℚ) ^ 100, (10 : ℚ) ^ 100, -(10 : ℚ) ^ 100)
  (box.2.1 - box.1, box.2.2.2 - box.2.2.1)

/-- The statement `make_vert(lvert[label_count], x, y, val)`. -/
def Orderizer.make_label_vert (x y val : ℚ) : Run Orderizer Unit := do
  let index ← Orderizer.make_vert x y val
  fun s => .ok () { s with lvert := set_at s.lvert s.label_count index }

/-- The loop of `add_triangle` calls over the triangle table (lines 250-251
and 271-272 of `process_space`). -/
def Orderizer.add_element_triangles (tab : OrdTables) (e : Element) (id : Int → Int) :
    Run Orderizer Unit :=
  runSeq (fun i => Orderizer.base (LinearizerBase.add_triangle
      (id (tab.ord_elem e.mode i).1) (id (tab.ord_elem e.mode i).2.1)
      (id (tab.ord_elem e.mode i).2.2) e.marker))
    (loop_range 0 (tab.num_elem e.mode))

/-- The branch of `process_space` for edge orders and curved elements (lines
245-261); the value is the array `id`. -/
def Orderizer.element_full (env : OrdEnv) (e : Element) (o : Int → Int) :
    Run Orderizer (Int → Int) := do
  let x := e.phys_x
  let y := e.phys_y
  let tab := env.ord
  Orderizer.make_label_vert (x 0) (y 0) (o 4)
  let id ← Orderizer.make_verts x y o (tab.pt e.mode) 1 (loop_range 1 (tab.np e.mode)) env.garbage
  Orderizer.add_element_triangles tab e id
  runSeq (fun i =>
      let a := (tab.ord_edge e.mode i).1
      let b := (tab.ord_edge e.mode i).2.1
      let k := (tab.ord_edge e.mode i).2.2
      if e.en_bnd k || decide (y (a + 1) < y (b + 1)) ||
          (decide (y (a + 1) = y (b + 1)) && decide (x (a + 1) < x (b + 1))) then
        Orderizer.base (LinearizerBase.add_edge (id a) (id b) (e.en_marker k))
      else pure ())
    (loop_range 0 (tab.num_edge e.mode))
  pure id

/-- The branch of `process_space` for the other elements (lines 265-277); the
value is the array `id`. -/
def Orderizer.element_simple (env : OrdEnv) (e : Element) (o : Int → Int) :
    Run Orderizer (Int → Int) := do
  let x := e.phys_x_simple
  let y := e.phys_y_simple
  let tab := env.simple
  Orderizer.make_label_vert (x 0) (y 0) (o 4)
  Orderizer.make_label_vert (x 0) (y 0) (o 5)
  let id ← Orderizer.make_verts x y o (tab.pt e.mode) 0 (loop_range 0 (tab.np e.mode)) env.garbage
  Orderizer.add_element_triangles tab e id
  runSeq (fun i => Orderizer.base (LinearizerBase.add_edge
      (id (tab.ord_edge e.mode i).1) (id (tab.ord_edge e.mode i).2.1)
      (e.en_marker (tab.ord_edge e.mode i).2.2)))
    (loop_range 0 (tab.num_edge e.mode))
  pure id

/-- The body of the loop over the active elements in `process_space` (lines
195-290).  The array `o` lives across the iterations and is passed in and out;
the array `id` of the iteration is passed out as well.  The `assert(np <= 80)`
is a condition on the tables and is not executed. -/
def Orderizer.process_element (env : OrdEnv) (show_edge_orders : Bool) (e : Element)
    (o : Int → Int) : Run Orderizer ((Int → Int) × (Int → Int)) := do
  let o := element_orders env show_edge_orders e o
  let id ←
    if show_edge_orders || e.is_curved then Orderizer.element_full env e o
    else Orderizer.element_simple env e o
  fun s => .ok (o, id) { s with
    lbox := set_at s.lbox s.label_count (element_box e)
    ltext := set_at s.ltext s.label_count (o 4, o 5)
    label_count := s.label_count + 1 }

/-- The loop over the active elements; the value lists the array `id` of each
iteration. -/
def Orderizer.process_elements (env : OrdEnv) (show_edge_orders : Bool) :
    List Element → (Int → Int) → Run Orderizer (List (Int → Int))
  | [], _ => pure []
  | e :: rest, o => do
    let r ← Orderizer.process_element env show_edge_orders e o
    let ids ← Orderizer.process_elements env show_edge_orders rest r.1
    pure (r.2 :: ids)

/-- The method `Orderizer::process_space`; `none` is the null space pointer.
The value lists, per active element, the local array `id` of vertex indices. -/
def Orderizer.process_space (env : OrdEnv) (space : Option Space) (show_edge_orders : Bool) :
    Run Orderizer (List (Int → Int)) :=
  match space with
  | none => fun s => .invalid_input s
  | some space =>
    if !space.is_up_to_date then fun s => .invalid_input s
    else do
      -- Reallocate.
      Orderizer.reallocate_common space.mesh.num_elements
      Orderizer.process_elements env show_edge_orders space.mesh.active env.garbage

/-! ## `orderizer.cpp`: the VTK exports

The text written to the file is the list of the strings of the `fprintf`
calls, in order.  The conversion `%g` of a `double` is an input of the model;
`fopen` succeeds or fails as the argument `file_opens` says. -/

/-- The conversion `%d` of `fprintf`. -/
def fmt_d (n : Int) : String := toString n

/-- The method `Orderizer::save_markers_vtk`; the value is the text written. -/
def Orderizer.save_markers_vtk (env : OrdEnv) (fmt_g : ℚ → String) (space : Option Space)
    (file_opens : Bool) : Run Orderizer (List String) := do
  let _ ← Orderizer.process_space env space false
  if !file_opens then fun s => .invalid_input s
  else fun s => .ok (
    -- Output header for vertices.
    ["# vtk DataFile Version 2.0\n", "\n", "ASCII\n\n", "DATASET UNSTRUCTURED_GRID\n"] ++
    -- Output vertices.
    ["POINTS " ++ fmt_d s.vertex_count ++ " " ++ "float" ++ "\n"] ++
    (loop_range 0 s.vertex_count).map (fun (i : Int) =>
      fmt_g (s.verts i).1 ++ " " ++ fmt_g (s.verts i).2.1 ++ " " ++ fmt_g 0 ++ "\n") ++
    -- Output elements.
    ["\n", "CELLS " ++ fmt_d s.triangle_count ++ " " ++ fmt_d (4 * s.triangle_count) ++ "\n"] ++
    (loop_range 0 s.triangle_count).map (fun (i : Int) =>
      "3 " ++ fmt_d (s.tris i).1 ++ " " ++ fmt_d (s.tris i).2.1 ++ " " ++ fmt_d (s.tris i).2.2
        ++ "\n") ++
    -- Output cell types.
    ["\n", "CELL_TYPES " ++ fmt_d s.triangle_count ++ "\n"] ++
    (loop_range 0 s.triangle_count).map (fun (_ : Int) => "5\n") ++
    ["\n", "CELL_DATA " ++ fmt_d s.triangle_count ++ "\n",
      "SCALARS " ++ "Mesh" ++ " " ++ "float" ++ " " ++ fmt_d 1 ++ "\n",
      "LOOKUP_TABLE " ++ "default" ++ "\n"] ++
    (loop_range 0 s.triangle_count).map (fun (i : Int) => fmt_d (s.tri_markers i) ++ " \n")) s

/-- The method `Orderizer::save_mesh_vtk`; the value is the text written. -/
def Orderizer.save_mesh_vtk (env : OrdEnv) (fmt_g : ℚ → String) (space : Option Space)
    (file_opens : Bool) : Run Orderizer (List String) := do
  let _ ← Orderizer.process_space env space false
  if !file_opens then fun s => .invalid_input s
  else fun s => .ok (
    -- Output header for vertices.
    ["# vtk DataFile Version 2.0\n", "\n", "ASCII\n\n", "DATASET UNSTRUCTURED_GRID\n"] ++
    -- Output vertices.
    ["POINTS " ++ fmt_d s.vertex_count ++ " " ++ "float" ++ "\n"] ++
    (loop_range 0 s.vertex_count).map (fun (i : Int) =>
      fmt_g (s.verts i).1 ++ " " ++ fmt_g (s.verts i).2.1 ++ " " ++ fmt_g 0 ++ "\n") ++
    -- Output elements.
    ["\n", "CELLS " ++ fmt_d s.edges_count ++ " " ++ fmt_d (3 * s.edges_count) ++ "\n"] ++
    (loop_range 0 s.edges_count).map (fun (i : Int) =>
      "2 " ++ fmt_d (s.edges i).1 ++ " " ++ fmt_d (s.edges i).2 ++ "\n") ++
    -- Output cell types.
    ["\n", "CELL_TYPES " ++ fmt_d s.edges_count ++ "\n"] ++
    (loop_range 0 s.edges_count).map (fun (_ : Int) => "3\n") ++
    ["\n", "CELL_DATA " ++ fmt_d s.edges_count ++ "\n",
      "SCALARS " ++ "Mesh" ++ " " ++ "float" ++ " " ++ fmt_d 1 ++ "\n",
      "LOOKUP_TABLE " ++ "default" ++ "\n"] ++
    (loop_range 0 s.edges_count).map (fun (_ : Int) => "0 \n")) s

/-! ## `orderizer.cpp`: the label table of the constructor

The members `char buffer[1000]` and `char* labels[11][11]` of `orderizer.h`. A
byte of `buffer` is `none` until it is written; an entry of `labels` is the
offset into `buffer` its pointer has. -/

/-- The members `buffer` and `labels`, and the loop variable `p` of the
constructor. -/
structure LabelTable where
  buffer : Int → Option Char
  labels : Int → Int → Int
  p : Int

/-- The call `sprintf(buffer + p, ...)` whose formatted output is `text`: the
characters of `text`, then the terminating NUL. -/
def sprintf (buffer : Int → Option Char) (p : Int) : List Char → Int → Option Char
  | [] => set_at buffer p (some (Char.ofNat 0))
  | c :: rest => sprintf (set_at buffer p (some c)) (p + 1) rest

/-- The call `strlen(buffer + p)`, reading at most `fuel` bytes; `none` when it
meets an unwritten byte or no NUL within `fuel` bytes. -/
def strlen (buffer : Int → Option Char) (p : Int) : Nat → Option Int
  | 0 => none
  | fuel + 1 =>
    match buffer p with
    | none => none
    | some c =>
      if c = Char.ofNat 0 then some 0
      else (strlen buffer (p + 1) fuel).map fun n => n + 1

/-- The body of the inner loop of `Orderizer::Orderizer()` (lines 103-109);
`none` when the assertion fails.  The `unsigned` conversion of `p` is taken
modulo `2^32`; `strlen` is given the size of the buffer as its bound. -/
def label_step (i j : Int) (t : LabelTable) : Option LabelTable :=
  if t.p % 4294967296 < 1000 - 5 then
    let buffer :=
      if i = j then sprintf t.buffer t.p (fmt_d i).toList
      else sprintf t.buffer t.p ((fmt_d i).toList ++ ['|'] ++ (fmt_d j).toList)
    let labels := fun a b => if a = i ∧ b = j then t.p else t.labels a b
    (strlen buffer t.p 1000).map fun n =>
      { buffer := buffer, labels := labels, p := t.p + (n + 1) }
  else none

/-- The two loops of `Orderizer::Orderizer()` (lines 99-111) that fill `buffer`
and `labels`; the entries of `labels` start out as 0 in the model. -/
def label_table : Option LabelTable :=
  (loop_range 0 11).foldl
    (fun t i => (loop_range 0 11).foldl (fun t j => t.bind (label_step i j)) t)
    (some { buffer := fun _ => none, labels := fun _ _ => 0, p := 0 })

/-- The C string at offset `p` of the buffer, without its NUL, read with the
bound `fuel`. -/
def c_string (buffer : Int → Option Char) (p : Int) : Nat → Option (List Char)
  | 0 => none
  | fuel + 1 =>
    match buffer p with
    | none => none
    | some c =>
      if c = Char.ofNat 0 then some []
      else (c_string buffer (p + 1) fuel).map fun l => c :: l

/-- The string `labels[i][j]`. -/
def LabelTable.string (t : LabelTable) (i j : Int) : Option (List Char) :=
  c_string t.buffer (t.labels i j) 1000

/-- The text a label is to have: the decimal numeral of `i` when `i = j`, the
numerals of `i` and `j` with a vertical bar between them otherwise. -/
def expected_label (i j : Int) : List Char :=
  if i = j then (toString i).toList else (toString i).toList ++ ['|'] ++ (toString j).toList

/-! ## `linearizer_base.cpp`: accessors, the pinned maximum and the level cache -/

/-- The method `LinearizerBase::is_empty`. -/
def LinearizerBase.is_empty (s : LinearizerBase) : Bool := s.empty

/-- The method `LinearizerBase::get_num_triangles`. -/
def LinearizerBase.get_num_triangles (s : LinearizerBase) : Int := s.triangle_count

/-- The method `LinearizerBase::get_num_edges`. -/
def LinearizerBase.get_num_edges (s : LinearizerBase) : Int := s.edges_count

/-- The method `LinearizerBase::get_min_value`. -/
def LinearizerBase.get_min_value (s : LinearizerBase) : ℚ := s.min_val

/-- The method `LinearizerBase::get_max_value`. -/
def LinearizerBase.get_max_value (s : LinearizerBase) : ℚ := s.max_val

/-- The method `LinearizerBase::set_max_absolute_value`.  The argument is only
compared with zero and copied, so a rational stands for the `double`.  The
second component tells whether `warn` was called: the log of the mixin class
is not a member of the object. -/
def LinearizerBase.set_max_absolute_value (max_abs : ℚ) (s : LinearizerBase) :
    LinearizerBase × Bool :=
  if max_abs < 0 then (s, true)
  else ({ s with auto_max := false, max := max_abs }, false)

/-- The method `LinearizerBase::lock_data` (recursive mutex, counted). -/
def LinearizerBase.lock_data (s : LinearizerBase) : LinearizerBase :=
  { s with lock_count := s.lock_count + 1 }

/-- The method `LinearizerBase::init_linearizer_base`; the argument is
`sln->get_mesh()->get_max_element_id()`.  The `memset` with byte `-1` makes
every `int` of the new array `-1`.  Indices outside the array have no
contents; the model fills them with zeros.  `new` is taken to succeed. -/
def LinearizerBase.init_linearizer_base (max_element_id : Int) (s : LinearizerBase) :
    LinearizerBase :=
  let s := s.lock_data
  let s := if s.level_map_live then { s with level_map_live := false } else s
  { s with
    level_map_live := true
    level_map := fun i => if 0 ≤ i ∧ i < max_element_id then -1 else 0 }

/-- What `get_max_level` takes from outside the file: the macro `LIN_MAX_LEVEL`
of `linearizer_base.h`, and the value of `(int)ratio`, a floating-point
expression in the area of the element, the bounding box of the mesh and the
polynomial order. -/
structure LevelEnv where
  LIN_MAX_LEVEL : Int
  ratio_int : Element → Int → Mesh → Int

/-- The method `LinearizerBase::get_max_level`: the returned level and the
object afterwards. -/
def LinearizerBase.get_max_level (env : LevelEnv) (e : Element) (polynomial_order : Int)
    (mesh : Mesh) (s : LinearizerBase) : Int × LinearizerBase :=
  if s.level_map e.id ≠ -1 then (s.level_map e.id, s)
  else
    let s :=
      if e.is_curved then { s with level_map := set_at s.level_map e.id env.LIN_MAX_LEVEL }
      else
        { s with
          level_map := set_at s.level_map e.id
            (Min.min env.LIN_MAX_LEVEL (env.ratio_int e polynomial_order mesh)) }
    let s :=
      if e.is_quad && polynomial_order == 1 then
        { s with level_map := set_at s.level_map e.id 2 }
      else s
    (s.level_map e.id, s)

/-! ## Analysis of `regularize_triangle`

The recursive calls of one invocation, as data: every argument expression in
the source is either `peek_vertex(p1, p2)` or the literal `-1`. -/

/-- A triangle of the output: three vertex indices. -/
abbrev Tri : Type := Int × Int × Int

/-- The arguments of one call of `regularize_triangle`, marker aside. -/
structure Call where
  iv0 : Int
  iv1 : Int
  iv2 : Int
  mid0 : Int
  mid1 : Int
  mid2 : Int

/-- A `mid` argument as written at a recursive call site. -/
inductive MidArg where
  | peek (p1 p2 : Int)
  | minus_one

/-- A recursive call site with its argument expressions. -/
structure SubCall where
  iv0 : Int
  iv1 : Int
  iv2 : Int
  mid0 : MidArg
  mid1 : MidArg
  mid2 : MidArg

/-- The count `n` of hanging mid-edge vertices computed at the head of
`regularize_triangle`. -/
def hanging (mid0 mid1 mid2 : Int) : Int :=
  (if mid0 ≥ 0 then 1 else 0) + (if mid1 ≥ 0 then 1 else 0) + (if mid2 ≥ 0 then 1 else 0)

/-- The recursive calls made by `regularize_triangle` on `c`, in source order
(lines 172-175, 182-184, 188-190, 194-196, 204-205, 209-210, 214-215). -/
def subcalls (c : Call) : List SubCall :=
  let n := hanging c.mid0 c.mid1 c.mid2
  if n = 3 then
    [ ⟨c.iv0, c.mid0, c.mid2, .peek c.iv0 c.mid0, .minus_one, .peek c.mid2 c.iv0⟩,
      ⟨c.mid0, c.iv1, c.mid1, .peek c.mid0 c.iv1, .peek c.iv1 c.mid1, .minus_one⟩,
      ⟨c.mid2, c.mid1, c.iv2, .minus_one, .peek c.mid1 c.iv2, .peek c.iv2 c.mid2⟩,
      ⟨c.mid0, c.mid1, c.mid2, .minus_one, .minus_one, .minus_one⟩ ]
  else if n = 2 then
    if c.mid0 < 0 then
      [ ⟨c.iv0, c.iv1, c.mid1, .peek c.iv0 c.iv1, .peek c.iv1 c.mid1, .minus_one⟩,
        ⟨c.mid2, c.iv0, c.mid1, .peek c.mid2 c.iv0, .minus_one, .minus_one⟩,
        ⟨c.mid2, c.mid1, c.iv2, .minus_one, .peek c.mid1 c.iv2, .peek c.iv2 c.mid2⟩ ]
    else if c.mid1 < 0 then
      [ ⟨c.iv1, c.iv2, c.mid2, .peek c.iv1 c.iv2, .peek c.iv2 c.mid2, .minus_one⟩,
        ⟨c.mid0, c.iv1, c.mid2, .peek c.mid0 c.iv1, .minus_one, .minus_one⟩,
        ⟨c.mid0, c.mid2, c.iv0, .minus_one, .peek c.mid2 c.iv0, .peek c.iv0 c.mid0⟩ ]
    else
      [ ⟨c.iv2, c.iv0, c.mid0, .peek c.iv2 c.iv0, .peek c.iv0 c.mid0, .minus_one⟩,
        ⟨c.mid1, c.iv2, c.mid0, .peek c.mid1 c.iv2, .minus_one, .minus_one⟩,
        ⟨c.mid1, c.mid0, c.iv1, .minus_one, .peek c.mid0 c.iv1, .peek c.iv1 c.mid1⟩ ]
  else if n = 1 then
    if c.mid0 ≥ 0 then
      [ ⟨c.iv0, c.mid0, c.iv2, .peek c.iv0 c.mid0, .minus_one, .peek c.iv2 c.iv0⟩,
        ⟨c.mid0, c.iv1, c.iv2, .peek c.mid0 c.iv1, .peek c.iv1 c.iv2, .minus_one⟩ ]
    else if c.mid1 ≥ 0 then
      [ ⟨c.iv1, c.mid1, c.iv0, .peek c.iv1 c.mid1, .minus_one, .peek c.iv0 c.iv1⟩,
        ⟨c.mid1, c.iv2, c.iv0, .peek c.mid1 c.iv2, .peek c.iv2 c.iv0, .minus_one⟩ ]
    else
      [ ⟨c.iv2, c.mid2, c.iv1, .peek c.iv2 c.mid2, .minus_one, .peek c.iv1 c.iv2⟩,
        ⟨c.mid2, c.iv0, c.iv1, .peek c.mid2 c.iv0, .peek c.iv0 c.iv1, .minus_one⟩ ]
  else
    []

/-- Value of an argument expression in state `s`. -/
def MidArg.eval (s : LinearizerBase) (fuel : Nat) : MidArg → Option Int
  | .peek p1 p2 => s.peek_vertex fuel p1 p2
  | .minus_one => some (-1)

/-- The call that a call site performs in state `s`. -/
def SubCall.eval (s : LinearizerBase) (fuel : Nat) (sc : SubCall) : Option Call :=
  match sc.mid0.eval s fuel, sc.mid1.eval s fuel, sc.mid2.eval s fuel with
  | some m0, some m1, some m2 => some ⟨sc.iv0, sc.iv1, sc.iv2, m0, m1, m2⟩
  | _, _, _ => none

/-- Concatenation of the results of `f` over a list of call sites; `none` as
soon as one of them is `none`. -/
def collect (f : SubCall → Option (List Tri)) : List SubCall → Option (List Tri)
  | [] => some []
  | sc :: rest =>
    match f sc, collect f rest with
    | some a, some b => some (a ++ b)
    | _, _ => none

/-- The triangles handed to `add_triangle` by a call, in order, computed
against the deduplicator of `s`; `none` when `fuel` does not suffice. -/
def leaves (s : LinearizerBase) : Nat → Call → Option (List Tri)
  | 0, _ => none
  | fuel + 1, c =>
    match subcalls c with
    | [] => some [(c.iv0, c.iv1, c.iv2)]
    | sc :: rest => collect (fun sc => (sc.eval s fuel).bind (leaves s fuel)) (sc :: rest)

/-- An argument expression as a step of a computation. -/
def MidArg.run (fuel : Nat) : MidArg → Run LinearizerBase Int
  | .peek p1 p2 => LinearizerBase.peek fuel p1 p2
  | .minus_one => pure (-1)

/-- A call site as a computation: evaluate the three `mid` arguments, then
call `regularize_triangle`. -/
def SubCall.run (fuel : Nat) (marker : Int) (sc : SubCall) : Run LinearizerBase Unit := do
  let m0 ← sc.mid0.run fuel
  let m1 ← sc.mid1.run fuel
  let m2 ← sc.mid2.run fuel
  LinearizerBase.regularize_triangle fuel sc.iv0 sc.iv1 sc.iv2 m0 m1 m2 marker

/-- Successive `add_triangle` calls with one marker. -/
def add_triangles : List Tri → Int → Run LinearizerBase Unit
  | [], _ => pure ()
  | t :: l, marker => do
    LinearizerBase.add_triangle t.1 t.2.1 t.2.2 marker
    add_triangles l marker

/-- The deduplicator of `s0` is that of `s`: same buckets, same creation
records, same table size. -/
def SameTable (s s0 : LinearizerBase) : Prop :=
  s0.hash_table = s.hash_table ∧ s0.info = s.info ∧ s0.vertex_size = s.vertex_size

/-- The call `peek_vertex(p1, p2)` returns `m` in state `s`. -/
def PeekIs (s : LinearizerBase) (p1 p2 m : Int) : Prop :=
  ∃ fuel, s.peek_vertex fuel p1 p2 = some m

/-- State `s1` is `s` with the triangles `l` appended under `marker`: the count
grew by the length of `l`, the new entries are `l` in order, each with
`marker`, and the earlier entries are untouched. -/
def Appended (s s1 : LinearizerBase) (l : List Tri) (marker : Int) : Prop :=
  s1.triangle_count = s.triangle_count + l.length ∧
  (∀ k : Nat, ∀ h : k < l.length,
    s1.tris (s.triangle_count + k) = l.get ⟨k, h⟩ ∧
    s1.tri_markers (s.triangle_count + k) = marker) ∧
  (∀ i : Int, i < s.triangle_count →
    s1.tris i = s.tris i ∧ s1.tri_markers i = s.tri_markers i)

/-- Peek reports no midpoint on any of the three edges of triangle `t`. -/
def NoMidpointOn (s : LinearizerBase) (t : Tri) : Prop :=
  PeekIs s t.1 t.2.1 (-1) ∧ PeekIs s t.2.1 t.2.2 (-1) ∧ PeekIs s t.2.2 t.1 (-1)

/-- The sub-triangles of a call: the corner triples of its recursive calls. -/
def subtriangles (c : Call) : List Tri :=
  (subcalls c).map fun sc => (sc.iv0, sc.iv1, sc.iv2)

/-- The triangles added by a call whose sub-triangles have no midpoint on any
edge: its own triangle when nothing hangs, else its sub-triangles in order. -/
def direct (c : Call) : List Tri :=
  match subcalls c with
  | [] => [(c.iv0, c.iv1, c.iv2)]
  | _ :: _ => subtriangles c

/-- The two triangles of the case `n == 1`, as the specification lists them:
both contain the hanging vertex and the corner opposite its edge. -/
def one_hanging_split (iv0 iv1 iv2 mid0 mid1 mid2 : Int) : List Tri :=
  if mid0 ≥ 0 then [(iv0, mid0, iv2), (mid0, iv1, iv2)]
  else if mid1 ≥ 0 then [(iv1, mid1, iv0), (mid1, iv2, iv0)]
  else [(iv2, mid2, iv1), (mid2, iv0, iv1)]

/-- The three triangles of the case `n == 2`, as the specification lists them:
two triangles splitting the quadrilateral next to the whole edge along the
diagonal from a whole-edge endpoint to a midpoint, and the corner triangle of
the pivot with the two midpoints. -/
def two_hanging_split (iv0 iv1 iv2 mid0 mid1 mid2 : Int) : List Tri :=
  if mid0 < 0 then [(iv0, iv1, mid1), (mid2, iv0, mid1), (mid2, mid1, iv2)]
  else if mid1 < 0 then [(iv1, iv2, mid2), (mid0, iv1, mid2), (mid0, mid2, iv0)]
  else [(iv2, iv0, mid0), (mid1, iv2, mid0), (mid1, mid0, iv1)]

/-- The run `r`, started in `s`, did exactly the calls `add_triangle` for the
triangles of `l`, in order and with `marker`: it is that sequence of calls;
whenever it returned, `l` has been appended; and it does return when the
allocator never fails. -/
def Emits (r : Result LinearizerBase Unit) (s : LinearizerBase) (l : List Tri)
    (marker : Int) : Prop :=
  r = add_triangles l marker s ∧
  (∀ s1, r = .ok () s1 → Appended s s1 l marker) ∧
  ((∀ k, s.heap k = true) → ∃ s1, r = .ok () s1)

/-- Position `k` of the chain that starts at index `i`: follow the links
`info[.][2]`. -/
def LinearizerBase.chain (s : LinearizerBase) (i : Int) : Nat → Int
  | 0 => i
  | k + 1 => s.info (s.chain i k) 2

/-- Index `i` is stored in the deduplicator: it lies on the chain of a bucket
that `hash` can select, before the end of that chain. -/
def Stored (s : LinearizerBase) (i : Int) : Prop :=
  ∃ p1 p2 k, s.chain (s.hash_table (s.hash p1 p2)) k = i ∧
    ∀ j, j ≤ k → 0 ≤ s.chain (s.hash_table (s.hash p1 p2)) j

/-- Every bucket chain is finite: following the links from the head of any
bucket that `hash` can select reaches a negative index. -/
def ChainsEnd (s : LinearizerBase) : Prop :=
  ∀ p1 p2, ∃ k, s.chain (s.hash_table (s.hash p1 p2)) k < 0

/-- Every stored midpoint index is strictly greater than both parent indices of
its creation record. -/
def ParentsBelow (s : LinearizerBase) : Prop :=
  ∀ i, Stored s i → s.info i 0 < i ∧ s.info i 1 < i

/-- The argument is the literal `-1`. -/
def MidArg.is_literal : MidArg → Bool
  | .minus_one => true
  | .peek _ _ => false

/-- The edges of the sub-triangle of a call site for which the literal `-1` is
passed: `mid0` stands for the edge from the first to the second corner, `mid1`
from the second to the third, `mid2` from the third to the first. -/
def SubCall.literal_edges (sc : SubCall) : List (Int × Int) :=
  (if sc.mid0.is_literal then [(sc.iv0, sc.iv1)] else []) ++
  (if sc.mid1.is_literal then [(sc.iv1, sc.iv2)] else []) ++
  (if sc.mid2.is_literal then [(sc.iv2, sc.iv0)] else [])

/-- Edge `(a, b)` is introduced inside the triangle of call `c`: at some
recursion depth below `c`, a recursive call passes the literal `-1` for it. -/
inductive Introduced (s : LinearizerBase) : Call → Int → Int → Prop
  | here {c : Call} {sc : SubCall} {a b : Int} :
      sc ∈ subcalls c → (a, b) ∈ sc.literal_edges → Introduced s c a b
  | deeper {c : Call} {sc : SubCall} {fuel : Nat} {c2 : Call} {a b : Int} :
      sc ∈ subcalls c → sc.eval s fuel = some c2 → Introduced s c2 a b → Introduced s c a b

/-- The invariant of the termination argument, for a bound `B` on all indices:
a non-negative `mid` lies above both endpoints of its edge, and all corners and
`mid`s lie below `B`. -/
def Ascending (B : Int) (c : Call) : Prop :=
  (0 ≤ c.mid0 → c.iv0 < c.mid0 ∧ c.iv1 < c.mid0) ∧
  (0 ≤ c.mid1 → c.iv1 < c.mid1 ∧ c.iv2 < c.mid1) ∧
  (0 ≤ c.mid2 → c.iv2 < c.mid2 ∧ c.iv0 < c.mid2) ∧
  c.iv0 < B ∧ c.iv1 < B ∧ c.iv2 < B ∧ c.mid0 < B ∧ c.mid1 < B ∧ c.mid2 < B

/-- Every index held by the deduplicator is below the vertex count: the head
of every bucket that `hash` can select, and the link of every creation record
of a vertex.  (Negative values end a chain.) -/
def IndicesInRange (s : LinearizerBase) : Prop :=
  (∀ p1 p2, s.hash_table (s.hash p1 p2) < s.vertex_count) ∧
  (∀ i, 0 ≤ i → i < s.vertex_count → s.info i 2 < s.vertex_count)

/-- The three indices of a triangle are vertex indices below `n`. -/
def Tri.below (n : Int) (t : Tri) : Prop :=
  (0 ≤ t.1 ∧ t.1 < n) ∧ (0 ≤ t.2.1 ∧ t.2.1 < n) ∧ (0 ≤ t.2.2 ∧ t.2.2 < n)

instance (n : Int) (t : Tri) : Decidable (Tri.below n t) := by
  unfold Tri.below
  infer_instance

/-- The invariant of the range argument: corners are vertex indices below `n`
and so is every non-negative `mid`. -/
def Call.below (n : Int) (c : Call) : Prop :=
  Tri.below n (c.iv0, c.iv1, c.iv2) ∧
  (0 ≤ c.mid0 → c.mid0 < n) ∧ (0 ≤ c.mid1 → c.mid1 < n) ∧ (0 ≤ c.mid2 → c.mid2 < n)

/-- The invariant of the conformance argument: the three `mid` arguments are
what `peek_vertex` returns on the three edges of the call, and `peek_vertex`
reports no midpoint on any edge introduced below the call. -/
def Consistent (s : LinearizerBase) (c : Call) : Prop :=
  (PeekIs s c.iv0 c.iv1 c.mid0 ∧ PeekIs s c.iv1 c.iv2 c.mid1 ∧ PeekIs s c.iv2 c.iv0 c.mid2) ∧
  ∀ a b, Introduced s c a b → PeekIs s a b (-1)

/-- Position `k` lies on the chain that starts at `head`: the chain has not
ended at or before `k`. -/
def OnChain (s : LinearizerBase) (head : Int) (k : Nat) : Prop :=
  ∀ j, j ≤ k → 0 ≤ s.chain head j

/-- The creation record of index `i` carries the parent pair `(p1, p2)`. -/
def Matches (s : LinearizerBase) (p1 p2 i : Int) : Prop :=
  s.info i 0 = p1 ∧ s.info i 1 = p2

/-- The lookup result the specification describes for the chain starting at
`head`: `m` is the first index on the chain whose record carries `(p1, p2)`,
and `m` is `-1` exactly when no record on the chain does. -/
def FirstMatch (s : LinearizerBase) (head p1 p2 m : Int) : Prop :=
  (m = -1 ↔ ∀ k, OnChain s head k → ¬ Matches s p1 p2 (s.chain head k)) ∧
  (m ≠ -1 → ∃ k, OnChain s head k ∧ s.chain head k = m ∧ Matches s p1 p2 m ∧
    ∀ j, j < k → ¬ Matches s p1 p2 (s.chain head j))

/-- State `s1` comes after `s` in a pass of an `Orderizer`: the vertex count
has not dropped, the vertices that existed are untouched, and the allocator
oracle is the same. -/
def Grows (s s1 : Orderizer) : Prop :=
  s.vertex_count ≤ s1.vertex_count ∧ (∀ i, i < s.vertex_count → s1.verts i = s.verts i) ∧
  s1.heap = s.heap

/-- The number of entries of the local array `id` that `process_space` fills
for element `e`: one per point but the first in the edge-order and curved
case, one per point in the simple case. -/
def Element.id_count (env : OrdEnv) (show_edge_orders : Bool) (e : Element) : Int :=
  if show_edge_orders || e.is_curved then env.ord.np e.mode - 1 else env.simple.np e.mode

/-- The number of vertices `process_space` creates for the label of element
`e` before it fills `id`: one in the edge-order and curved case, two in the
simple case. -/
def Element.label_verts (show_edge_orders : Bool) (e : Element) : Int :=
  if show_edge_orders || e.is_curved then 1 else 2

/-- The coordinates of the point whose vertex index goes to `id[j]`: point
`j + 1` of the reference map in the edge-order and curved case, point `j` in
the simple case. -/
def Element.point (show_edge_orders : Bool) (e : Element) (j : Int) : ℚ × ℚ :=
  if show_edge_orders || e.is_curved then (e.phys_x (j + 1), e.phys_y (j + 1))
  else (e.phys_x_simple j, e.phys_y_simple j)

/-- An edge with its marker, as `add_edge` stores the two. -/
abbrev MarkedEdge : Type := (Int × Int) × Int

/-- The edge buffers of `s1` are those of `s`. -/
def SameEdges (s s1 : LinearizerBase) : Prop :=
  s1.edges = s.edges ∧ s1.edge_markers = s.edge_markers ∧ s1.edges_count = s.edges_count

/-- State `s1` is `s` with the marked edges `l` appended: the count grew by the
length of `l`, the new entries are `l` in order, and the earlier entries are
untouched. -/
def AppendedEdges (s s1 : LinearizerBase) (l : List MarkedEdge) : Prop :=
  s1.edges_count = s.edges_count + l.length ∧
  (∀ k : Nat, ∀ h : k < l.length,
    s1.edges (s.edges_count + k) = (l.get ⟨k, h⟩).1 ∧
    s1.edge_markers (s.edges_count + k) = (l.get ⟨k, h⟩).2) ∧
  (∀ i : Int, i < s.edges_count →
    s1.edges i = s.edges i ∧ s1.edge_markers i = s.edge_markers i)

/-- The test of lines 255-257 of `process_space` for edge `i` of the table: the
edge lies on the boundary, or its first point comes before its second one in
the order by `y`, then by `x`. -/
def Element.edge_test (tab : OrdTables) (e : Element) (i : Int) : Bool :=
  e.en_bnd (tab.ord_edge e.mode i).2.2 ||
    decide (e.phys_y ((tab.ord_edge e.mode i).1 + 1) < e.phys_y ((tab.ord_edge e.mode i).2.1 + 1)) ||
    (decide (e.phys_y ((tab.ord_edge e.mode i).1 + 1) = e.phys_y ((tab.ord_edge e.mode i).2.1 + 1)) &&
      decide (e.phys_x ((tab.ord_edge e.mode i).1 + 1) < e.phys_x ((tab.ord_edge e.mode i).2.1 + 1)))

/-- Edge `i` of the table with the vertex indices of `id` and the marker of its
edge node: the arguments of the `add_edge` call for it. -/
def Element.table_edge (tab : OrdTables) (e : Element) (id : Int → Int) (i : Int) : MarkedEdge :=
  ((id (tab.ord_edge e.mode i).1, id (tab.ord_edge e.mode i).2.1),
    e.en_marker (tab.ord_edge e.mode i).2.2)

/-- The `add_edge` calls of one iteration of the loop of `process_space`, in
order: in the edge-order and curved case the table edges that pass the test, in
the simple case all table edges. -/
def Element.edge_list (env : OrdEnv) (show_edge_orders : Bool) (e : Element) (id : Int → Int) :
    List MarkedEdge :=
  if show_edge_orders || e.is_curved then
    ((loop_range 0 (env.ord.num_edge e.mode)).filter (e.edge_test env.ord)).map
      (e.table_edge env.ord id)
  else
    (loop_range 0 (env.simple.num_edge e.mode)).map (e.table_edge env.simple id)

/-- The `add_edge` calls of the whole loop of `process_space`, from the `id`
arrays of the iterations. -/
def edge_lists (env : OrdEnv) (show_edge_orders : Bool) :
    List Element → List (Int → Int) → List MarkedEdge
  | e :: es, id :: ids => e.edge_list env show_edge_orders id ++ edge_lists env show_edge_orders es ids
  | _, _ => []

/-- The label members of `s1`, `lvert` apart, are those of `s`. -/
def SameLabels (s s1 : Orderizer) : Prop :=
  s1.label_count = s.label_count ∧ s1.ltext = s.ltext ∧ s1.lbox = s.lbox

/-- Every entry `labels[i][j]` with `i`, `j` in 0..10 is the NUL-terminated
string `expected_label i j`. -/
def LabelTable.HasTexts (t : LabelTable) : Prop :=
  ∀ i j, 0 ≤ i → i ≤ 10 → 0 ≤ j → j ≤ 10 → t.string i j = some (expected_label i j)

/-- No two of the 121 strings overlap: of two different entries, one string
ends, NUL included, before the other begins. -/
def LabelTable.NoOverlap (t : LabelTable) : Prop :=
  ∀ i j i2 j2, 0 ≤ i → i ≤ 10 → 0 ≤ j → j ≤ 10 → 0 ≤ i2 → i2 ≤ 10 → 0 ≤ j2 → j2 ≤ 10 →
    (i, j) ≠ (i2, j2) →
    t.labels i j + ((expected_label i j).length : Int) + 1 ≤ t.labels i2 j2 ∨
    t.labels i2 j2 + ((expected_label i2 j2).length : Int) + 1 ≤ t.labels i j

/-- The edges handed to `add_edge` by a call of `process_edge`, in order,
computed against the deduplicator of `s`; `none` when `fuel` does not
suffice. -/
def edge_leaves (s : LinearizerBase) : Nat → Int → Int → Option (List (Int × Int))
  | 0, _, _ => none
  | fuel + 1, iv1, iv2 =>
    match s.peek_vertex fuel iv1 iv2 with
    | none => none
    | some mid =>
      if mid ≠ -1 then
        match edge_leaves s fuel iv1 mid, edge_leaves s fuel mid iv2 with
        | some a, some b => some (a ++ b)
        | _, _ => none
      else some [(iv1, iv2)]

/-- Calls of `add_edge`, one after the other, with one marker. -/
def add_edges : List (Int × Int) → Int → Run LinearizerBase Unit
  | [], _ => pure ()
  | e :: l, marker => do
    LinearizerBase.add_edge e.1 e.2 marker
    add_edges l marker

/-- The edges of `l` form a chain from `a` to `b`: one edge from `a` to `b`, or
an edge from `a` followed by a chain from its end to `b`. -/
inductive IsChain : Int → Int → List (Int × Int) → Prop
  | single (a b : Int) : IsChain a b [(a, b)]
  | link (a m b : Int) (l : List (Int × Int)) : IsChain m b l → IsChain a b ((a, m) :: l)

/-- The list `l` is a non-empty sequence of edges of which the first starts at
`iv1`, the last ends at `iv2`, and each ends where the next one starts. -/
def ConnectedChain (iv1 iv2 : Int) (l : List (Int × Int)) : Prop :=
  (∃ first last, l.head? = some first ∧ l.getLast? = some last ∧
    first.1 = iv1 ∧ last.2 = iv2) ∧
  ∀ (k : Nat) (e e2 : Int × Int), l[k]? = some e → l[k + 1]? = some e2 → e.2 = e2.1

/-- A deduplicator of eight buckets holding the midpoints of one refined edge
and of its first half: vertex 3 between 0 and 1 (bucket `hash(0, 1) = 1`),
vertex 4 between 0 and 3 (bucket `hash(0, 3) = 3`).  Triangle capacity 16,
allocator never failing. -/
def nested_edge : LinearizerBase :=
  { LinearizerBase.new true (fun _ => true) with
    vertex_size := 8
    vertex_count := 5
    triangle_size := 16
    tris_live := true
    tri_markers_live := true
    hash_table := fun b => if b = 1 then 3 else if b = 3 then 4 else -1
    info := fun i k =>
      if i = 3 then (if k = 0 then 0 else if k = 1 then 1 else -1)
      else if i = 4 then (if k = 0 then 0 else if k = 1 then 3 else -1)
      else -1 }

/-- The object `nested_edge` in the middle of a pass: the edge buffers are
allocated at their default capacity 15000 and hold 14999 edges. -/
def nested_edge_pass : LinearizerBase :=
  { nested_edge with
    empty := false
    edges_live := true
    edge_markers_live := true
    edges_size := 15000
    edges_count := 14999 }

/-- A deduplicator of eight buckets holding the three edge midpoints of the
triangle 0, 1, 2: vertex 3 between 0 and 1 (bucket `hash(0, 1) = 1`), vertex 4
between 1 and 2 (bucket `hash(1, 2) = 3`), vertex 5 between 0 and 2 (bucket
`hash(0, 2) = 2`). -/
def refined_once : LinearizerBase :=
  { LinearizerBase.new true (fun _ => true) with
    vertex_size := 8
    vertex_count := 6
    triangle_size := 16
    tris_live := true
    tri_markers_live := true
    hash_table := fun b => if b = 1 then 3 else if b = 3 then 4 else if b = 2 then 5 else -1
    info := fun i k =>
      if i = 3 then (if k = 0 then 0 else if k = 1 then 1 else -1)
      else if i = 4 then (if k = 0 then 1 else if k = 1 then 2 else -1)
      else if i = 5 then (if k = 0 then 0 else if k = 1 then 2 else -1)
      else -1 }

/-- A deduplicator of eight buckets holding the midpoints of two edges of the
triangle 0, 1, 2: vertex 3 between 0 and 1 (bucket `hash(0, 1) = 1`), vertex 4
between 1 and 2 (bucket `hash(1, 2) = 3`). -/
def two_refined_edges : LinearizerBase :=
  { LinearizerBase.new true (fun _ => true) with
    vertex_size := 8
    vertex_count := 5
    triangle_size := 16
    tris_live := true
    tri_markers_live := true
    hash_table := fun b => if b = 1 then 3 else if b = 3 then 4 else -1
    info := fun i k =>
      if i = 3 then (if k = 0 then 0 else if k = 1 then 1 else -1)
      else if i = 4 then (if k = 0 then 1 else if k = 1 then 2 else -1)
      else -1 }

/-- A table set for triangles with three points, all of them taking the order
slot 4, one triangle and three edges. -/
def corner_tables : OrdTables where
  np := fun _ => 3
  pt := fun _ _ => 4
  num_elem := fun _ => 1
  ord_elem := fun _ _ => (0, 1, 2)
  num_edge := fun _ => 3
  ord_edge := fun _ i => (i, (i + 1) % 3, i)

/-- An environment with `corner_tables` for both quadratures and five bits
per direction in an encoded order. -/
def corner_env : OrdEnv where
  ord := corner_tables
  simple := corner_tables
  h_order := fun o => o % 32
  v_order := fun o => o / 32
  garbage := fun _ => 0

/-- A straight triangle of order 2 with the given corners. -/
def straight_triangle (id : Int) (x y : Int → ℚ) : Element where
  id := id
  marker := 1
  nvert := 3
  mode := 0
  is_curved := false
  is_triangle := true
  is_quad := false
  element_order := 2
  edge_order := fun _ => 2
  en_bnd := fun _ => false
  en_marker := fun _ => 0
  vn_x := x
  vn_y := y
  phys_x := x
  phys_y := y
  phys_x_simple := x
  phys_y_simple := y

/-- The triangle with corners (0,0), (1,0), (0,1). -/
def lower_triangle : Element :=
  straight_triangle 0 (fun k => if k = 1 then 1 else 0) (fun k => if k = 2 then 1 else 0)

/-- The triangle with corners (1,0), (1,1), (0,1); it shares the edge from
(1,0) to (0,1) with `lower_triangle`. -/
def upper_triangle : Element :=
  straight_triangle 1 (fun k => if k = 2 then 0 else 1) (fun k => if k = 0 then 0 else 1)

/-- The unit square cut into `lower_triangle` and `upper_triangle`, with an
up-to-date space on it. -/
def unit_square : Space where
  is_up_to_date := true
  mesh := { num_elements := 2, active := [lower_triangle, upper_triangle] }

/-- The integer `n` is a power of two. -/
def PowerOfTwo (n : Int) : Prop := ∃ k : Nat, n = 2 ^ k

/-- Marker buffers exist only together with their data buffers: the pairing in
which `free` releases them. -/
def Paired (s : LinearizerBase) : Prop :=
  (s.tris_live = false → s.tri_markers_live = false) ∧
  (s.edges_live = false → s.edge_markers_live = false)

/-- The four output buffers are null. -/
def Released (s : LinearizerBase) : Prop :=
  s.tris_live = false ∧ s.tri_markers_live = false ∧ s.edges_live = false ∧
  s.edge_markers_live = false

/-- An object in the middle of a pass: the triangle buffer, still of its
default size, is full, and the allocator, having granted the eight requests of
`reallocate_common`, has nothing left to give. -/
def full_triangle_buffer : LinearizerBase :=
  { LinearizerBase.new true (fun k => decide (k < 8)) with
    empty := false
    tris_live := true
    tri_markers_live := true
    edges_live := true
    edge_markers_live := true
    vertex_count := 5200
    triangle_count := 10000
    edges_count := 400
    vertex_size := 10000
    triangle_size := 10000
    edges_size := 15000
    lock_count := 1
    heap_calls := 8 }

/-- An object in the middle of a pass with all three buffers, still of their
default sizes, full, and an allocator that grants every request. -/
def full_buffers : LinearizerBase :=
  { LinearizerBase.new true (fun _ => true) with
    empty := false
    tris_live := true
    tri_markers_live := true
    edges_live := true
    edge_markers_live := true
    vertex_count := 10000
    triangle_count := 10000
    edges_count := 15000
    vertex_size := 10000
    triangle_size := 10000
    edges_size := 15000
    lock_count := 1
    heap_calls := 8 }

/-- The object `full_buffers` after its vertex and triangle buffers have grown
once. -/
def grown_buffers : LinearizerBase :=
  { full_buffers with vertex_size := 15000, triangle_size := 15000 }

/-- An `Orderizer` on `full_buffers`. -/
def full_orderizer : Orderizer :=
  { Orderizer.new true (fun _ => true) with
    toLinearizerBase := full_buffers
    verts_live := true
    label_size := 1010
    lvert_live := true
    ltext_live := true
    lbox_live := true }

/-- An allocator that refuses exactly its tenth request: on an `Orderizer` the
first `reallocate_common` makes requests 0 to 7, the second one asks for
`tris` with request 8 and for `tri_markers` with request 9. -/
def tenth_request_fails : Nat → Bool := fun k => decide (k ≠ 9)

/-- An object whose last pass found the maximum 10. -/
def processed_field : LinearizerBase :=
  { full_buffers with min_val := 0, max_val := 10 }

/-- The level `get_max_level` computes when the cache has no entry. -/
def LevelEnv.fresh_level (env : LevelEnv) (e : Element) (polynomial_order : Int) (mesh : Mesh) :
    Int :=
  if e.is_quad && polynomial_order == 1 then 2
  else if e.is_curved then env.LIN_MAX_LEVEL
  else Min.min env.LIN_MAX_LEVEL (env.ratio_int e polynomial_order mesh)

/-- Level environment with `LIN_MAX_LEVEL` 6 and a ratio that grows with the
polynomial order. -/
def order_levels : LevelEnv where
  LIN_MAX_LEVEL := 6
  ratio_int := fun _ polynomial_order _ => polynomial_order - 1

/-- Level environment with `LIN_MAX_LEVEL` 6 in which the ratio of a polynomial
order below 1 is not a number (the square root of a negative number) and its
conversion yields the least `int`. -/
def root_levels : LevelEnv where
  LIN_MAX_LEVEL := 6
  ratio_int := fun _ polynomial_order _ =>
    if polynomial_order < 1 then -2147483648 else polynomial_order - 1

/-- The object `processed_field` at the start of a new pass over a mesh with
element ids below 2. -/
def new_pass : LinearizerBase := processed_field.init_linearizer_base 2

/-- A curved quadrilateral with id 0. -/
def curved_quad : Element :=
  { lower_triangle with
    nvert := 4
    mode := 1
    is_curved := true
    is_triangle := false
    is_quad := true }

/-- A straight quadrilateral with id 0. -/
def straight_quad : Element := { curved_quad with is_curved := false }

/-- The triangle with corners (0,0), (1,0), (0,1), all of whose edges lie on
the boundary and carry the marker 5. -/
def marked_triangle : Element :=
  { lower_triangle with en_bnd := fun _ => true, en_marker := fun _ => 5 }

/-- A mesh of the single element `marked_triangle`, with an up-to-date space
on it. -/
def marked_space : Space where
  is_up_to_date := true
  mesh := { num_elements := 1, active := [marked_triangle] }

/-- A stand-in for the conversion `%g` that prints the integer part. -/
def integer_part : ℚ → String := fun q => toString (Int.floor q)

/-! ## Theorems -/

/-! ### The monad -/

theorem run_bind_def {σ α β : Type} (m : Run σ α) (k : α → Run σ β) :
    (m >>= k) = Run.bind m k := rfl

theorem run_pure_def {σ α : Type} (a : α) : (pure a : Run σ α) = fun s => Result.ok a s := rfl

theorem run_pure_bind {σ α β : Type} (a : α) (k : α → Run σ β) : (pure a >>= k) = k a := rfl

theorem run_bind_assoc {σ α β γ : Type} (m : Run σ α) (k : α → Run σ β) (k2 : β → Run σ γ) :
    ((m >>= k) >>= k2) = (m >>= fun a => k a >>= k2) := by
  funext s
  simp only [run_bind_def, Run.bind]
  cases m s <;> rfl

theorem run_bind_unit {σ : Type} (m : Run σ Unit) : (m >>= fun _ => pure ()) = m := by
  funext s
  simp only [run_bind_def, Run.bind, run_pure_def]
  cases m s <;> rfl

/-- One unfolding of `regularize_triangle`: a call with no hanging vertex adds
its triangle, any other call runs its call sites in order. -/
theorem regularize_triangle_succ (fuel : Nat) (iv0 iv1 iv2 mid0 mid1 mid2 marker : Int) :
    LinearizerBase.regularize_triangle (fuel + 1) iv0 iv1 iv2 mid0 mid1 mid2 marker =
      match subcalls ⟨iv0, iv1, iv2, mid0, mid1, mid2⟩ with
      | [] => LinearizerBase.add_triangle iv0 iv1 iv2 marker
      | sc :: rest => runSeq (SubCall.run fuel marker) (sc :: rest) := by
  rw [LinearizerBase.regularize_triangle]
  simp only [subcalls, hanging]
  split_ifs <;>
    simp only [runSeq, SubCall.run, MidArg.run, run_pure_bind, run_bind_assoc, run_bind_unit]

/-! ### The chain search -/

theorem peek_vertex_loop_mono (s : LinearizerBase) (p1 p2 : Int) :
    ∀ (fuel : Nat) (i m : Int), s.peek_vertex_loop p1 p2 fuel i = some m →
      ∀ fuel2, fuel ≤ fuel2 → s.peek_vertex_loop p1 p2 fuel2 i = some m := by
  intro fuel
  induction fuel with
  | zero => intro i m h; simp [LinearizerBase.peek_vertex_loop] at h
  | succ f ih =>
    intro i m h fuel2 hle
    obtain ⟨g, rfl⟩ : ∃ g, fuel2 = g + 1 := ⟨fuel2 - 1, by omega⟩
    rw [LinearizerBase.peek_vertex_loop] at h ⊢
    split_ifs at h ⊢ with h1 h2
    · exact h
    · exact ih _ _ h g (by omega)
    · exact h

theorem peek_vertex_mono (s : LinearizerBase) {fuel fuel2 : Nat} {p1 p2 m : Int}
    (h : s.peek_vertex fuel p1 p2 = some m) (hle : fuel ≤ fuel2) :
    s.peek_vertex fuel2 p1 p2 = some m := by
  unfold LinearizerBase.peek_vertex at h ⊢
  split_ifs at h ⊢
  · exact peek_vertex_loop_mono s _ _ _ _ _ h _ hle
  · exact peek_vertex_loop_mono s _ _ _ _ _ h _ hle

theorem peek_vertex_loop_congr (s s0 : LinearizerBase) (h : s0.info = s.info) (p1 p2 : Int) :
    ∀ (fuel : Nat) (i : Int), s0.peek_vertex_loop p1 p2 fuel i = s.peek_vertex_loop p1 p2 fuel i := by
  intro fuel
  induction fuel with
  | zero => intro i; rfl
  | succ f ih =>
    intro i
    rw [LinearizerBase.peek_vertex_loop, LinearizerBase.peek_vertex_loop, h, ih]

theorem sameTable_peek_vertex {s s0 : LinearizerBase} (h : SameTable s s0) (fuel : Nat) (p1 p2 : Int) :
    s0.peek_vertex fuel p1 p2 = s.peek_vertex fuel p1 p2 := by
  obtain ⟨h1, h2, h3⟩ := h
  unfold LinearizerBase.peek_vertex LinearizerBase.hash
  rw [h1, h3]
  simp only [peek_vertex_loop_congr s s0 h2]

theorem sameTable_refl (s : LinearizerBase) : SameTable s s := ⟨rfl, rfl, rfl⟩

theorem sameTable_trans {s s1 s2 : LinearizerBase} (h1 : SameTable s s1) (h2 : SameTable s1 s2) :
    SameTable s s2 :=
  ⟨h2.1.trans h1.1, h2.2.1.trans h1.2.1, h2.2.2.trans h1.2.2⟩

/-! ### `add_triangle` -/

/-- A returning `add_triangle` stores the triangle and its marker at the old
count, increments the count and leaves the deduplicator, the vertex count and
the allocator oracle alone. -/
theorem add_triangle_ok {iv0 iv1 iv2 marker : Int} {s s1 : LinearizerBase}
    (h : LinearizerBase.add_triangle iv0 iv1 iv2 marker s = .ok () s1) :
    SameTable s s1 ∧ s1.vertex_count = s.vertex_count ∧ s1.heap = s.heap ∧
    s1.triangle_count = s.triangle_count + 1 ∧
    s1.tris = (fun i => if i = s.triangle_count then (iv0, iv1, iv2) else s.tris i) ∧
    s1.tri_markers = (fun i => if i = s.triangle_count then marker else s.tri_markers i) := by
  unfold LinearizerBase.add_triangle at h
  simp only [LinearizerBase.realloc] at h
  split_ifs at h <;> simp only [Result.ok.injEq, true_and] at h <;> subst h <;>
    exact ⟨⟨rfl, rfl, rfl⟩, rfl, rfl, rfl, rfl, rfl⟩

theorem add_triangle_ne_fuel (iv0 iv1 iv2 marker : Int) (s : LinearizerBase) :
    LinearizerBase.add_triangle iv0 iv1 iv2 marker s ≠ .out_of_fuel := by
  unfold LinearizerBase.add_triangle
  simp only [LinearizerBase.realloc]
  split_ifs <;> simp

/-- With an allocator that never fails, `add_triangle` returns. -/
theorem add_triangle_returns (iv0 iv1 iv2 marker : Int) (s : LinearizerBase)
    (hheap : ∀ k, s.heap k = true) :
    ∃ s1, LinearizerBase.add_triangle iv0 iv1 iv2 marker s = .ok () s1 := by
  unfold LinearizerBase.add_triangle
  simp only [LinearizerBase.realloc, hheap]
  split_ifs <;> exact ⟨_, rfl⟩

/-! ### `add_triangles` -/

theorem add_triangles_append (l1 l2 : List Tri) (marker : Int) :
    add_triangles (l1 ++ l2) marker = (add_triangles l1 marker >>= fun _ => add_triangles l2 marker) := by
  induction l1 with
  | nil => rfl
  | cons t l ih =>
    show add_triangles (t :: (l ++ l2)) marker = _
    simp only [add_triangles, ih, run_bind_assoc]

theorem add_triangles_ne_fuel (l : List Tri) (marker : Int) :
    ∀ s, add_triangles l marker s ≠ .out_of_fuel := by
  induction l with
  | nil => intro s; simp [add_triangles, run_pure_def]
  | cons t l ih =>
    intro s
    simp only [add_triangles, run_bind_def, Run.bind]
    have := add_triangle_ne_fuel t.1 t.2.1 t.2.2 marker s
    cases h : LinearizerBase.add_triangle t.1 t.2.1 t.2.2 marker s with
    | ok a s1 => exact ih s1
    | out_of_memory s1 => simp
    | invalid_input s1 => simp
    | out_of_fuel => exact absurd h this

/-- A returning `add_triangles` appends its list. -/
theorem add_triangles_ok (l : List Tri) (marker : Int) :
    ∀ s s1, add_triangles l marker s = .ok () s1 →
      SameTable s s1 ∧ s1.vertex_count = s.vertex_count ∧ s1.heap = s.heap ∧
      Appended s s1 l marker := by
  induction l with
  | nil =>
    intro s s1 h
    simp only [add_triangles, run_pure_def, Result.ok.injEq, true_and] at h
    subst h
    refine ⟨sameTable_refl _, rfl, rfl, by simp, ?_, fun i _ => ⟨rfl, rfl⟩⟩
    intro k h
    simp at h
  | cons t l ih =>
    intro s s1 h
    simp only [add_triangles, run_bind_def, Run.bind] at h
    cases h1 : LinearizerBase.add_triangle t.1 t.2.1 t.2.2 marker s with
    | out_of_memory s2 => rw [h1] at h; simp at h
    | invalid_input s2 => rw [h1] at h; simp at h
    | out_of_fuel => rw [h1] at h; simp at h
    | ok a s2 =>
      rw [h1] at h
      obtain ⟨hT, hv, hh, hc, ht, hm⟩ := add_triangle_ok h1
      obtain ⟨hT2, hv2, hh2, hc2, hnew, hold⟩ := ih s2 s1 h
      refine ⟨sameTable_trans hT hT2, hv2.trans hv, hh2.trans hh, ?_, ?_, ?_⟩
      · rw [hc2, hc]; simp only [List.length_cons]; push_cast; ring
      · intro k hk
        cases k with
        | zero =>
          have := hold s.triangle_count (by rw [hc]; omega)
          simp only [Nat.cast_zero, add_zero, List.get_eq_getElem, List.getElem_cons_zero]
          rw [this.1, this.2, ht, hm]
          simp
        | succ j =>
          have hj : j < l.length := by simpa using hk
          have := hnew j hj
          rw [hc] at this
          have e : s.triangle_count + ((j + 1 : Nat) : Int) = s.triangle_count + 1 + (j : Int) := by
            push_cast; ring
          rw [e]
          simpa using this
      · intro i hi
        have := hold i (by rw [hc]; omega)
        rw [this.1, this.2, ht, hm]
        have hne : i ≠ s.triangle_count := by omega
        simp [hne]

/-- With an allocator that never fails, `add_triangles` returns. -/
theorem add_triangles_returns (l : List Tri) (marker : Int) :
    ∀ s, (∀ k, s.heap k = true) → ∃ s1, add_triangles l marker s = .ok () s1 := by
  induction l with
  | nil => intro s _; exact ⟨s, rfl⟩
  | cons t l ih =>
    intro s hheap
    obtain ⟨s2, h2⟩ := add_triangle_returns t.1 t.2.1 t.2.2 marker s hheap
    have hh := (add_triangle_ok h2).2.2.1
    obtain ⟨s1, h1⟩ := ih s2 (by rw [hh]; exact hheap)
    refine ⟨s1, ?_⟩
    simp only [add_triangles, run_bind_def, Run.bind, h2, h1]

/-! ### Call sites and `leaves` -/

theorem collect_cons_eq_some {f : SubCall → Option (List Tri)} {sc : SubCall} {rest : List SubCall}
    {l : List Tri} :
    collect f (sc :: rest) = some l ↔
      ∃ a b, f sc = some a ∧ collect f rest = some b ∧ l = a ++ b := by
  simp only [collect]
  constructor
  · intro h
    split at h
    · rename_i a b ha hb
      exact ⟨a, b, ha, hb, by simpa using h.symm⟩
    · simp at h
  · rintro ⟨a, b, ha, hb, rfl⟩
    simp [ha, hb]

theorem collect_mono {f g : SubCall → Option (List Tri)} :
    ∀ (scs : List SubCall) (l : List Tri),
      (∀ sc ∈ scs, ∀ a, f sc = some a → g sc = some a) →
      collect f scs = some l → collect g scs = some l := by
  intro scs
  induction scs with
  | nil => intro l _ h; exact h
  | cons sc rest ih =>
    intro l hfg h
    obtain ⟨a, b, ha, hb, rfl⟩ := collect_cons_eq_some.mp h
    exact collect_cons_eq_some.mpr
      ⟨a, b, hfg sc (List.mem_cons_self _ _) a ha,
        ih b (fun x hx => hfg x (List.mem_cons_of_mem _ hx)) hb, rfl⟩

theorem midArg_eval_mono (s : LinearizerBase) {fuel fuel2 : Nat} (hle : fuel ≤ fuel2)
    (a : MidArg) {m : Int} (h : a.eval s fuel = some m) : a.eval s fuel2 = some m := by
  cases a with
  | peek p1 p2 => exact peek_vertex_mono s h hle
  | minus_one => exact h

theorem subCall_eval_eq_some {s : LinearizerBase} {fuel : Nat} {sc : SubCall} {c : Call} :
    sc.eval s fuel = some c ↔
      ∃ m0 m1 m2, sc.mid0.eval s fuel = some m0 ∧ sc.mid1.eval s fuel = some m1 ∧
        sc.mid2.eval s fuel = some m2 ∧ c = ⟨sc.iv0, sc.iv1, sc.iv2, m0, m1, m2⟩ := by
  unfold SubCall.eval
  constructor
  · intro h
    split at h
    · rename_i m0 m1 m2 h0 h1 h2
      exact ⟨m0, m1, m2, h0, h1, h2, by simpa using h.symm⟩
    · simp at h
  · rintro ⟨m0, m1, m2, h0, h1, h2, rfl⟩
    simp [h0, h1, h2]

theorem subCall_eval_mono (s : LinearizerBase) {fuel fuel2 : Nat} (hle : fuel ≤ fuel2)
    (sc : SubCall) {c : Call} (h : sc.eval s fuel = some c) : sc.eval s fuel2 = some c := by
  obtain ⟨m0, m1, m2, h0, h1, h2, rfl⟩ := subCall_eval_eq_some.mp h
  exact subCall_eval_eq_some.mpr
    ⟨m0, m1, m2, midArg_eval_mono s hle _ h0, midArg_eval_mono s hle _ h1,
      midArg_eval_mono s hle _ h2, rfl⟩

theorem leaves_succ (s : LinearizerBase) (fuel : Nat) (c : Call) :
    leaves s (fuel + 1) c =
      match subcalls c with
      | [] => some [(c.iv0, c.iv1, c.iv2)]
      | sc :: rest => collect (fun sc => (sc.eval s fuel).bind (leaves s fuel)) (sc :: rest) := by
  rw [leaves]

/-- More fuel does not change a result of `leaves`. -/
theorem leaves_mono (s : LinearizerBase) :
    ∀ (fuel : Nat) (c : Call) (l : List Tri), leaves s fuel c = some l →
      ∀ fuel2, fuel ≤ fuel2 → leaves s fuel2 c = some l := by
  intro fuel
  induction fuel with
  | zero => intro c l h; simp [leaves] at h
  | succ f ih =>
    intro c l h fuel2 hle
    obtain ⟨g, rfl⟩ : ∃ g, fuel2 = g + 1 := ⟨fuel2 - 1, by omega⟩
    rw [leaves_succ] at h ⊢
    cases hs : subcalls c with
    | nil => rw [hs] at h; exact h
    | cons sc rest =>
      rw [hs] at h
      refine collect_mono _ l ?_ h
      intro x _ a hx
      obtain ⟨c2, hc2, hl2⟩ := Option.bind_eq_some.mp hx
      exact Option.bind_eq_some.mpr ⟨c2, subCall_eval_mono s (by omega) x hc2, ih c2 a hl2 g (by omega)⟩

theorem midArg_run_bind_eq {s s0 : LinearizerBase} (hT : SameTable s s0) {fuel : Nat}
    {a : MidArg} {m : Int} (h : a.eval s fuel = some m) {β : Type}
    (k : Int → Run LinearizerBase β) : (a.run fuel >>= k) s0 = k m s0 := by
  cases a with
  | peek p1 p2 =>
    simp only [MidArg.eval] at h
    simp only [MidArg.run, run_bind_def, Run.bind, LinearizerBase.peek, sameTable_peek_vertex hT, h]
  | minus_one =>
    simp only [MidArg.eval, Option.some.injEq] at h
    subst h
    rfl

theorem midArg_run_bind_ok {s s0 s1 : LinearizerBase} (hT : SameTable s s0) {fuel : Nat}
    {a : MidArg} {β : Type} {k : Int → Run LinearizerBase β} {b : β}
    (h : (a.run fuel >>= k) s0 = .ok b s1) : ∃ m, a.eval s fuel = some m := by
  cases a with
  | peek p1 p2 =>
    simp only [MidArg.run, run_bind_def, Run.bind, LinearizerBase.peek, sameTable_peek_vertex hT] at h
    cases hp : s.peek_vertex fuel p1 p2 with
    | none => rw [hp] at h; simp at h
    | some m => exact ⟨m, hp⟩
  | minus_one => exact ⟨-1, rfl⟩

theorem subCall_run_eq {s s0 : LinearizerBase} (hT : SameTable s s0) {fuel : Nat}
    {sc : SubCall} {c : Call} (h : sc.eval s fuel = some c) (marker : Int) :
    sc.run fuel marker s0 =
      LinearizerBase.regularize_triangle fuel c.iv0 c.iv1 c.iv2 c.mid0 c.mid1 c.mid2 marker s0 := by
  obtain ⟨m0, m1, m2, h0, h1, h2, rfl⟩ := subCall_eval_eq_some.mp h
  unfold SubCall.run
  rw [midArg_run_bind_eq hT h0, midArg_run_bind_eq hT h1, midArg_run_bind_eq hT h2]

theorem subCall_run_ok {s s0 s1 : LinearizerBase} (hT : SameTable s s0) {fuel : Nat}
    {sc : SubCall} {marker : Int} (h : sc.run fuel marker s0 = .ok () s1) :
    ∃ c, sc.eval s fuel = some c := by
  unfold SubCall.run at h
  obtain ⟨m0, h0⟩ := midArg_run_bind_ok hT h
  rw [midArg_run_bind_eq hT h0] at h
  obtain ⟨m1, h1⟩ := midArg_run_bind_ok hT h
  rw [midArg_run_bind_eq hT h1] at h
  obtain ⟨m2, h2⟩ := midArg_run_bind_ok hT h
  exact ⟨_, subCall_eval_eq_some.mpr ⟨m0, m1, m2, h0, h1, h2, rfl⟩⟩

/-- Running call sites in sequence, when each of them amounts to adding its
list of triangles, amounts to adding the concatenation. -/
theorem runSeq_collect (s : LinearizerBase) (marker : Int) (R : SubCall → Run LinearizerBase Unit)
    (f : SubCall → Option (List Tri)) :
    ∀ (scs : List SubCall) (l : List Tri),
      (∀ sc ∈ scs, ∀ a, f sc = some a → ∀ s0, SameTable s s0 → R sc s0 = add_triangles a marker s0) →
      collect f scs = some l →
      ∀ s0, SameTable s s0 → runSeq R scs s0 = add_triangles l marker s0 := by
  intro scs
  induction scs with
  | nil =>
    intro l _ h s0 _
    simp only [collect, Option.some.injEq] at h
    subst h
    rfl
  | cons sc rest ih =>
    intro l hR h s0 hT
    obtain ⟨a, b, ha, hb, rfl⟩ := collect_cons_eq_some.mp h
    rw [add_triangles_append]
    simp only [runSeq, run_bind_def, Run.bind]
    rw [hR sc (List.mem_cons_self _ _) a ha s0 hT]
    cases h1 : add_triangles a marker s0 with
    | out_of_memory s2 => rfl
    | invalid_input s2 => rfl
    | out_of_fuel => rfl
    | ok u s2 =>
      have hT2 := (add_triangles_ok a marker s0 s2 h1).1
      exact ih b (fun x hx => hR x (List.mem_cons_of_mem _ hx)) hb s2 (sameTable_trans hT hT2)

/-- When `leaves` lists the triangles of a call, running the call is adding
those triangles in order. -/
theorem regularize_triangle_eq (s : LinearizerBase) :
    ∀ (fuel : Nat) (c : Call) (l : List Tri), leaves s fuel c = some l →
      ∀ (marker : Int) (s0 : LinearizerBase), SameTable s s0 →
        LinearizerBase.regularize_triangle fuel c.iv0 c.iv1 c.iv2 c.mid0 c.mid1 c.mid2 marker s0 =
          add_triangles l marker s0 := by
  intro fuel
  induction fuel with
  | zero => intro c l h; simp [leaves] at h
  | succ f ih =>
    intro c l h marker s0 hT
    rw [leaves_succ] at h
    rw [regularize_triangle_succ]
    cases hs : subcalls c with
    | nil =>
      rw [hs] at h
      simp only [Option.some.injEq] at h
      subst h
      simp only [add_triangles, run_bind_unit]
    | cons sc rest =>
      rw [hs] at h
      refine runSeq_collect s marker _ _ _ l ?_ h s0 hT
      intro x _ a hx s2 hT2
      obtain ⟨c2, hc2, hl2⟩ := Option.bind_eq_some.mp hx
      rw [subCall_run_eq hT2 hc2]
      exact ih c2 a hl2 marker s2 hT2

theorem runSeq_ok (s : LinearizerBase) (R : SubCall → Run LinearizerBase Unit)
    (f : SubCall → Option (List Tri)) :
    ∀ (scs : List SubCall),
      (∀ sc ∈ scs, ∀ s0 s1, SameTable s s0 → R sc s0 = .ok () s1 →
        SameTable s s1 ∧ ∃ a, f sc = some a) →
      ∀ s0 s1, SameTable s s0 → runSeq R scs s0 = .ok () s1 → ∃ l, collect f scs = some l := by
  intro scs
  induction scs with
  | nil => intro _ _ _ _ _; exact ⟨[], rfl⟩
  | cons sc rest ih =>
    intro hR s0 s1 hT h
    simp only [runSeq, run_bind_def, Run.bind] at h
    cases h1 : R sc s0 with
    | out_of_memory s2 => rw [h1] at h; simp at h
    | invalid_input s2 => rw [h1] at h; simp at h
    | out_of_fuel => rw [h1] at h; simp at h
    | ok u s2 =>
      rw [h1] at h
      obtain ⟨hT2, a, ha⟩ := hR sc (List.mem_cons_self _ _) s0 s2 hT h1
      obtain ⟨b, hb⟩ := ih (fun x hx => hR x (List.mem_cons_of_mem _ hx)) s2 s1 hT2 h
      exact ⟨a ++ b, collect_cons_eq_some.mpr ⟨a, b, ha, hb, rfl⟩⟩

/-- A returning call has its triangles listed by `leaves`, with the same
fuel. -/
theorem regularize_triangle_ok_leaves (s : LinearizerBase) :
    ∀ (fuel : Nat) (c : Call) (marker : Int) (s0 s1 : LinearizerBase), SameTable s s0 →
      LinearizerBase.regularize_triangle fuel c.iv0 c.iv1 c.iv2 c.mid0 c.mid1 c.mid2 marker s0 =
        .ok () s1 →
      ∃ l, leaves s fuel c = some l := by
  intro fuel
  induction fuel with
  | zero =>
    intro c marker s0 s1 _ h
    simp [LinearizerBase.regularize_triangle] at h
  | succ f ih =>
    intro c marker s0 s1 hT h
    rw [regularize_triangle_succ] at h
    rw [leaves_succ]
    cases hs : subcalls c with
    | nil => exact ⟨_, rfl⟩
    | cons sc rest =>
      rw [hs] at h
      refine runSeq_ok s (SubCall.run f marker) _ (sc :: rest) ?_ s0 s1 hT h
      intro x _ s2 s3 hT2 hx
      obtain ⟨c2, hc2⟩ := subCall_run_ok hT2 hx
      rw [subCall_run_eq hT2 hc2] at hx
      obtain ⟨a, ha⟩ := ih c2 marker s2 s3 hT2 hx
      rw [regularize_triangle_eq s f c2 a ha marker s2 hT2] at hx
      exact ⟨sameTable_trans hT2 (add_triangles_ok a marker s2 s3 hx).1,
        a, Option.bind_eq_some.mpr ⟨c2, hc2, ha⟩⟩

/-- An invariant of the calls that holds at the top and passes to every
recursive call holds at every call that adds a triangle. -/
theorem leaves_forall (s : LinearizerBase) (Inv : Call → Prop) (P : Tri → Prop)
    (hleaf : ∀ c, Inv c → subcalls c = [] → P (c.iv0, c.iv1, c.iv2))
    (hstep : ∀ c sc fuel c2, Inv c → sc ∈ subcalls c → sc.eval s fuel = some c2 → Inv c2) :
    ∀ (fuel : Nat) (c : Call) (l : List Tri), Inv c → leaves s fuel c = some l →
      ∀ t ∈ l, P t := by
  intro fuel
  induction fuel with
  | zero => intro c l _ h; simp [leaves] at h
  | succ f ih =>
    intro c l hc h
    rw [leaves_succ] at h
    cases hs : subcalls c with
    | nil =>
      rw [hs] at h
      simp only [Option.some.injEq] at h
      subst h
      intro t ht
      simp only [List.mem_singleton] at ht
      subst ht
      exact hleaf c hc hs
    | cons sc rest =>
      rw [hs] at h
      have key : ∀ (scs : List SubCall) (l : List Tri), (∀ x ∈ scs, x ∈ subcalls c) →
          collect (fun sc => (sc.eval s f).bind (leaves s f)) scs = some l → ∀ t ∈ l, P t := by
        intro scs
        induction scs with
        | nil =>
          intro l _ h t ht
          simp only [collect, Option.some.injEq] at h
          subst h
          simp at ht
        | cons x xs ihx =>
          intro l hsub h t ht
          obtain ⟨a, b, ha, hb, rfl⟩ := collect_cons_eq_some.mp h
          obtain ⟨c2, hc2, hl2⟩ := Option.bind_eq_some.mp ha
          rcases List.mem_append.mp ht with h1 | h1
          · exact ih c2 a (hstep c x f c2 hc (hsub x (List.mem_cons_self _ _)) hc2) hl2 t h1
          · exact ihx b (fun y hy => hsub y (List.mem_cons_of_mem _ hy)) hb t h1
      exact key (sc :: rest) l (fun x hx => hs ▸ hx) h

/-- The count `n` is one of 0, 1, 2, 3. -/
theorem hanging_range (mid0 mid1 mid2 : Int) :
    0 ≤ hanging mid0 mid1 mid2 ∧ hanging mid0 mid1 mid2 ≤ 3 := by
  unfold hanging
  split_ifs <;> omega

/-- A call with `n` hanging vertices, `n` at least 1, has `n + 1` call sites. -/
theorem subcalls_length (c : Call) (h : hanging c.mid0 c.mid1 c.mid2 ≠ 0) :
    ((subcalls c).length : Int) = hanging c.mid0 c.mid1 c.mid2 + 1 := by
  have hr := hanging_range c.mid0 c.mid1 c.mid2
  unfold subcalls
  simp only
  split_ifs with h3 h2 _ _ h1
  all_goals simp_all
  all_goals omega

theorem subcalls_eq_nil (c : Call) : subcalls c = [] ↔ hanging c.mid0 c.mid1 c.mid2 = 0 := by
  have hr := hanging_range c.mid0 c.mid1 c.mid2
  unfold subcalls
  simp only
  split_ifs with h3 h2 _ _ h1
  all_goals simp_all
  all_goals omega

/-! ### Calls whose sub-triangles have no further midpoints -/

theorem emits_of_eq {r : Result LinearizerBase Unit} {s : LinearizerBase} {l : List Tri}
    {marker : Int} (h : r = add_triangles l marker s) : Emits r s l marker := by
  refine ⟨h, ?_, ?_⟩
  · intro s1 h1
    exact (add_triangles_ok l marker s s1 (h ▸ h1)).2.2.2
  · intro hheap
    obtain ⟨s1, h1⟩ := add_triangles_returns l marker s hheap
    exact ⟨s1, h.trans h1⟩

/-- Every `peek_vertex` argument of a recursive call queries the edge of the
sub-triangle at whose position it is passed: `mid0` the edge from the first to
the second corner, `mid1` from the second to the third, `mid2` from the third
to the first. -/
theorem subcalls_own_edges (c : Call) : ∀ sc ∈ subcalls c,
    (sc.mid0 = .minus_one ∨ sc.mid0 = .peek sc.iv0 sc.iv1) ∧
    (sc.mid1 = .minus_one ∨ sc.mid1 = .peek sc.iv1 sc.iv2) ∧
    (sc.mid2 = .minus_one ∨ sc.mid2 = .peek sc.iv2 sc.iv0) := by
  intro sc hsc
  unfold subcalls at hsc
  simp only at hsc
  split_ifs at hsc
  all_goals simp only [List.mem_cons, List.mem_singleton, List.not_mem_nil, or_false] at hsc
  all_goals (rcases hsc with rfl | rfl | rfl | rfl <;> simp)

theorem midArg_eval_minus_one (s : LinearizerBase) (a : MidArg) (p q : Int)
    (ha : a = .minus_one ∨ a = .peek p q) (h : PeekIs s p q (-1)) :
    ∃ F, ∀ fuel, F ≤ fuel → a.eval s fuel = some (-1) := by
  rcases ha with rfl | rfl
  · exact ⟨0, fun _ _ => rfl⟩
  · obtain ⟨f, hf⟩ := h
    exact ⟨f, fun fuel hle => peek_vertex_mono s hf hle⟩

theorem flat_eval (s : LinearizerBase) (c : Call)
    (h : ∀ t ∈ subtriangles c, NoMidpointOn s t) :
    ∃ F, ∀ fuel, F ≤ fuel → ∀ sc ∈ subcalls c,
      sc.eval s fuel = some ⟨sc.iv0, sc.iv1, sc.iv2, -1, -1, -1⟩ := by
  have key : ∀ scs : List SubCall, (∀ sc ∈ scs, sc ∈ subcalls c) →
      ∃ F, ∀ fuel, F ≤ fuel → ∀ sc ∈ scs,
        sc.eval s fuel = some ⟨sc.iv0, sc.iv1, sc.iv2, -1, -1, -1⟩ := by
    intro scs
    induction scs with
    | nil => intro _; exact ⟨0, fun _ _ sc hsc => by simp at hsc⟩
    | cons x xs ih =>
      intro hsub
      obtain ⟨F, hF⟩ := ih (fun y hy => hsub y (List.mem_cons_of_mem _ hy))
      have hx := hsub x (List.mem_cons_self _ _)
      have hno : NoMidpointOn s (x.iv0, x.iv1, x.iv2) :=
        h _ (List.mem_map.mpr ⟨x, hx, rfl⟩)
      obtain ⟨e0, e1, e2⟩ := subcalls_own_edges c x hx
      obtain ⟨F0, h0⟩ := midArg_eval_minus_one s x.mid0 _ _ e0 hno.1
      obtain ⟨F1, h1⟩ := midArg_eval_minus_one s x.mid1 _ _ e1 hno.2.1
      obtain ⟨F2, h2⟩ := midArg_eval_minus_one s x.mid2 _ _ e2 hno.2.2
      refine ⟨F + F0 + F1 + F2, ?_⟩
      intro fuel hle sc hsc
      rcases List.mem_cons.mp hsc with rfl | hsc
      · exact subCall_eval_eq_some.mpr
          ⟨-1, -1, -1, h0 fuel (by omega), h1 fuel (by omega), h2 fuel (by omega), rfl⟩
      · exact hF fuel (by omega) sc hsc
  exact key _ (fun _ h => h)

theorem collect_singletons (f : SubCall → Option (List Tri)) (g : SubCall → Tri) :
    ∀ scs : List SubCall, (∀ sc ∈ scs, f sc = some [g sc]) → collect f scs = some (scs.map g) := by
  intro scs
  induction scs with
  | nil => intro _; rfl
  | cons x xs ih =>
    intro h
    exact collect_cons_eq_some.mpr
      ⟨[g x], xs.map g, h x (List.mem_cons_self _ _),
        ih (fun y hy => h y (List.mem_cons_of_mem _ hy)), rfl⟩

theorem leaf_leaves (s : LinearizerBase) (fuel : Nat) (iv0 iv1 iv2 : Int) :
    leaves s (fuel + 1) ⟨iv0, iv1, iv2, -1, -1, -1⟩ = some [(iv0, iv1, iv2)] := by
  rw [leaves_succ]
  have : subcalls ⟨iv0, iv1, iv2, -1, -1, -1⟩ = [] := by
    rw [subcalls_eq_nil]; simp [hanging]
  rw [this]

theorem flat_leaves (s : LinearizerBase) (c : Call)
    (h : ∀ t ∈ subtriangles c, NoMidpointOn s t) :
    ∃ F, ∀ fuel, F ≤ fuel → leaves s fuel c = some (direct c) := by
  obtain ⟨F, hF⟩ := flat_eval s c h
  refine ⟨F + 2, ?_⟩
  intro fuel hle
  obtain ⟨g, rfl⟩ : ∃ g, fuel = g + 2 := ⟨fuel - 2, by omega⟩
  rw [leaves_succ]
  unfold direct subtriangles
  cases hs : subcalls c with
  | nil => rfl
  | cons sc rest =>
    simp only
    refine collect_singletons _ (fun sc => (sc.iv0, sc.iv1, sc.iv2)) _ ?_
    intro x hx
    rw [hF (g + 1) (by omega) x (hs ▸ hx)]
    exact leaf_leaves s g _ _ _

/-- A call whose sub-triangles have no midpoint on any edge adds `direct`. -/
theorem flat_emits (s : LinearizerBase) (iv0 iv1 iv2 mid0 mid1 mid2 marker : Int)
    (h : ∀ t ∈ subtriangles ⟨iv0, iv1, iv2, mid0, mid1, mid2⟩, NoMidpointOn s t) :
    ∃ F, ∀ fuel, F ≤ fuel →
      Emits (LinearizerBase.regularize_triangle fuel iv0 iv1 iv2 mid0 mid1 mid2 marker s) s
        (direct ⟨iv0, iv1, iv2, mid0, mid1, mid2⟩) marker := by
  obtain ⟨F, hF⟩ := flat_leaves s _ h
  exact ⟨F, fun fuel hle =>
    emits_of_eq (regularize_triangle_eq s fuel _ _ (hF fuel hle) marker s (sameTable_refl s))⟩

theorem direct_length (c : Call) :
    ((direct c).length : Int) = hanging c.mid0 c.mid1 c.mid2 + 1 := by
  unfold direct
  cases hs : subcalls c with
  | nil =>
    have := (subcalls_eq_nil c).mp hs
    simp [this]
  | cons sc rest =>
    have hne : hanging c.mid0 c.mid1 c.mid2 ≠ 0 := by
      intro h0
      rw [(subcalls_eq_nil c).mpr h0] at hs
      simp at hs
    have := subcalls_length c hne
    simp only [subtriangles, List.length_map]
    exact this

theorem direct_three (iv0 iv1 iv2 mid0 mid1 mid2 : Int) (h0 : 0 ≤ mid0) (h1 : 0 ≤ mid1)
    (h2 : 0 ≤ mid2) :
    subtriangles ⟨iv0, iv1, iv2, mid0, mid1, mid2⟩ =
      [(iv0, mid0, mid2), (mid0, iv1, mid1), (mid2, mid1, iv2), (mid0, mid1, mid2)] ∧
    direct ⟨iv0, iv1, iv2, mid0, mid1, mid2⟩ =
      [(iv0, mid0, mid2), (mid0, iv1, mid1), (mid2, mid1, iv2), (mid0, mid1, mid2)] := by
  simp [direct, subtriangles, subcalls, hanging, h0, h1, h2]

theorem direct_two (iv0 iv1 iv2 mid0 mid1 mid2 : Int) (h : hanging mid0 mid1 mid2 = 2) :
    subtriangles ⟨iv0, iv1, iv2, mid0, mid1, mid2⟩ = two_hanging_split iv0 iv1 iv2 mid0 mid1 mid2 ∧
    direct ⟨iv0, iv1, iv2, mid0, mid1, mid2⟩ = two_hanging_split iv0 iv1 iv2 mid0 mid1 mid2 := by
  simp only [direct, subtriangles, subcalls, h, two_hanging_split]
  split_ifs <;> first | omega | simp

theorem direct_one (iv0 iv1 iv2 mid0 mid1 mid2 : Int) (h : hanging mid0 mid1 mid2 = 1) :
    subtriangles ⟨iv0, iv1, iv2, mid0, mid1, mid2⟩ = one_hanging_split iv0 iv1 iv2 mid0 mid1 mid2 ∧
    direct ⟨iv0, iv1, iv2, mid0, mid1, mid2⟩ = one_hanging_split iv0 iv1 iv2 mid0 mid1 mid2 := by
  simp only [direct, subtriangles, subcalls, h, one_hanging_split]
  split_ifs <;> first | omega | simp

/-- C1 (amended): a call of `regularize_triangle` on a triangle with exactly
`n` hanging vertices, in a state where `peek_vertex` reports no midpoint on any
edge of the call's sub-triangles, adds exactly `n + 1` triangles: from some
bound on, the run is a sequence of `n + 1` calls of `add_triangle`, which
appends `n + 1` entries whenever it returns. -/
theorem regularize_triangle_count (s : LinearizerBase)
    (iv0 iv1 iv2 mid0 mid1 mid2 marker : Int)
    (h : ∀ t ∈ subtriangles ⟨iv0, iv1, iv2, mid0, mid1, mid2⟩, NoMidpointOn s t) :
    ∃ F, ∀ fuel, F ≤ fuel → ∃ l : List Tri,
      (l.length : Int) = hanging mid0 mid1 mid2 + 1 ∧
      Emits (LinearizerBase.regularize_triangle fuel iv0 iv1 iv2 mid0 mid1 mid2 marker s) s l
        marker := by
  obtain ⟨F, hF⟩ := flat_emits s iv0 iv1 iv2 mid0 mid1 mid2 marker h
  exact ⟨F, fun fuel hle => ⟨_, direct_length _, hF fuel hle⟩⟩

theorem refined_once_flat :
    ∀ t ∈ subtriangles ⟨0, 1, 2, 3, 4, 5⟩, NoMidpointOn refined_once t := by
  intro t ht
  simp only [subtriangles, subcalls, hanging] at ht
  simp at ht
  rcases ht with rfl | rfl | rfl | rfl <;>
    exact ⟨⟨2, by decide⟩, ⟨2, by decide⟩, ⟨2, by decide⟩⟩

/-- C1, witness: the triangle 0, 1, 2 with its three edge midpoints 3, 4, 5. -/
theorem regularize_triangle_count_witness :
    (∀ t ∈ subtriangles ⟨0, 1, 2, 3, 4, 5⟩, NoMidpointOn refined_once t) ∧
    ∃ F, ∀ fuel, F ≤ fuel → ∃ l : List Tri,
      (l.length : Int) = hanging 3 4 5 + 1 ∧
      Emits (LinearizerBase.regularize_triangle fuel 0 1 2 3 4 5 7 refined_once) refined_once l
        7 :=
  ⟨refined_once_flat, regularize_triangle_count refined_once 0 1 2 3 4 5 7 refined_once_flat⟩

/-- C1, counterexample: in `nested_edge` the call on triangle 0, 1, 2 with the
single hanging vertex 3 (`n = 1`) returns with the three triangles (0,4,2),
(4,3,2), (3,1,2) appended, not two, because the half edge from 0 to 3 has the
midpoint 4. -/
theorem regularize_triangle_count_counterexample :
    hanging 3 (-1) (-1) = 1 ∧
    ∃ s1, LinearizerBase.regularize_triangle 4 0 1 2 3 (-1) (-1) 7 nested_edge = .ok () s1 ∧
      Appended nested_edge s1 [(0, 4, 2), (4, 3, 2), (3, 1, 2)] 7 ∧
      s1.triangle_count = nested_edge.triangle_count + 3 ∧
      s1.triangle_count ≠ nested_edge.triangle_count + (hanging 3 (-1) (-1) + 1) := by
  have hl : leaves nested_edge 4 ⟨0, 1, 2, 3, -1, -1⟩ = some [(0, 4, 2), (4, 3, 2), (3, 1, 2)] := by
    decide
  have he := regularize_triangle_eq nested_edge 4 _ _ hl 7 nested_edge (sameTable_refl _)
  obtain ⟨s1, h1⟩ := add_triangles_returns [(0, 4, 2), (4, 3, 2), (3, 1, 2)] 7 nested_edge
    (fun _ => rfl)
  have hA := (add_triangles_ok _ _ _ _ h1).2.2.2
  have hc := hA.1
  refine ⟨by decide, s1, he.trans h1, hA, by simpa using hc, ?_⟩
  rw [hc]
  have : hanging 3 (-1) (-1) = 1 := by decide
  rw [this]
  simp

/-- C2: on a triangle with three hanging vertices, when `peek_vertex` reports
no midpoint on any edge of the four sub-triangles, `regularize_triangle` adds
exactly the three corner triangles `(iv0, mid0, mid2)`, `(mid0, iv1, mid1)`,
`(mid2, mid1, iv2)` and the central triangle `(mid0, mid1, mid2)`, in this
order. -/
theorem regularize_triangle_three_hanging (s : LinearizerBase)
    (iv0 iv1 iv2 mid0 mid1 mid2 marker : Int)
    (h0 : 0 ≤ mid0) (h1 : 0 ≤ mid1) (h2 : 0 ≤ mid2)
    (h : ∀ t ∈ [(iv0, mid0, mid2), (mid0, iv1, mid1), (mid2, mid1, iv2), (mid0, mid1, mid2)],
      NoMidpointOn s t) :
    ∃ F, ∀ fuel, F ≤ fuel →
      Emits (LinearizerBase.regularize_triangle fuel iv0 iv1 iv2 mid0 mid1 mid2 marker s) s
        [(iv0, mid0, mid2), (mid0, iv1, mid1), (mid2, mid1, iv2), (mid0, mid1, mid2)] marker := by
  obtain ⟨e1, e2⟩ := direct_three iv0 iv1 iv2 mid0 mid1 mid2 h0 h1 h2
  have := flat_emits s iv0 iv1 iv2 mid0 mid1 mid2 marker (by rw [e1]; exact h)
  rw [e2] at this
  exact this

theorem refined_once_three :
    ∀ t ∈ [((0 : Int), (3 : Int), (5 : Int)), (3, 1, 4), (5, 4, 2), (3, 4, 5)],
      NoMidpointOn refined_once t := by
  intro t ht
  simp at ht
  rcases ht with rfl | rfl | rfl | rfl <;>
    exact ⟨⟨2, by decide⟩, ⟨2, by decide⟩, ⟨2, by decide⟩⟩

/-- C2, witness: the triangle 0, 1, 2 with its three edge midpoints 3, 4, 5. -/
theorem regularize_triangle_three_hanging_witness :
    ((0 : Int) ≤ 3 ∧ (0 : Int) ≤ 4 ∧ (0 : Int) ≤ 5 ∧
      ∀ t ∈ [((0 : Int), (3 : Int), (5 : Int)), (3, 1, 4), (5, 4, 2), (3, 4, 5)],
        NoMidpointOn refined_once t) ∧
    ∃ F, ∀ fuel, F ≤ fuel →
      Emits (LinearizerBase.regularize_triangle fuel 0 1 2 3 4 5 7 refined_once) refined_once
        [(0, 3, 5), (3, 1, 4), (5, 4, 2), (3, 4, 5)] 7 :=
  ⟨⟨by decide, by decide, by decide, refined_once_three⟩,
    regularize_triangle_three_hanging refined_once 0 1 2 3 4 5 7 (by decide) (by decide)
      (by decide) refined_once_three⟩

/-- C3: on a triangle with exactly one hanging vertex, when `peek_vertex`
reports no midpoint on any edge of the two sub-triangles, `regularize_triangle`
adds exactly two triangles, both containing the hanging vertex and the corner
opposite its edge: `(iv0, mid0, iv2)`, `(mid0, iv1, iv2)` for `mid0`;
`(iv1, mid1, iv0)`, `(mid1, iv2, iv0)` for `mid1`; `(iv2, mid2, iv1)`,
`(mid2, iv0, iv1)` for `mid2`. -/
theorem regularize_triangle_one_hanging (s : LinearizerBase)
    (iv0 iv1 iv2 mid0 mid1 mid2 marker : Int)
    (hn : hanging mid0 mid1 mid2 = 1)
    (h : ∀ t ∈ one_hanging_split iv0 iv1 iv2 mid0 mid1 mid2, NoMidpointOn s t) :
    ∃ F, ∀ fuel, F ≤ fuel →
      Emits (LinearizerBase.regularize_triangle fuel iv0 iv1 iv2 mid0 mid1 mid2 marker s) s
        (one_hanging_split iv0 iv1 iv2 mid0 mid1 mid2) marker := by
  obtain ⟨e1, e2⟩ := direct_one iv0 iv1 iv2 mid0 mid1 mid2 hn
  have := flat_emits s iv0 iv1 iv2 mid0 mid1 mid2 marker (by rw [e1]; exact h)
  rw [e2] at this
  exact this

theorem refined_once_one :
    ∀ t ∈ one_hanging_split 7 1 2 (-1) 4 (-1), NoMidpointOn refined_once t := by
  intro t ht
  simp [one_hanging_split] at ht
  rcases ht with rfl | rfl <;>
    exact ⟨⟨2, by decide⟩, ⟨2, by decide⟩, ⟨2, by decide⟩⟩

/-- C3, witness: the neighbour 7, 1, 2 of the refined triangle 0, 1, 2, whose
edge from 1 to 2 carries the hanging vertex 4 (the second case of the split). -/
theorem regularize_triangle_one_hanging_witness :
    (hanging (-1) 4 (-1) = 1 ∧
      ∀ t ∈ one_hanging_split 7 1 2 (-1) 4 (-1), NoMidpointOn refined_once t) ∧
    ∃ F, ∀ fuel, F ≤ fuel →
      Emits (LinearizerBase.regularize_triangle fuel 7 1 2 (-1) 4 (-1) 7 refined_once)
        refined_once (one_hanging_split 7 1 2 (-1) 4 (-1)) 7 :=
  ⟨⟨by decide, refined_once_one⟩,
    regularize_triangle_one_hanging refined_once 7 1 2 (-1) 4 (-1) 7 (by decide)
      refined_once_one⟩

/-- C4: on a triangle with exactly two hanging vertices, when `peek_vertex`
reports no midpoint on any edge of the three sub-triangles (the whole input
edge among them, so the `mid` arguments agree with `peek_vertex` there),
`regularize_triangle` adds exactly three triangles: for `mid0 < 0` they are
`(iv0, iv1, mid1)`, `(mid2, iv0, mid1)`, `(mid2, mid1, iv2)`; for `mid1 < 0`
`(iv1, iv2, mid2)`, `(mid0, iv1, mid2)`, `(mid0, mid2, iv0)`; for `mid2 < 0`
`(iv2, iv0, mid0)`, `(mid1, iv2, mid0)`, `(mid1, mid0, iv1)`. -/
theorem regularize_triangle_two_hanging (s : LinearizerBase)
    (iv0 iv1 iv2 mid0 mid1 mid2 marker : Int)
    (hn : hanging mid0 mid1 mid2 = 2)
    (h : ∀ t ∈ two_hanging_split iv0 iv1 iv2 mid0 mid1 mid2, NoMidpointOn s t) :
    ∃ F, ∀ fuel, F ≤ fuel →
      Emits (LinearizerBase.regularize_triangle fuel iv0 iv1 iv2 mid0 mid1 mid2 marker s) s
        (two_hanging_split iv0 iv1 iv2 mid0 mid1 mid2) marker := by
  obtain ⟨e1, e2⟩ := direct_two iv0 iv1 iv2 mid0 mid1 mid2 hn
  have := flat_emits s iv0 iv1 iv2 mid0 mid1 mid2 marker (by rw [e1]; exact h)
  rw [e2] at this
  exact this

theorem two_refined_edges_two :
    ∀ t ∈ two_hanging_split 0 1 2 3 4 (-1), NoMidpointOn two_refined_edges t := by
  intro t ht
  simp [two_hanging_split] at ht
  rcases ht with rfl | rfl | rfl <;>
    exact ⟨⟨2, by decide⟩, ⟨2, by decide⟩, ⟨2, by decide⟩⟩

/-- C4, witness: the triangle 0, 1, 2 with midpoints 3 and 4 on its first two
edges and a whole third edge. -/
theorem regularize_triangle_two_hanging_witness :
    (hanging 3 4 (-1) = 2 ∧
      ∀ t ∈ two_hanging_split 0 1 2 3 4 (-1), NoMidpointOn two_refined_edges t) ∧
    ∃ F, ∀ fuel, F ≤ fuel →
      Emits (LinearizerBase.regularize_triangle fuel 0 1 2 3 4 (-1) 7 two_refined_edges)
        two_refined_edges (two_hanging_split 0 1 2 3 4 (-1)) 7 :=
  ⟨⟨by decide, two_refined_edges_two⟩,
    regularize_triangle_two_hanging two_refined_edges 0 1 2 3 4 (-1) 7 (by decide)
      two_refined_edges_two⟩

/-! ### The chain search, step by step -/

theorem chain_succ (s : LinearizerBase) (i : Int) (k : Nat) :
    s.chain i (k + 1) = s.chain (s.info i 2) k := by
  induction k with
  | zero => rfl
  | succ k ih =>
    show s.info (s.chain i (k + 1)) 2 = s.info (s.chain (s.info i 2) k) 2
    rw [ih]

/-- A chain that ends is searched to the end within its length plus one. -/
theorem peek_vertex_loop_returns (s : LinearizerBase) (p1 p2 : Int) :
    ∀ (k : Nat) (i : Int), s.chain i k < 0 → ∃ m, s.peek_vertex_loop p1 p2 (k + 1) i = some m := by
  intro k
  induction k with
  | zero =>
    intro i h
    have hi : ¬ i ≥ 0 := by simpa [LinearizerBase.chain] using h
    exact ⟨-1, by rw [LinearizerBase.peek_vertex_loop]; simp [hi]⟩
  | succ k ih =>
    intro i h
    rw [LinearizerBase.peek_vertex_loop]
    split_ifs with h1 h2
    · exact ⟨i, rfl⟩
    · exact ih _ (by rw [← chain_succ]; exact h)
    · exact ⟨-1, rfl⟩

/-- What the loop returns: `-1`, or an index on the chain, reached through
non-negative indices, whose record carries the pair searched for. -/
theorem peek_vertex_loop_some (s : LinearizerBase) (p1 p2 : Int) :
    ∀ (fuel : Nat) (i m : Int), s.peek_vertex_loop p1 p2 fuel i = some m →
      m = -1 ∨ (0 ≤ m ∧ s.info m 0 = p1 ∧ s.info m 1 = p2 ∧
        ∃ k, s.chain i k = m ∧ ∀ j, j ≤ k → 0 ≤ s.chain i j) := by
  intro fuel
  induction fuel with
  | zero => intro i m h; simp [LinearizerBase.peek_vertex_loop] at h
  | succ f ih =>
    intro i m h
    rw [LinearizerBase.peek_vertex_loop] at h
    split_ifs at h with h1 h2
    · simp only [Option.some.injEq] at h
      subst h
      refine Or.inr ⟨h1, h2.1, h2.2, 0, rfl, ?_⟩
      intro j hj
      have : j = 0 := by omega
      subst this
      exact h1
    · rcases ih _ _ h with hm | ⟨hm, e0, e1, k, hk, hall⟩
      · exact Or.inl hm
      · refine Or.inr ⟨hm, e0, e1, k + 1, by rw [chain_succ]; exact hk, ?_⟩
        intro j hj
        cases j with
        | zero => exact h1
        | succ j => rw [chain_succ]; exact hall j (by omega)
    · simp only [Option.some.injEq] at h
      exact Or.inl h.symm

/-- The canonical pair of a call `peek_vertex(p1, p2)`. -/
theorem peek_vertex_eq_loop (s : LinearizerBase) (fuel : Nat) (p1 p2 : Int) :
    s.peek_vertex fuel p1 p2 =
      s.peek_vertex_loop (min p1 p2) (max p1 p2) fuel
        (s.hash_table (s.hash (min p1 p2) (max p1 p2))) := by
  unfold LinearizerBase.peek_vertex
  split_ifs with h
  · rw [min_eq_right (le_of_lt h), max_eq_left (le_of_lt h)]
  · rw [min_eq_left (not_lt.mp h), max_eq_right (not_lt.mp h)]

theorem peek_vertex_some (s : LinearizerBase) {fuel : Nat} {p1 p2 m : Int}
    (h : s.peek_vertex fuel p1 p2 = some m) :
    m = -1 ∨ (0 ≤ m ∧ s.info m 0 = min p1 p2 ∧ s.info m 1 = max p1 p2 ∧ Stored s m) := by
  rw [peek_vertex_eq_loop] at h
  rcases peek_vertex_loop_some s _ _ _ _ _ h with hm | ⟨hm, e0, e1, k, hk, hall⟩
  · exact Or.inl hm
  · exact Or.inr ⟨hm, e0, e1, _, _, k, hk, hall⟩

theorem peek_vertex_returns (s : LinearizerBase) (hend : ChainsEnd s) (p1 p2 : Int) :
    ∃ fuel m, s.peek_vertex fuel p1 p2 = some m := by
  obtain ⟨k, hk⟩ := hend (min p1 p2) (max p1 p2)
  obtain ⟨m, hm⟩ := peek_vertex_loop_returns s (min p1 p2) (max p1 p2) k _ hk
  exact ⟨k + 1, m, by rw [peek_vertex_eq_loop]; exact hm⟩

/-- In a state whose stored indices exceed their parents, a midpoint returned
by `peek_vertex` exceeds both endpoints of the edge. -/
theorem peek_vertex_above (s : LinearizerBase) (hpar : ParentsBelow s) {fuel : Nat}
    {p1 p2 m : Int} (h : s.peek_vertex fuel p1 p2 = some m) (hm : 0 ≤ m) :
    p1 < m ∧ p2 < m ∧ Stored s m := by
  rcases peek_vertex_some s h with h1 | ⟨_, e0, e1, hst⟩
  · omega
  · obtain ⟨a, b⟩ := hpar m hst
    rw [e0] at a
    rw [e1] at b
    have := min_le_left p1 p2
    have := min_le_right p1 p2
    have := le_max_left p1 p2
    have := le_max_right p1 p2
    exact ⟨by omega, by omega, hst⟩

/-! ### Finitely many stored indices -/

theorem wrap32_range (x : Int) : -2147483648 ≤ wrap32 x ∧ wrap32 x < 2147483648 := by
  unfold wrap32
  omega

theorem hash_int_range (s : LinearizerBase) (p1 p2 : Int) :
    -2147483648 ≤ s.hash p1 p2 ∧ s.hash p1 p2 < 2147483648 := by
  unfold LinearizerBase.hash and32
  exact wrap32_range _

theorem prefix_bounded (f : Nat → Int) : ∀ k : Nat, ∃ B : Int, ∀ j, j < k → f j < B := by
  intro k
  induction k with
  | zero => exact ⟨0, fun j hj => by omega⟩
  | succ k ih =>
    obtain ⟨B, hB⟩ := ih
    refine ⟨max B (f k + 1), ?_⟩
    intro j hj
    rcases Nat.lt_succ_iff_lt_or_eq.mp hj with h | h
    · exact lt_of_lt_of_le (hB j h) (le_max_left _ _)
    · subst h
      exact lt_of_lt_of_le (by omega) (le_max_right _ _)

theorem interval_bounded (Q : Int → Int → Prop)
    (hmono : ∀ b B B2, Q b B → B ≤ B2 → Q b B2) (hex : ∀ b, ∃ B, Q b B) (lo : Int) :
    ∀ n : Nat, ∃ B, ∀ b, lo ≤ b → b < lo + n → Q b B := by
  intro n
  induction n with
  | zero => exact ⟨0, fun b h1 h2 => by simp at h2; omega⟩
  | succ n ih =>
    obtain ⟨B, hB⟩ := ih
    obtain ⟨B2, hB2⟩ := hex (lo + n)
    refine ⟨max B B2, ?_⟩
    intro b h1 h2
    by_cases hb : b < lo + n
    · exact hmono b B _ (hB b h1 hb) (le_max_left _ _)
    · have : b = lo + n := by push_cast at h2; omega
      subst this
      exact hmono _ B2 _ hB2 (le_max_right _ _)

/-- When every bucket chain ends, the stored indices are bounded: `hash`
selects one of finitely many buckets and each chain is finite. -/
theorem stored_bounded (s : LinearizerBase) (hend : ChainsEnd s) :
    ∃ B : Int, ∀ i, Stored s i → i < B := by
  let Q : Int → Int → Prop := fun b B =>
    ∀ p1 p2, s.hash p1 p2 = b → ∀ k, (∀ j, j ≤ k → 0 ≤ s.chain (s.hash_table b) j) →
      s.chain (s.hash_table b) k < B
  have hmono : ∀ b B B2, Q b B → B ≤ B2 → Q b B2 := by
    intro b B B2 h hle p1 p2 hp k hk
    exact lt_of_lt_of_le (h p1 p2 hp k hk) hle
  have hex : ∀ b, ∃ B, Q b B := by
    intro b
    by_cases hb : ∃ p1 p2, s.hash p1 p2 = b
    · obtain ⟨p1, p2, hp⟩ := hb
      obtain ⟨n, hn⟩ := hend p1 p2
      rw [hp] at hn
      obtain ⟨B, hB⟩ := prefix_bounded (s.chain (s.hash_table b)) n
      refine ⟨B, ?_⟩
      intro _ _ _ k hk
      apply hB
      by_contra hlt
      have := hk n (by omega)
      omega
    · exact ⟨0, fun p1 p2 hp => absurd ⟨p1, p2, hp⟩ hb⟩
  obtain ⟨B, hB⟩ := interval_bounded Q hmono hex (-2147483648) 4294967296
  refine ⟨B, ?_⟩
  rintro i ⟨p1, p2, k, hk, hall⟩
  have hr := hash_int_range s p1 p2
  have := hB (s.hash p1 p2) hr.1 (by push_cast; omega) p1 p2 rfl k hall
  rw [hk] at this
  exact this

/-! ### Termination -/

theorem collect_returns (s : LinearizerBase) (P : Call → Prop)
    (hP : ∀ c, P c → ∃ fuel l, leaves s fuel c = some l) :
    ∀ scs : List SubCall, (∀ sc ∈ scs, ∃ fuel c2, sc.eval s fuel = some c2 ∧ P c2) →
      ∃ F l, ∀ fuel, F ≤ fuel →
        collect (fun sc => (sc.eval s fuel).bind (leaves s fuel)) scs = some l := by
  intro scs
  induction scs with
  | nil => intro _; exact ⟨0, [], fun _ _ => rfl⟩
  | cons x xs ih =>
    intro h
    obtain ⟨F, l, hF⟩ := ih (fun y hy => h y (List.mem_cons_of_mem _ hy))
    obtain ⟨f1, c2, hc2, hp⟩ := h x (List.mem_cons_self _ _)
    obtain ⟨f2, l2, hl2⟩ := hP c2 hp
    refine ⟨F + f1 + f2, l2 ++ l, ?_⟩
    intro fuel hle
    exact collect_cons_eq_some.mpr
      ⟨l2, l, Option.bind_eq_some.mpr
        ⟨c2, subCall_eval_mono s (by omega) x hc2, leaves_mono s f2 c2 l2 hl2 fuel (by omega)⟩,
        hF fuel (by omega), rfl⟩

/-- A call returns when an invariant of the calls comes with a measure that
decreases at every recursive call whose arguments can be evaluated. -/
theorem leaves_returns (s : LinearizerBase) (Inv : Call → Prop) (μ : Call → Nat)
    (hstep : ∀ c, Inv c → ∀ sc ∈ subcalls c,
      ∃ fuel c2, sc.eval s fuel = some c2 ∧ Inv c2 ∧ μ c2 < μ c) :
    ∀ c, Inv c → ∃ fuel l, leaves s fuel c = some l := by
  have key : ∀ n c, μ c < n → Inv c → ∃ fuel l, leaves s fuel c = some l := by
    intro n
    induction n with
    | zero => intro c h; omega
    | succ n ih =>
      intro c hμ hc
      cases hs : subcalls c with
      | nil => exact ⟨1, _, by rw [leaves_succ, hs]⟩
      | cons sc rest =>
        obtain ⟨F, l, hF⟩ := collect_returns s (fun c2 => Inv c2 ∧ μ c2 < n)
          (fun c2 h2 => ih c2 h2.2 h2.1) (subcalls c)
          (fun x hx => by
            obtain ⟨f, c2, h1, h2, h3⟩ := hstep c hc x hx
            exact ⟨f, c2, h1, h2, by omega⟩)
        refine ⟨F + 1, l, ?_⟩
        rw [leaves_succ, hs]
        simp only
        rw [← hs]
        exact hF F (le_refl _)
  intro c hc
  exact key (μ c + 1) c (by omega) hc

/-- The corners of a recursive call lie below the bound and their sum exceeds
the sum of the corners of the calling triangle. -/
theorem subcalls_ascend (B : Int) (c : Call) (h : Ascending B c) : ∀ sc ∈ subcalls c,
    sc.iv0 < B ∧ sc.iv1 < B ∧ sc.iv2 < B ∧
    c.iv0 + c.iv1 + c.iv2 < sc.iv0 + sc.iv1 + sc.iv2 := by
  intro sc hsc
  obtain ⟨h0, h1, h2, b0, b1, b2, b3, b4, b5⟩ := h
  unfold subcalls hanging at hsc
  simp only at hsc
  split_ifs at hsc
  all_goals simp only [List.mem_cons, List.mem_singleton, List.not_mem_nil, or_false] at hsc
  all_goals (rcases hsc with rfl | rfl | rfl | rfl <;> (simp only []; omega))

theorem midArg_eval_ascend (s : LinearizerBase) (hpar : ParentsBelow s) (hend : ChainsEnd s)
    (B : Int) (hB : ∀ i, Stored s i → i < B) (hB0 : 0 ≤ B) (a : MidArg) (p q : Int)
    (ha : a = .minus_one ∨ a = .peek p q) :
    ∃ fuel m, a.eval s fuel = some m ∧ (0 ≤ m → p < m ∧ q < m) ∧ m < B := by
  rcases ha with rfl | rfl
  · exact ⟨0, -1, rfl, fun h => by omega, by omega⟩
  · obtain ⟨fuel, m, hm⟩ := peek_vertex_returns s hend p q
    refine ⟨fuel, m, hm, fun h0 => ?_, ?_⟩
    · obtain ⟨a, b, _⟩ := peek_vertex_above s hpar hm h0
      exact ⟨a, b⟩
    · rcases peek_vertex_some s hm with h1 | ⟨_, _, _, hst⟩
      · omega
      · exact hB m hst

/-- From an ascending call, every recursive call can be evaluated, is ascending
again and has a larger corner sum. -/
theorem ascending_step (s : LinearizerBase) (hpar : ParentsBelow s) (hend : ChainsEnd s)
    (B : Int) (hB : ∀ i, Stored s i → i < B) (hB0 : 0 ≤ B) (c : Call) (hc : Ascending B c) :
    ∀ sc ∈ subcalls c, ∃ fuel c2, sc.eval s fuel = some c2 ∧ Ascending B c2 ∧
      (3 * B - (c2.iv0 + c2.iv1 + c2.iv2)).toNat < (3 * B - (c.iv0 + c.iv1 + c.iv2)).toNat := by
  intro sc hsc
  obtain ⟨e0, e1, e2⟩ := subcalls_own_edges c sc hsc
  obtain ⟨b0, b1, b2, hsum⟩ := subcalls_ascend B c hc sc hsc
  obtain ⟨f0, m0, hm0, a0, l0⟩ := midArg_eval_ascend s hpar hend B hB hB0 sc.mid0 _ _ e0
  obtain ⟨f1, m1, hm1, a1, l1⟩ := midArg_eval_ascend s hpar hend B hB hB0 sc.mid1 _ _ e1
  obtain ⟨f2, m2, hm2, a2, l2⟩ := midArg_eval_ascend s hpar hend B hB hB0 sc.mid2 _ _ e2
  refine ⟨f0 + f1 + f2, ⟨sc.iv0, sc.iv1, sc.iv2, m0, m1, m2⟩, ?_, ?_, ?_⟩
  · exact subCall_eval_eq_some.mpr
      ⟨m0, m1, m2, midArg_eval_mono s (by omega) _ hm0, midArg_eval_mono s (by omega) _ hm1,
        midArg_eval_mono s (by omega) _ hm2, rfl⟩
  · exact ⟨a0, a1, a2, b0, b1, b2, l0, l1, l2⟩
  · simp only
    omega

/-- In a state whose chains end and whose stored indices exceed their parents,
a call whose non-negative `mid` arguments exceed the endpoints of their edges
has its triangles listed by `leaves`. -/
theorem ascending_leaves (s : LinearizerBase) (hpar : ParentsBelow s) (hend : ChainsEnd s)
    (c : Call)
    (h0 : 0 ≤ c.mid0 → c.iv0 < c.mid0 ∧ c.iv1 < c.mid0)
    (h1 : 0 ≤ c.mid1 → c.iv1 < c.mid1 ∧ c.iv2 < c.mid1)
    (h2 : 0 ≤ c.mid2 → c.iv2 < c.mid2 ∧ c.iv0 < c.mid2) :
    ∃ fuel l, leaves s fuel c = some l := by
  obtain ⟨B0, hB0⟩ := stored_bounded s hend
  let B : Int := |B0| + |c.iv0| + |c.iv1| + |c.iv2| + |c.mid0| + |c.mid1| + |c.mid2| + 1
  have e0 := abs_nonneg B0
  have e1 := abs_nonneg c.iv0
  have e2 := abs_nonneg c.iv1
  have e3 := abs_nonneg c.iv2
  have e4 := abs_nonneg c.mid0
  have e5 := abs_nonneg c.mid1
  have e6 := abs_nonneg c.mid2
  have g0 := le_abs_self B0
  have g1 := le_abs_self c.iv0
  have g2 := le_abs_self c.iv1
  have g3 := le_abs_self c.iv2
  have g4 := le_abs_self c.mid0
  have g5 := le_abs_self c.mid1
  have g6 := le_abs_self c.mid2
  have hB : ∀ i, Stored s i → i < B := fun i hi => by
    have := hB0 i hi
    show i < |B0| + |c.iv0| + |c.iv1| + |c.iv2| + |c.mid0| + |c.mid1| + |c.mid2| + 1
    omega
  have hBn : 0 ≤ B := by
    show 0 ≤ |B0| + |c.iv0| + |c.iv1| + |c.iv2| + |c.mid0| + |c.mid1| + |c.mid2| + 1
    omega
  have hc : Ascending B c := by
    refine ⟨h0, h1, h2, ?_, ?_, ?_, ?_, ?_, ?_⟩ <;>
      (show _ < |B0| + |c.iv0| + |c.iv1| + |c.iv2| + |c.mid0| + |c.mid1| + |c.mid2| + 1; omega)
  exact leaves_returns s (Ascending B)
    (fun c => (3 * B - (c.iv0 + c.iv1 + c.iv2)).toNat)
    (fun c hc => ascending_step s hpar hend B hB hBn c hc) c hc

/-- C6: in a deduplicator state in which every stored midpoint index exceeds
both of its parent indices and every bucket chain is finite, a call of
`regularize_triangle` whose non-negative `mid` arguments exceed the endpoints
of their edges terminates: from some bound on, the run is a fixed finite
sequence of `add_triangle` calls and never the exhausted bound. -/
theorem regularize_triangle_terminates (s : LinearizerBase)
    (iv0 iv1 iv2 mid0 mid1 mid2 marker : Int)
    (hpar : ParentsBelow s) (hend : ChainsEnd s)
    (h0 : 0 ≤ mid0 → iv0 < mid0 ∧ iv1 < mid0)
    (h1 : 0 ≤ mid1 → iv1 < mid1 ∧ iv2 < mid1)
    (h2 : 0 ≤ mid2 → iv2 < mid2 ∧ iv0 < mid2) :
    ∃ F l, ∀ fuel, F ≤ fuel →
      LinearizerBase.regularize_triangle fuel iv0 iv1 iv2 mid0 mid1 mid2 marker s ≠ .out_of_fuel ∧
      LinearizerBase.regularize_triangle fuel iv0 iv1 iv2 mid0 mid1 mid2 marker s =
        add_triangles l marker s := by
  obtain ⟨F, l, hl⟩ := ascending_leaves s hpar hend ⟨iv0, iv1, iv2, mid0, mid1, mid2⟩ h0 h1 h2
  refine ⟨F, l, fun fuel hle => ?_⟩
  have he := regularize_triangle_eq s fuel _ l (leaves_mono s F _ l hl fuel hle) marker s
    (sameTable_refl s)
  exact ⟨by rw [he]; exact add_triangles_ne_fuel l marker s, he⟩

theorem example_hashes :
    nested_edge.hash 0 1 = 1 ∧ nested_edge.hash 0 3 = 3 ∧
    refined_once.hash 1 2 = 3 ∧ refined_once.hash 0 2 = 2 := by
  decide

theorem nested_edge_heads (b : Int) :
    nested_edge.hash_table b = 3 ∨ nested_edge.hash_table b = 4 ∨
      nested_edge.hash_table b = -1 := by
  show (if b = 1 then (3 : Int) else if b = 3 then 4 else -1) = 3 ∨
    (if b = 1 then (3 : Int) else if b = 3 then 4 else -1) = 4 ∨
    (if b = 1 then (3 : Int) else if b = 3 then 4 else -1) = -1
  split_ifs <;> simp

theorem nested_edge_chains_end : ChainsEnd nested_edge := by
  intro p1 p2
  rcases nested_edge_heads (nested_edge.hash p1 p2) with h | h | h <;> rw [h]
  · exact ⟨1, by decide⟩
  · exact ⟨1, by decide⟩
  · exact ⟨0, by decide⟩

theorem nested_edge_parents_below : ParentsBelow nested_edge := by
  rintro i ⟨p1, p2, k, hk, hall⟩
  rcases nested_edge_heads (nested_edge.hash p1 p2) with h | h | h <;> rw [h] at hk hall
  · cases k with
    | zero =>
      have : i = 3 := hk.symm
      subst this
      decide
    | succ k =>
      have := hall 1 (by omega)
      exact absurd this (by decide)
  · cases k with
    | zero =>
      have : i = 4 := hk.symm
      subst this
      decide
    | succ k =>
      have := hall 1 (by omega)
      exact absurd this (by decide)
  · have := hall 0 (by omega)
    exact absurd this (by decide)

/-- C6, witness: the triangle 0, 1, 2 with hanging vertex 3 in `nested_edge`,
where the half edge from 0 to 3 has the midpoint 4. -/
theorem regularize_triangle_terminates_witness :
    (ParentsBelow nested_edge ∧ ChainsEnd nested_edge ∧
      ((0 : Int) ≤ 3 → (0 : Int) < 3 ∧ (1 : Int) < 3) ∧
      ((0 : Int) ≤ -1 → (1 : Int) < -1 ∧ (2 : Int) < -1) ∧
      ((0 : Int) ≤ -1 → (2 : Int) < -1 ∧ (0 : Int) < -1)) ∧
    ∃ F l, ∀ fuel, F ≤ fuel →
      LinearizerBase.regularize_triangle fuel 0 1 2 3 (-1) (-1) 7 nested_edge ≠ .out_of_fuel ∧
      LinearizerBase.regularize_triangle fuel 0 1 2 3 (-1) (-1) 7 nested_edge =
        add_triangles l 7 nested_edge :=
  ⟨⟨nested_edge_parents_below, nested_edge_chains_end, by decide, by decide, by decide⟩,
    regularize_triangle_terminates nested_edge 0 1 2 3 (-1) (-1) 7 nested_edge_parents_below
      nested_edge_chains_end (by decide) (by decide) (by decide)⟩

/-! ### From `leaves` to the triangle buffer -/

/-- A returning call has appended the triangles listed by `leaves` and has
left the deduplicator and the vertex count alone. -/
theorem regularize_triangle_ok_appended (s : LinearizerBase) (fuel : Nat)
    (iv0 iv1 iv2 mid0 mid1 mid2 marker : Int) (s1 : LinearizerBase)
    (h : LinearizerBase.regularize_triangle fuel iv0 iv1 iv2 mid0 mid1 mid2 marker s = .ok () s1) :
    ∃ l, leaves s fuel ⟨iv0, iv1, iv2, mid0, mid1, mid2⟩ = some l ∧ Appended s s1 l marker ∧
      SameTable s s1 ∧ s1.vertex_count = s.vertex_count := by
  obtain ⟨l, hl⟩ := regularize_triangle_ok_leaves s fuel ⟨iv0, iv1, iv2, mid0, mid1, mid2⟩ marker
    s s1 (sameTable_refl s) h
  have he := regularize_triangle_eq s fuel _ l hl marker s (sameTable_refl s)
  obtain ⟨hT, hv, _, hA⟩ := add_triangles_ok l marker s s1 (he ▸ h)
  exact ⟨l, hl, hA, hT, hv⟩

/-- The entries between the old and the new count are the appended triangles. -/
theorem appended_mem {s s1 : LinearizerBase} {l : List Tri} {marker : Int}
    (h : Appended s s1 l marker) (i : Int) (h1 : s.triangle_count ≤ i)
    (h2 : i < s1.triangle_count) : s1.tris i ∈ l ∧ s1.tri_markers i = marker := by
  obtain ⟨hc, hnew, _⟩ := h
  have hk : (i - s.triangle_count).toNat < l.length := by
    rw [hc] at h2
    omega
  have := hnew (i - s.triangle_count).toNat hk
  have e : s.triangle_count + ((i - s.triangle_count).toNat : Int) = i := by omega
  rw [e] at this
  exact ⟨this.1 ▸ List.get_mem _ _ _, this.2⟩

/-- C8: every triangle appended by a returning call of `regularize_triangle`,
whatever the recursion depth and the case `n`, is stored with the marker passed
to the call: the entries of `tri_markers` between the old and the new triangle
count all equal `marker`. -/
theorem regularize_triangle_marker (s : LinearizerBase) (fuel : Nat)
    (iv0 iv1 iv2 mid0 mid1 mid2 marker : Int) (s1 : LinearizerBase)
    (h : LinearizerBase.regularize_triangle fuel iv0 iv1 iv2 mid0 mid1 mid2 marker s = .ok () s1) :
    ∀ i, s.triangle_count ≤ i → i < s1.triangle_count → s1.tri_markers i = marker := by
  obtain ⟨l, _, hA, _, _⟩ := regularize_triangle_ok_appended s fuel iv0 iv1 iv2 mid0 mid1 mid2
    marker s1 h
  exact fun i h1 h2 => (appended_mem hA i h1 h2).2

theorem nested_edge_run :
    ∃ s1, LinearizerBase.regularize_triangle 4 0 1 2 3 (-1) (-1) 7 nested_edge = .ok () s1 := by
  have hl : leaves nested_edge 4 ⟨0, 1, 2, 3, -1, -1⟩ = some [(0, 4, 2), (4, 3, 2), (3, 1, 2)] := by
    decide
  have he := regularize_triangle_eq nested_edge 4 _ _ hl 7 nested_edge (sameTable_refl _)
  obtain ⟨s1, h1⟩ := add_triangles_returns [(0, 4, 2), (4, 3, 2), (3, 1, 2)] 7 nested_edge
    (fun _ => rfl)
  exact ⟨s1, he.trans h1⟩

/-- C8, witness: the returning call on triangle 0, 1, 2 with hanging vertex 3
in `nested_edge`, marker 7. -/
theorem regularize_triangle_marker_witness :
    ∃ s1, LinearizerBase.regularize_triangle 4 0 1 2 3 (-1) (-1) 7 nested_edge = .ok () s1 ∧
      ∀ i, nested_edge.triangle_count ≤ i → i < s1.triangle_count → s1.tri_markers i = 7 :=
  nested_edge_run.elim fun s1 h =>
    ⟨s1, h, regularize_triangle_marker nested_edge 4 0 1 2 3 (-1) (-1) 7 s1 h⟩

/-! ### Indices in range -/

theorem peek_vertex_loop_below (s : LinearizerBase) (hin : IndicesInRange s) (p1 p2 : Int) :
    ∀ (fuel : Nat) (i m : Int), i < s.vertex_count →
      s.peek_vertex_loop p1 p2 fuel i = some m → m = -1 ∨ (0 ≤ m ∧ m < s.vertex_count) := by
  intro fuel
  induction fuel with
  | zero => intro i m _ h; simp [LinearizerBase.peek_vertex_loop] at h
  | succ f ih =>
    intro i m hi h
    rw [LinearizerBase.peek_vertex_loop] at h
    split_ifs at h with h1 h2
    · simp only [Option.some.injEq] at h
      subst h
      exact Or.inr ⟨h1, hi⟩
    · exact ih _ _ (hin.2 i h1 hi) h
    · simp only [Option.some.injEq] at h
      exact Or.inl h.symm

theorem peek_vertex_below (s : LinearizerBase) (hin : IndicesInRange s) {fuel : Nat}
    {p1 p2 m : Int} (h : s.peek_vertex fuel p1 p2 = some m) :
    m = -1 ∨ (0 ≤ m ∧ m < s.vertex_count) := by
  rw [peek_vertex_eq_loop] at h
  exact peek_vertex_loop_below s hin _ _ fuel _ m (hin.1 _ _) h

/-- The corners of a recursive call are corners or hanging vertices of the
calling triangle. -/
theorem subcalls_below (n : Int) (c : Call) (h : Call.below n c) : ∀ sc ∈ subcalls c,
    Tri.below n (sc.iv0, sc.iv1, sc.iv2) := by
  intro sc hsc
  obtain ⟨⟨⟨a0, a1⟩, ⟨b0, b1⟩, ⟨c0, c1⟩⟩, h0, h1, h2⟩ := h
  simp only at a0 a1 b0 b1 c0 c1
  unfold subcalls hanging at hsc
  simp only at hsc
  unfold Tri.below
  split_ifs at hsc
  all_goals simp only [List.mem_cons, List.mem_singleton, List.not_mem_nil, or_false] at hsc
  all_goals (rcases hsc with rfl | rfl | rfl | rfl <;> (simp only []; omega))

theorem midArg_eval_below (s : LinearizerBase) (hin : IndicesInRange s)
    {fuel : Nat} {a : MidArg} {m : Int} (h : a.eval s fuel = some m) :
    0 ≤ m → m < s.vertex_count := by
  cases a with
  | peek p q =>
    intro hm
    rcases peek_vertex_below s hin h with h1 | h1
    · omega
    · exact h1.2
  | minus_one =>
    simp only [MidArg.eval, Option.some.injEq] at h
    omega

/-- C7: if the three corners and every non-negative `mid` argument of a call of
`regularize_triangle` are in `[0, vertex_count)` and every index held by the
deduplicator (bucket heads and chain links) is below `vertex_count`, then all
three indices of every triangle appended by the returning call are in
`[0, vertex_count)`. -/
theorem regularize_triangle_in_range (s : LinearizerBase) (fuel : Nat)
    (iv0 iv1 iv2 mid0 mid1 mid2 marker : Int) (s1 : LinearizerBase)
    (hc : Tri.below s.vertex_count (iv0, iv1, iv2))
    (h0 : 0 ≤ mid0 → mid0 < s.vertex_count) (h1 : 0 ≤ mid1 → mid1 < s.vertex_count)
    (h2 : 0 ≤ mid2 → mid2 < s.vertex_count)
    (hin : IndicesInRange s)
    (h : LinearizerBase.regularize_triangle fuel iv0 iv1 iv2 mid0 mid1 mid2 marker s = .ok () s1) :
    ∀ i, s.triangle_count ≤ i → i < s1.triangle_count →
      Tri.below s1.vertex_count (s1.tris i) := by
  obtain ⟨l, hl, hA, _, hv⟩ := regularize_triangle_ok_appended s fuel iv0 iv1 iv2 mid0 mid1 mid2
    marker s1 h
  have hall := leaves_forall s (Call.below s.vertex_count) (Tri.below s.vertex_count)
    (fun c hc _ => hc.1)
    (fun c sc f c2 hc hsc hev => by
      obtain ⟨m0, m1, m2, e0, e1, e2, rfl⟩ := subCall_eval_eq_some.mp hev
      exact ⟨subcalls_below _ c hc sc hsc, midArg_eval_below s hin e0,
        midArg_eval_below s hin e1, midArg_eval_below s hin e2⟩)
    fuel ⟨iv0, iv1, iv2, mid0, mid1, mid2⟩ l ⟨hc, h0, h1, h2⟩ hl
  intro i i1 i2
  rw [hv]
  exact hall _ (appended_mem hA i i1 i2).1

theorem nested_edge_links (i : Int) : nested_edge.info i 2 = -1 := by
  show (if i = 3 then (if (2 : Int) = 0 then (0 : Int) else if (2 : Int) = 1 then 1 else -1)
    else if i = 4 then (if (2 : Int) = 0 then 0 else if (2 : Int) = 1 then 3 else -1)
    else -1) = -1
  split_ifs <;> simp_all

theorem nested_edge_in_range : IndicesInRange nested_edge := by
  constructor
  · intro p1 p2
    show nested_edge.hash_table (nested_edge.hash p1 p2) < 5
    rcases nested_edge_heads (nested_edge.hash p1 p2) with h | h | h <;> rw [h] <;> decide
  · intro i _ _
    rw [nested_edge_links]
    decide

/-- C7, witness: the returning call on triangle 0, 1, 2 with hanging vertex 3
in `nested_edge`, which has five vertices. -/
theorem regularize_triangle_in_range_witness :
    ∃ s1, (Tri.below nested_edge.vertex_count (0, 1, 2) ∧
        ((0 : Int) ≤ 3 → 3 < nested_edge.vertex_count) ∧
        ((0 : Int) ≤ -1 → -1 < nested_edge.vertex_count) ∧
        ((0 : Int) ≤ -1 → -1 < nested_edge.vertex_count) ∧
        IndicesInRange nested_edge ∧
        LinearizerBase.regularize_triangle 4 0 1 2 3 (-1) (-1) 7 nested_edge = .ok () s1) ∧
      ∀ i, nested_edge.triangle_count ≤ i → i < s1.triangle_count →
        Tri.below s1.vertex_count (s1.tris i) :=
  nested_edge_run.elim fun s1 h =>
    ⟨s1, ⟨by decide, by decide, by decide, by decide, nested_edge_in_range, h⟩,
      regularize_triangle_in_range nested_edge 4 0 1 2 3 (-1) (-1) 7 s1 (by decide) (by decide)
        (by decide) (by decide) nested_edge_in_range h⟩

/-! ### Conformance -/

theorem hanging_eq_zero {mid0 mid1 mid2 : Int} (h : hanging mid0 mid1 mid2 = 0) :
    mid0 < 0 ∧ mid1 < 0 ∧ mid2 < 0 := by
  unfold hanging at h
  split_ifs at h <;> omega

theorem peekIs_negative {s : LinearizerBase} {p1 p2 m : Int} (h : PeekIs s p1 p2 m)
    (hm : m < 0) : PeekIs s p1 p2 (-1) := by
  obtain ⟨fuel, hf⟩ := h
  rcases peek_vertex_some s hf with h1 | h1
  · exact ⟨fuel, h1 ▸ hf⟩
  · omega

/-- The value of a `mid` argument expression at a call site is what
`peek_vertex` returns on the edge it stands for, provided `peek_vertex` reports
no midpoint on the edges for which the literal `-1` is passed. -/
theorem midArg_eval_peekIs (s : LinearizerBase) {fuel : Nat} {a : MidArg} {p q m : Int}
    (ha : a = .minus_one ∨ a = .peek p q) (hlit : a.is_literal = true → PeekIs s p q (-1))
    (h : a.eval s fuel = some m) : PeekIs s p q m := by
  rcases ha with rfl | rfl
  · simp only [MidArg.eval, Option.some.injEq] at h
    subst h
    exact hlit rfl
  · exact ⟨fuel, h⟩

theorem consistent_step (s : LinearizerBase) (c : Call) (sc : SubCall) (fuel : Nat) (c2 : Call)
    (hc : Consistent s c) (hsc : sc ∈ subcalls c) (hev : sc.eval s fuel = some c2) :
    Consistent s c2 := by
  obtain ⟨e0, e1, e2⟩ := subcalls_own_edges c sc hsc
  obtain ⟨m0, m1, m2, v0, v1, v2, rfl⟩ := subCall_eval_eq_some.mp hev
  refine ⟨⟨?_, ?_, ?_⟩, fun a b hab => hc.2 a b (Introduced.deeper hsc hev hab)⟩
  · refine midArg_eval_peekIs s e0 (fun hl => hc.2 _ _ (Introduced.here hsc ?_)) v0
    simp [SubCall.literal_edges, hl]
  · refine midArg_eval_peekIs s e1 (fun hl => hc.2 _ _ (Introduced.here hsc ?_)) v1
    simp [SubCall.literal_edges, hl]
  · refine midArg_eval_peekIs s e2 (fun hl => hc.2 _ _ (Introduced.here hsc ?_)) v2
    simp [SubCall.literal_edges, hl]

theorem consistent_leaf (s : LinearizerBase) (c : Call) (hc : Consistent s c)
    (hs : subcalls c = []) : NoMidpointOn s (c.iv0, c.iv1, c.iv2) := by
  obtain ⟨h0, h1, h2⟩ := hanging_eq_zero ((subcalls_eq_nil c).mp hs)
  exact ⟨peekIs_negative hc.1.1 h0, peekIs_negative hc.1.2.1 h1, peekIs_negative hc.1.2.2 h2⟩

theorem noMidpointOn_sameTable {s s1 : LinearizerBase} (hT : SameTable s s1) {t : Tri}
    (h : NoMidpointOn s t) : NoMidpointOn s1 t := by
  obtain ⟨⟨f0, h0⟩, ⟨f1, h1⟩, ⟨f2, h2⟩⟩ := h
  exact ⟨⟨f0, by rw [sameTable_peek_vertex hT]; exact h0⟩,
    ⟨f1, by rw [sameTable_peek_vertex hT]; exact h1⟩,
    ⟨f2, by rw [sameTable_peek_vertex hT]; exact h2⟩⟩

/-- C5: conformance of regularization.  In a well-founded deduplicator state
(stored indices above their parents, finite chains), if the three `mid`
arguments of a call of `regularize_triangle` are what `peek_vertex` returns on
the corresponding edges and `peek_vertex` reports no midpoint on any edge the
algorithm introduces inside the triangle (the edges for which it passes `-1`),
then the call terminates and `peek_vertex` reports no midpoint on any of the
three edges of any triangle it appended. -/
theorem regularize_triangle_conforming (s : LinearizerBase)
    (iv0 iv1 iv2 mid0 mid1 mid2 marker : Int)
    (hpar : ParentsBelow s) (hend : ChainsEnd s)
    (hmid : PeekIs s iv0 iv1 mid0 ∧ PeekIs s iv1 iv2 mid1 ∧ PeekIs s iv2 iv0 mid2)
    (hint : ∀ a b, Introduced s ⟨iv0, iv1, iv2, mid0, mid1, mid2⟩ a b → PeekIs s a b (-1)) :
    (∃ F, ∀ fuel, F ≤ fuel →
      LinearizerBase.regularize_triangle fuel iv0 iv1 iv2 mid0 mid1 mid2 marker s ≠
        .out_of_fuel) ∧
    ∀ fuel s1,
      LinearizerBase.regularize_triangle fuel iv0 iv1 iv2 mid0 mid1 mid2 marker s = .ok () s1 →
      ∀ i, s.triangle_count ≤ i → i < s1.triangle_count → NoMidpointOn s1 (s1.tris i) := by
  constructor
  · obtain ⟨⟨f0, p0⟩, ⟨f1, p1⟩, ⟨f2, p2⟩⟩ := hmid
    obtain ⟨F, l, hl⟩ := ascending_leaves s hpar hend ⟨iv0, iv1, iv2, mid0, mid1, mid2⟩
      (fun h => ⟨(peek_vertex_above s hpar p0 h).1, (peek_vertex_above s hpar p0 h).2.1⟩)
      (fun h => ⟨(peek_vertex_above s hpar p1 h).1, (peek_vertex_above s hpar p1 h).2.1⟩)
      (fun h => ⟨(peek_vertex_above s hpar p2 h).1, (peek_vertex_above s hpar p2 h).2.1⟩)
    refine ⟨F, fun fuel hle => ?_⟩
    rw [regularize_triangle_eq s fuel _ l (leaves_mono s F _ l hl fuel hle) marker s
      (sameTable_refl s)]
    exact add_triangles_ne_fuel l marker s
  · intro fuel s1 h i i1 i2
    obtain ⟨l, hl, hA, hT, _⟩ := regularize_triangle_ok_appended s fuel iv0 iv1 iv2 mid0 mid1
      mid2 marker s1 h
    have hall := leaves_forall s (Consistent s) (NoMidpointOn s) (consistent_leaf s)
      (consistent_step s) fuel ⟨iv0, iv1, iv2, mid0, mid1, mid2⟩ l ⟨hmid, hint⟩ hl
    exact noMidpointOn_sameTable hT (hall _ (appended_mem hA i i1 i2).1)

theorem peek_vertex_unique (s : LinearizerBase) {f1 f2 : Nat} {p q m1 m2 : Int}
    (h1 : s.peek_vertex f1 p q = some m1) (h2 : s.peek_vertex f2 p q = some m2) : m1 = m2 := by
  have a := peek_vertex_mono s h1 (Nat.le_max_left f1 f2)
  have b := peek_vertex_mono s h2 (Nat.le_max_right f1 f2)
  rw [a] at b
  exact Option.some.inj b

theorem introduced_cases {s : LinearizerBase} {c : Call} {a b : Int} (h : Introduced s c a b) :
    ∃ sc ∈ subcalls c, (a, b) ∈ sc.literal_edges ∨
      ∃ fuel c2, sc.eval s fuel = some c2 ∧ Introduced s c2 a b := by
  cases h with
  | here hsc hl => exact ⟨_, hsc, Or.inl hl⟩
  | deeper hsc hev hin => exact ⟨_, hsc, Or.inr ⟨_, _, hev, hin⟩⟩

theorem introduced_leaf {s : LinearizerBase} {c : Call} {a b : Int}
    (h0 : hanging c.mid0 c.mid1 c.mid2 = 0) : ¬ Introduced s c a b := by
  intro h
  obtain ⟨sc, hsc, _⟩ := introduced_cases h
  rw [(subcalls_eq_nil c).mpr h0] at hsc
  simp at hsc

/-- The value of a call site whose three `mid` values are known. -/
theorem subCall_eval_known {s : LinearizerBase} {fuel : Nat} {sc : SubCall} {c : Call}
    (h : sc.eval s fuel = some c) (m0 m1 m2 : Int)
    (k0 : ∀ f m, sc.mid0.eval s f = some m → m = m0)
    (k1 : ∀ f m, sc.mid1.eval s f = some m → m = m1)
    (k2 : ∀ f m, sc.mid2.eval s f = some m → m = m2) :
    c = ⟨sc.iv0, sc.iv1, sc.iv2, m0, m1, m2⟩ := by
  obtain ⟨a0, a1, a2, e0, e1, e2, rfl⟩ := subCall_eval_eq_some.mp h
  rw [k0 _ _ e0, k1 _ _ e1, k2 _ _ e2]

theorem midArg_peek_known (s : LinearizerBase) (p q v : Int) (hv : s.peek_vertex 2 p q = some v) :
    ∀ f m, (MidArg.peek p q).eval s f = some m → m = v :=
  fun _ _ h => peek_vertex_unique s h hv

theorem midArg_literal_known (s : LinearizerBase) :
    ∀ f m, MidArg.minus_one.eval s f = some m → m = -1 :=
  fun _ _ h => (Option.some.inj h).symm

theorem nested_edge_introduced :
    ∀ a b, Introduced nested_edge ⟨0, 1, 2, 3, -1, -1⟩ a b → PeekIs nested_edge a b (-1) := by
  intro a b h
  obtain ⟨sc, hsc, h⟩ := introduced_cases h
  have e : subcalls ⟨0, 1, 2, 3, -1, -1⟩ =
      [⟨0, 3, 2, .peek 0 3, .minus_one, .peek 2 0⟩, ⟨3, 1, 2, .peek 3 1, .peek 1 2, .minus_one⟩] := by
    simp [subcalls, hanging]
  rw [e] at hsc
  simp only [List.mem_cons, List.mem_singleton, List.not_mem_nil, or_false] at hsc
  rcases hsc with rfl | rfl
  · rcases h with h | ⟨fuel, c2, hev, h⟩
    · simp [SubCall.literal_edges, MidArg.is_literal] at h
      obtain ⟨rfl, rfl⟩ := h
      exact ⟨2, by decide⟩
    · have := subCall_eval_known hev 4 (-1) (-1)
        (midArg_peek_known _ 0 3 4 (by decide)) (midArg_literal_known _)
        (midArg_peek_known _ 2 0 (-1) (by decide))
      subst this
      obtain ⟨sc, hsc, h⟩ := introduced_cases h
      have e2 : subcalls ⟨0, 3, 2, 4, -1, -1⟩ =
          [⟨0, 4, 2, .peek 0 4, .minus_one, .peek 2 0⟩,
            ⟨4, 3, 2, .peek 4 3, .peek 3 2, .minus_one⟩] := by
        simp [subcalls, hanging]
      simp only at hsc
      rw [e2] at hsc
      simp only [List.mem_cons, List.mem_singleton, List.not_mem_nil, or_false] at hsc
      rcases hsc with rfl | rfl
      · rcases h with h | ⟨fuel, c3, hev, h⟩
        · simp [SubCall.literal_edges, MidArg.is_literal] at h
          obtain ⟨rfl, rfl⟩ := h
          exact ⟨2, by decide⟩
        · have := subCall_eval_known hev (-1) (-1) (-1)
            (midArg_peek_known _ 0 4 (-1) (by decide)) (midArg_literal_known _)
            (midArg_peek_known _ 2 0 (-1) (by decide))
          subst this
          exact absurd h (introduced_leaf (by decide))
      · rcases h with h | ⟨fuel, c3, hev, h⟩
        · simp [SubCall.literal_edges, MidArg.is_literal] at h
          obtain ⟨rfl, rfl⟩ := h
          exact ⟨2, by decide⟩
        · have := subCall_eval_known hev (-1) (-1) (-1)
            (midArg_peek_known _ 4 3 (-1) (by decide)) (midArg_peek_known _ 3 2 (-1) (by decide))
            (midArg_literal_known _)
          subst this
          exact absurd h (introduced_leaf (by decide))
  · rcases h with h | ⟨fuel, c2, hev, h⟩
    · simp [SubCall.literal_edges, MidArg.is_literal] at h
      obtain ⟨rfl, rfl⟩ := h
      exact ⟨2, by decide⟩
    · have := subCall_eval_known hev (-1) (-1) (-1)
        (midArg_peek_known _ 3 1 (-1) (by decide)) (midArg_peek_known _ 1 2 (-1) (by decide))
        (midArg_literal_known _)
      subst this
      exact absurd h (introduced_leaf (by decide))

/-- C5, witness: the triangle 0, 1, 2 with hanging vertex 3 in `nested_edge`,
where the half edge from 0 to 3 has the midpoint 4; the edges introduced are
those from 2 to 3 and from 2 to 4. -/
theorem regularize_triangle_conforming_witness :
    (ParentsBelow nested_edge ∧ ChainsEnd nested_edge ∧
      (PeekIs nested_edge 0 1 3 ∧ PeekIs nested_edge 1 2 (-1) ∧ PeekIs nested_edge 2 0 (-1)) ∧
      ∀ a b, Introduced nested_edge ⟨0, 1, 2, 3, -1, -1⟩ a b → PeekIs nested_edge a b (-1)) ∧
    ((∃ F, ∀ fuel, F ≤ fuel →
      LinearizerBase.regularize_triangle fuel 0 1 2 3 (-1) (-1) 7 nested_edge ≠ .out_of_fuel) ∧
    ∀ fuel s1,
      LinearizerBase.regularize_triangle fuel 0 1 2 3 (-1) (-1) 7 nested_edge = .ok () s1 →
      ∀ i, nested_edge.triangle_count ≤ i → i < s1.triangle_count →
        NoMidpointOn s1 (s1.tris i)) :=
  ⟨⟨nested_edge_parents_below, nested_edge_chains_end,
      ⟨⟨2, by decide⟩, ⟨2, by decide⟩, ⟨2, by decide⟩⟩, nested_edge_introduced⟩,
    regularize_triangle_conforming nested_edge 0 1 2 3 (-1) (-1) 7 nested_edge_parents_below
      nested_edge_chains_end ⟨⟨2, by decide⟩, ⟨2, by decide⟩, ⟨2, by decide⟩⟩
      nested_edge_introduced⟩

/-! ### The lookup -/

theorem onChain_succ (s : LinearizerBase) (i : Int) (k : Nat) :
    OnChain s i (k + 1) ↔ 0 ≤ i ∧ OnChain s (s.info i 2) k := by
  constructor
  · intro h
    refine ⟨h 0 (by omega), fun j hj => ?_⟩
    rw [← chain_succ]
    exact h (j + 1) (by omega)
  · rintro ⟨h0, h⟩ j hj
    cases j with
    | zero => exact h0
    | succ j => rw [chain_succ]; exact h j (by omega)

theorem firstMatch_end (s : LinearizerBase) (p1 p2 i : Int) (hi : ¬ i ≥ 0) :
    FirstMatch s i p1 p2 (-1) := by
  refine ⟨⟨fun _ k hk => absurd (hk 0 (by omega)) hi, fun _ => rfl⟩, fun h => absurd rfl h⟩

theorem firstMatch_here (s : LinearizerBase) (p1 p2 i : Int) (hi : i ≥ 0)
    (hm : Matches s p1 p2 i) : FirstMatch s i p1 p2 i := by
  have h0 : OnChain s i 0 := fun j hj => by
    have : j = 0 := by omega
    subst this
    exact hi
  refine ⟨⟨fun h => by omega, fun h => absurd hm (h 0 h0)⟩,
    fun _ => ⟨0, h0, rfl, hm, fun j hj => by omega⟩⟩

theorem firstMatch_next (s : LinearizerBase) (p1 p2 i m : Int) (hi : i ≥ 0)
    (hm : ¬ Matches s p1 p2 i) (h : FirstMatch s (s.info i 2) p1 p2 m) :
    FirstMatch s i p1 p2 m := by
  obtain ⟨h1, h2⟩ := h
  refine ⟨⟨fun e k hk => ?_, fun hall => h1.mpr fun k hk => ?_⟩, fun hne => ?_⟩
  · cases k with
    | zero => exact hm
    | succ k =>
      rw [chain_succ]
      exact h1.mp e k ((onChain_succ s i k).mp hk).2
  · rw [← chain_succ]
    exact hall (k + 1) ((onChain_succ s i k).mpr ⟨hi, hk⟩)
  · obtain ⟨k, hk, e, hmm, hfirst⟩ := h2 hne
    refine ⟨k + 1, (onChain_succ s i k).mpr ⟨hi, hk⟩, by rw [chain_succ]; exact e, hmm, ?_⟩
    intro j hj
    cases j with
    | zero => exact hm
    | succ j => rw [chain_succ]; exact hfirst j (by omega)

/-- On a chain that ends, the loop returns the first matching index, or `-1`
when there is none. -/
theorem peek_vertex_loop_first (s : LinearizerBase) (p1 p2 : Int) :
    ∀ (n : Nat) (i : Int), s.chain i n < 0 →
      ∃ m, s.peek_vertex_loop p1 p2 (n + 1) i = some m ∧ FirstMatch s i p1 p2 m := by
  intro n
  induction n with
  | zero =>
    intro i h
    have hi : ¬ i ≥ 0 := by simpa [LinearizerBase.chain] using h
    exact ⟨-1, by rw [LinearizerBase.peek_vertex_loop]; simp [hi], firstMatch_end s p1 p2 i hi⟩
  | succ n ih =>
    intro i h
    rw [LinearizerBase.peek_vertex_loop]
    split_ifs with h1 h2
    · exact ⟨i, rfl, firstMatch_here s p1 p2 i h1 h2⟩
    · obtain ⟨m, hm, hf⟩ := ih (s.info i 2) (by rw [← chain_succ]; exact h)
      exact ⟨m, hm, firstMatch_next s p1 p2 i m h1 h2 hf⟩
    · exact ⟨-1, rfl, firstMatch_end s p1 p2 i h1⟩

theorem peek_vertex_symm (s : LinearizerBase) (fuel : Nat) (p1 p2 : Int) :
    s.peek_vertex fuel p1 p2 = s.peek_vertex fuel p2 p1 := by
  rw [peek_vertex_eq_loop, peek_vertex_eq_loop, min_comm, max_comm]

/-- C9: `peek_vertex(p1, p2)` looks up the canonicalised pair.  When the chain
of the bucket `hash(min, max)` ends, the call returns, and what it returns is
the first index on that chain whose creation record has `info[i][0] = min` and
`info[i][1] = max`, and `-1` exactly when no record on the chain matches both
components; a record with another parent pair is never returned.  The call
does not depend on the order of its arguments. -/
theorem peek_vertex_first_match (s : LinearizerBase) (p1 p2 : Int)
    (hend : ∃ n, s.chain (s.hash_table (s.hash (min p1 p2) (max p1 p2))) n < 0) :
    (∃ F m, (∀ fuel, F ≤ fuel → s.peek_vertex fuel p1 p2 = some m) ∧
      FirstMatch s (s.hash_table (s.hash (min p1 p2) (max p1 p2))) (min p1 p2) (max p1 p2) m ∧
      (m ≠ -1 → s.info m 0 = min p1 p2 ∧ s.info m 1 = max p1 p2)) ∧
    ∀ fuel, s.peek_vertex fuel p1 p2 = s.peek_vertex fuel p2 p1 := by
  refine ⟨?_, fun fuel => peek_vertex_symm s fuel p1 p2⟩
  obtain ⟨n, hn⟩ := hend
  obtain ⟨m, hm, hf⟩ := peek_vertex_loop_first s (min p1 p2) (max p1 p2) n _ hn
  refine ⟨n + 1, m, fun fuel hle => ?_, hf, fun hne => ?_⟩
  · rw [peek_vertex_eq_loop]
    exact peek_vertex_loop_mono s _ _ _ _ _ hm fuel hle
  · obtain ⟨_, _, _, hmm, _⟩ := hf.2 hne
    exact hmm

/-- C9, witness: the lookup of the pair 3, 0 in `nested_edge`, whose bucket
holds the record of vertex 4 with parents 0 and 3. -/
theorem peek_vertex_first_match_witness :
    (∃ n, nested_edge.chain
        (nested_edge.hash_table (nested_edge.hash (min 3 0) (max 3 0))) n < 0) ∧
    ((∃ F m, (∀ fuel, F ≤ fuel → nested_edge.peek_vertex fuel 3 0 = some m) ∧
      FirstMatch nested_edge (nested_edge.hash_table (nested_edge.hash (min 3 0) (max 3 0)))
        (min 3 0) (max 3 0) m ∧
      (m ≠ -1 → nested_edge.info m 0 = min 3 0 ∧ nested_edge.info m 1 = max 3 0)) ∧
    ∀ fuel, nested_edge.peek_vertex fuel 3 0 = nested_edge.peek_vertex fuel 0 3) :=
  ⟨⟨1, by decide⟩, peek_vertex_first_match nested_edge 3 0 ⟨1, by decide⟩⟩

/-! ### `Orderizer`: vertices are always fresh -/

/-- A returning `add_vertex` hands out the old vertex count and increments it;
vertex contents and allocator oracle stay. -/
theorem add_vertex_ok {s s1 : Orderizer} {index : Int}
    (h : Orderizer.add_vertex s = .ok index s1) :
    index = s.vertex_count ∧ s1.vertex_count = s.vertex_count + 1 ∧ s1.verts = s.verts ∧
      s1.heap = s.heap := by
  unfold Orderizer.add_vertex at h
  simp only [Orderizer.realloc] at h
  split_ifs at h <;> simp only [Result.ok.injEq] at h <;> obtain ⟨rfl, rfl⟩ := h <;>
    exact ⟨rfl, rfl, rfl, rfl⟩

theorem add_vertex_returns (s : Orderizer) (hheap : ∀ k, s.heap k = true) :
    ∃ index s1, Orderizer.add_vertex s = .ok index s1 := by
  unfold Orderizer.add_vertex
  simp only [Orderizer.realloc, hheap]
  split_ifs <;> exact ⟨_, _, rfl⟩

theorem make_vert_eq (x y val : ℚ) (s : Orderizer) :
    Orderizer.make_vert x y val s =
      match Orderizer.add_vertex s with
      | .ok index s1 =>
        .ok index { s1 with verts := fun i => if i = index then (x, y, val) else s1.verts i }
      | .out_of_memory s1 => .out_of_memory s1
      | .invalid_input s1 => .invalid_input s1
      | .out_of_fuel => .out_of_fuel := by
  simp only [Orderizer.make_vert, run_bind_def, Run.bind]
  cases Orderizer.add_vertex s <;> rfl

/-- A returning `make_vert` creates a new vertex: its index is the old vertex
count, whatever the coordinates, and no other vertex is touched. -/
theorem make_vert_ok {x y val : ℚ} {s s1 : Orderizer} {index : Int}
    (h : Orderizer.make_vert x y val s = .ok index s1) :
    index = s.vertex_count ∧ s1.vertex_count = s.vertex_count + 1 ∧
      s1.verts index = (x, y, val) ∧ (∀ i, i ≠ index → s1.verts i = s.verts i) ∧
      s1.heap = s.heap := by
  rw [make_vert_eq] at h
  cases h0 : Orderizer.add_vertex s with
  | out_of_memory s2 => rw [h0] at h; simp at h
  | invalid_input s2 => rw [h0] at h; simp at h
  | out_of_fuel => rw [h0] at h; simp at h
  | ok i s2 =>
    rw [h0] at h
    simp only [Result.ok.injEq] at h
    obtain ⟨rfl, rfl⟩ := h
    obtain ⟨hi, hc, hv, hh⟩ := add_vertex_ok h0
    refine ⟨hi, hc, by simp, fun j hj => ?_, hh⟩
    simp only [hj, if_false]
    rw [hv]

theorem make_vert_returns (x y val : ℚ) (s : Orderizer) (hheap : ∀ k, s.heap k = true) :
    ∃ index s1, Orderizer.make_vert x y val s = .ok index s1 := by
  obtain ⟨i, s2, h⟩ := add_vertex_returns s hheap
  rw [make_vert_eq, h]
  exact ⟨_, _, rfl⟩

theorem run_bind_ok {σ α β : Type} {m : Run σ α} {k : α → Run σ β} {s s1 : σ} {b : β}
    (h : (m >>= k) s = .ok b s1) : ∃ a s2, m s = .ok a s2 ∧ k a s2 = .ok b s1 := by
  simp only [run_bind_def, Run.bind] at h
  cases h0 : m s with
  | ok a s2 => rw [h0] at h; exact ⟨a, s2, rfl, h⟩
  | out_of_memory s2 => rw [h0] at h; simp at h
  | invalid_input s2 => rw [h0] at h; simp at h
  | out_of_fuel => rw [h0] at h; simp at h

theorem grows_refl (s : Orderizer) : Grows s s := ⟨le_refl _, fun _ _ => rfl, rfl⟩

theorem grows_trans {s s1 s2 : Orderizer} (h1 : Grows s s1) (h2 : Grows s1 s2) : Grows s s2 :=
  ⟨le_trans h1.1 h2.1,
    fun i hi => (h2.2.1 i (lt_of_lt_of_le hi h1.1)).trans (h1.2.1 i hi),
    h2.2.2.trans h1.2.2⟩

theorem make_vert_grows {x y val : ℚ} {s s1 : Orderizer} {index : Int}
    (h : Orderizer.make_vert x y val s = .ok index s1) : Grows s s1 := by
  obtain ⟨hi, hc, _, hk, hh⟩ := make_vert_ok h
  exact ⟨by omega, fun i hlt => hk i (by omega), hh⟩

/-- A returning `add_edge` leaves the vertex count and the allocator oracle
alone. -/
theorem add_edge_ok {iv1 iv2 marker : Int} {s s1 : LinearizerBase}
    (h : LinearizerBase.add_edge iv1 iv2 marker s = .ok () s1) :
    s1.vertex_count = s.vertex_count ∧ s1.heap = s.heap := by
  unfold LinearizerBase.add_edge at h
  simp only [LinearizerBase.realloc] at h
  split_ifs at h <;> simp only [Result.ok.injEq, true_and] at h <;> subst h <;>
    exact ⟨rfl, rfl⟩

theorem add_edge_returns (iv1 iv2 marker : Int) (s : LinearizerBase)
    (hheap : ∀ k, s.heap k = true) :
    ∃ s1, LinearizerBase.add_edge iv1 iv2 marker s = .ok () s1 := by
  unfold LinearizerBase.add_edge
  simp only [LinearizerBase.realloc, hheap]
  split_ifs <;> exact ⟨_, rfl⟩

theorem base_ok {α : Type} {m : Run LinearizerBase α} {s s1 : Orderizer} {a : α}
    (h : Orderizer.base m s = .ok a s1) :
    ∃ b, m s.toLinearizerBase = .ok a b ∧ s1 = { s with toLinearizerBase := b } := by
  unfold Orderizer.base at h
  cases h0 : m s.toLinearizerBase with
  | ok a2 b =>
    rw [h0] at h
    simp only [Result.ok.injEq] at h
    exact ⟨b, by rw [h.1], h.2.symm⟩
  | out_of_memory s2 => rw [h0] at h; simp at h
  | invalid_input s2 => rw [h0] at h; simp at h
  | out_of_fuel => rw [h0] at h; simp at h

theorem base_add_triangle_grows {iv0 iv1 iv2 marker : Int} {s s1 : Orderizer}
    (h : Orderizer.base (LinearizerBase.add_triangle iv0 iv1 iv2 marker) s = .ok () s1) :
    Grows s s1 ∧ s1.vertex_count = s.vertex_count := by
  obtain ⟨b, hb, rfl⟩ := base_ok h
  obtain ⟨_, hv, hh, _⟩ := add_triangle_ok hb
  exact ⟨⟨le_of_eq hv.symm, fun _ _ => rfl, hh⟩, hv⟩

theorem base_add_edge_grows {iv1 iv2 marker : Int} {s s1 : Orderizer}
    (h : Orderizer.base (LinearizerBase.add_edge iv1 iv2 marker) s = .ok () s1) :
    Grows s s1 ∧ s1.vertex_count = s.vertex_count := by
  obtain ⟨b, hb, rfl⟩ := base_ok h
  obtain ⟨hv, hh⟩ := add_edge_ok hb
  exact ⟨⟨le_of_eq hv.symm, fun _ _ => rfl, hh⟩, hv⟩

/-- A sequence of steps each of which keeps the vertices keeps the vertices. -/
theorem runSeq_keeps {α : Type} (f : α → Run Orderizer Unit)
    (hf : ∀ a s s1, f a s = .ok () s1 → Grows s s1 ∧ s1.vertex_count = s.vertex_count) :
    ∀ (l : List α) (s s1 : Orderizer), runSeq f l s = .ok () s1 →
      Grows s s1 ∧ s1.vertex_count = s.vertex_count := by
  intro l
  induction l with
  | nil =>
    intro s s1 h
    simp only [runSeq, run_pure_def, Result.ok.injEq, true_and] at h
    subst h
    exact ⟨grows_refl _, rfl⟩
  | cons a rest ih =>
    intro s s1 h
    obtain ⟨_, s2, h1, h2⟩ := run_bind_ok h
    obtain ⟨g1, e1⟩ := hf a s s2 h1
    obtain ⟨g2, e2⟩ := ih s2 s1 h2
    exact ⟨grows_trans g1 g2, e2.trans e1⟩

theorem make_verts_cons (x y : Int → ℚ) (o : Int → Int) (pt : Int → Int) (shift : Int)
    (i : Int) (rest : List Int) (id : Int → Int) :
    Orderizer.make_verts x y o pt shift (i :: rest) id =
      (Orderizer.make_vert (x i) (y i) (o (pt i)) >>= fun index =>
        Orderizer.make_verts x y o pt shift rest (set_at id (i - shift) index)) := by
  rw [Orderizer.make_verts]

/-- The loop of `make_vert` calls: the vertices it creates get consecutive
indices from the old vertex count on, each carries the coordinates of its
point, and `id` receives those indices. -/
theorem make_verts_ok (x y : Int → ℚ) (o : Int → Int) (pt : Int → Int) (shift : Int) :
    ∀ (l : List Int) (id : Int → Int) (s : Orderizer) (id1 : Int → Int) (s1 : Orderizer),
      l.Nodup → Orderizer.make_verts x y o pt shift l id s = .ok id1 s1 →
      Grows s s1 ∧ s1.vertex_count = s.vertex_count + l.length ∧
      (∀ j, (∀ i ∈ l, j ≠ i - shift) → id1 j = id j) ∧
      ∀ (k : Nat) (h : k < l.length),
        id1 (l.get ⟨k, h⟩ - shift) = s.vertex_count + k ∧
        s1.verts (s.vertex_count + k) =
          (x (l.get ⟨k, h⟩), y (l.get ⟨k, h⟩), ((o (pt (l.get ⟨k, h⟩)) : Int) : ℚ)) := by
  intro l
  induction l with
  | nil =>
    intro id s id1 s1 _ h
    simp only [Orderizer.make_verts, run_pure_def, Result.ok.injEq] at h
    obtain ⟨rfl, rfl⟩ := h
    exact ⟨grows_refl _, by simp, fun _ _ => rfl, fun k h => by simp at h⟩
  | cons i rest ih =>
    intro id s id1 s1 hnd h
    rw [make_verts_cons] at h
    obtain ⟨index, s2, h1, h2⟩ := run_bind_ok h
    obtain ⟨hi, hc, hv, _, _⟩ := make_vert_ok h1
    have g1 := make_vert_grows h1
    obtain ⟨hni, hnd2⟩ := List.nodup_cons.mp hnd
    obtain ⟨g2, hc2, hkeep, hnew⟩ := ih _ s2 id1 s1 hnd2 h2
    refine ⟨grows_trans g1 g2, ?_, ?_, ?_⟩
    · rw [hc2, hc]; simp only [List.length_cons]; push_cast; ring
    · intro j hj
      rw [hkeep j (fun i2 hi2 => hj i2 (List.mem_cons_of_mem _ hi2))]
      have : j ≠ i - shift := hj i (List.mem_cons_self _ _)
      simp [set_at, this]
    · intro k hk
      cases k with
      | zero =>
        simp only [List.get_eq_getElem, List.getElem_cons_zero, Nat.cast_zero, add_zero]
        constructor
        · rw [hkeep (i - shift) (fun i2 hi2 e => hni (by
            have : i = i2 := by omega
            rw [this]; exact hi2))]
          simp [set_at, hi]
        · rw [g2.2.1 s.vertex_count (by omega), ← hi, hv]
      | succ k =>
        have hk2 : k < rest.length := by simpa using hk
        obtain ⟨a, b⟩ := hnew k hk2
        have e : s.vertex_count + ((k + 1 : Nat) : Int) = s2.vertex_count + (k : Int) := by
          rw [hc]; push_cast; ring
        rw [e]
        exact ⟨by simpa using a, by simpa using b⟩

theorem loop_range_nodup (lo hi : Int) : (loop_range lo hi).Nodup := by
  unfold loop_range
  refine List.Nodup.map ?_ (List.nodup_range _)
  intro a b h
  simp only at h
  omega

theorem loop_range_length (lo hi : Int) : (loop_range lo hi).length = (hi - lo).toNat := by
  simp [loop_range]

theorem loop_range_get (lo hi : Int) (k : Nat) (h : k < (loop_range lo hi).length) :
    (loop_range lo hi).get ⟨k, h⟩ = lo + k := by
  simp [loop_range]

/-- The loop of `make_vert` calls over `lo <= i < hi`. -/
theorem make_verts_range_ok (x y : Int → ℚ) (o : Int → Int) (pt : Int → Int) (shift lo hi : Int)
    (id : Int → Int) (s : Orderizer) (id1 : Int → Int) (s1 : Orderizer)
    (h : Orderizer.make_verts x y o pt shift (loop_range lo hi) id s = .ok id1 s1) :
    Grows s s1 ∧ s1.vertex_count = s.vertex_count + (hi - lo).toNat ∧
    ∀ i, lo ≤ i → i < hi →
      id1 (i - shift) = s.vertex_count + (i - lo) ∧
      s1.verts (s.vertex_count + (i - lo)) = (x i, y i, ((o (pt i) : Int) : ℚ)) := by
  obtain ⟨g, hc, _, hnew⟩ := make_verts_ok x y o pt shift _ id s id1 s1 (loop_range_nodup lo hi) h
  rw [loop_range_length] at hc
  refine ⟨g, hc, fun i h1 h2 => ?_⟩
  have hk : (i - lo).toNat < (loop_range lo hi).length := by
    rw [loop_range_length]; omega
  have := hnew (i - lo).toNat hk
  rw [loop_range_get] at this
  have e : lo + ((i - lo).toNat : Int) = i := by omega
  have e2 : (((i - lo).toNat : Nat) : Int) = i - lo := by omega
  rw [e, e2] at this
  exact this

theorem make_label_vert_ok {x y val : ℚ} {s s1 : Orderizer}
    (h : Orderizer.make_label_vert x y val s = .ok () s1) :
    Grows s s1 ∧ s1.vertex_count = s.vertex_count + 1 := by
  unfold Orderizer.make_label_vert at h
  obtain ⟨index, s2, h1, h2⟩ := run_bind_ok h
  simp only [Result.ok.injEq, true_and] at h2
  subst h2
  have g := make_vert_grows h1
  obtain ⟨_, hc, _, _, _⟩ := make_vert_ok h1
  exact ⟨⟨g.1, g.2.1, g.2.2⟩, hc⟩

theorem add_element_triangles_keeps {tab : OrdTables} {e : Element} {id : Int → Int}
    {s s1 : Orderizer} (h : Orderizer.add_element_triangles tab e id s = .ok () s1) :
    Grows s s1 ∧ s1.vertex_count = s.vertex_count :=
  runSeq_keeps _ (fun _ _ _ h => base_add_triangle_grows h) _ s s1 h

theorem pure_step_keeps {s s1 : Orderizer} (h : (pure () : Run Orderizer Unit) s = .ok () s1) :
    Grows s s1 ∧ s1.vertex_count = s.vertex_count := by
  simp only [run_pure_def, Result.ok.injEq, true_and] at h
  subst h
  exact ⟨grows_refl _, rfl⟩

/-- The branch for edge orders and curved elements creates one label vertex
and then one vertex per point from the second on; `id[j]` is the index of the
vertex of point `j + 1`. -/
theorem element_full_ok (env : OrdEnv) (e : Element) (o : Int → Int) (s : Orderizer)
    (id : Int → Int) (s1 : Orderizer) (h : Orderizer.element_full env e o s = .ok id s1) :
    Grows s s1 ∧ s1.vertex_count = s.vertex_count + 1 + (env.ord.np e.mode - 1).toNat ∧
    ∀ j, 0 ≤ j → j < env.ord.np e.mode - 1 →
      id j = s.vertex_count + 1 + j ∧
      s1.verts (id j) = (e.phys_x (j + 1), e.phys_y (j + 1),
        ((o (env.ord.pt e.mode (j + 1)) : Int) : ℚ)) := by
  unfold Orderizer.element_full at h
  simp only [] at h
  obtain ⟨_, s2, a1, h⟩ := run_bind_ok h
  obtain ⟨id2, s3, a2, h⟩ := run_bind_ok h
  obtain ⟨_, s4, a3, h⟩ := run_bind_ok h
  obtain ⟨_, s5, a4, h⟩ := run_bind_ok h
  simp only [run_pure_def, Result.ok.injEq] at h
  obtain ⟨rfl, rfl⟩ := h
  obtain ⟨g1, c1⟩ := make_label_vert_ok a1
  obtain ⟨g2, c2, hid⟩ := make_verts_range_ok _ _ _ _ _ _ _ _ _ _ _ a2
  obtain ⟨g3, c3⟩ := add_element_triangles_keeps a3
  obtain ⟨g4, c4⟩ := runSeq_keeps _ (fun i s s1 h => by
    split_ifs at h
    · exact base_add_edge_grows h
    · exact pure_step_keeps h) _ s4 s5 a4
  have g34 := grows_trans g3 g4
  refine ⟨grows_trans g1 (grows_trans g2 g34), ?_, ?_⟩
  · rw [c4, c3, c2, c1]
  · intro j j0 j1
    obtain ⟨e1, e2⟩ := hid (j + 1) (by omega) (by omega)
    have e3 : j + 1 - 1 = j := by omega
    rw [e3, c1] at e1 e2
    refine ⟨e1, ?_⟩
    rw [e1, g34.2.1 _ (by rw [c2, c1]; omega), e2]

/-- The branch for the other elements creates two label vertices and then one
vertex per point; `id[j]` is the index of the vertex of point `j`. -/
theorem element_simple_ok (env : OrdEnv) (e : Element) (o : Int → Int) (s : Orderizer)
    (id : Int → Int) (s1 : Orderizer) (h : Orderizer.element_simple env e o s = .ok id s1) :
    Grows s s1 ∧ s1.vertex_count = s.vertex_count + 2 + (env.simple.np e.mode).toNat ∧
    ∀ j, 0 ≤ j → j < env.simple.np e.mode →
      id j = s.vertex_count + 2 + j ∧
      s1.verts (id j) = (e.phys_x_simple j, e.phys_y_simple j,
        ((o (env.simple.pt e.mode j) : Int) : ℚ)) := by
  unfold Orderizer.element_simple at h
  obtain ⟨_, s2, a1, h⟩ := run_bind_ok h
  obtain ⟨_, s2b, a1b, h⟩ := run_bind_ok h
  obtain ⟨id2, s3, a2, h⟩ := run_bind_ok h
  obtain ⟨_, s4, a3, h⟩ := run_bind_ok h
  obtain ⟨_, s5, a4, h⟩ := run_bind_ok h
  simp only [run_pure_def, Result.ok.injEq] at h
  obtain ⟨rfl, rfl⟩ := h
  obtain ⟨g1, c1⟩ := make_label_vert_ok a1
  obtain ⟨g1b, c1b⟩ := make_label_vert_ok a1b
  obtain ⟨g2, c2, hid⟩ := make_verts_range_ok _ _ _ _ _ _ _ _ _ _ _ a2
  obtain ⟨g3, c3⟩ := add_element_triangles_keeps a3
  obtain ⟨g4, c4⟩ := runSeq_keeps _ (fun i s s1 h => base_add_edge_grows h) _ s4 s5 a4
  have g34 := grows_trans g3 g4
  refine ⟨grows_trans g1 (grows_trans g1b (grows_trans g2 g34)), ?_, ?_⟩
  · rw [c4, c3, c2, c1b, c1]
    have e0 : (env.simple.np e.mode - 0).toNat = (env.simple.np e.mode).toNat := by simp
    omega
  · intro j j0 j1
    obtain ⟨e1, e2⟩ := hid j (by omega) (by omega)
    have e3 : j - 0 = j := by omega
    have e4 : s2b.vertex_count = s.vertex_count + 2 := by rw [c1b, c1]; omega
    rw [e3, e4] at e1 e2
    refine ⟨e1, ?_⟩
    rw [e1, g34.2.1 _ (by rw [c2, c1b, c1]; omega), e2]

/-- One iteration of the loop of `process_space`: the vertices it creates are
new (indices from the old vertex count on), `id[j]` is the index of the vertex
created for its point, and that vertex carries the coordinates of the point. -/
theorem process_element_ok (env : OrdEnv) (sh : Bool) (e : Element) (o : Int → Int)
    (s : Orderizer) (r : (Int → Int) × (Int → Int)) (s1 : Orderizer)
    (h : Orderizer.process_element env sh e o s = .ok r s1) :
    Grows s s1 ∧
    s1.vertex_count = s.vertex_count + e.label_verts sh + (e.id_count env sh).toNat ∧
    ∀ j, 0 ≤ j → j < e.id_count env sh →
      r.2 j = s.vertex_count + e.label_verts sh + j ∧
      ((s1.verts (r.2 j)).1, (s1.verts (r.2 j)).2.1) = e.point sh j := by
  unfold Orderizer.process_element at h
  unfold Element.label_verts Element.id_count Element.point
  by_cases hf : (sh || e.is_curved) = true
  · simp only [hf, if_true] at h ⊢
    obtain ⟨id, s2, h1, h2⟩ := run_bind_ok h
    simp only [Result.ok.injEq] at h2
    obtain ⟨rfl, rfl⟩ := h2
    obtain ⟨g, c, hid⟩ := element_full_ok _ _ _ _ _ _ h1
    refine ⟨⟨g.1, g.2.1, g.2.2⟩, c, fun j j0 j1 => ?_⟩
    obtain ⟨e1, e2⟩ := hid j j0 j1
    exact ⟨e1, by rw [e2]⟩
  · have hf2 : (sh || e.is_curved) = false := by simpa using hf
    simp only [hf2, Bool.false_eq_true, if_false] at h ⊢
    obtain ⟨id, s2, h1, h2⟩ := run_bind_ok h
    simp only [Result.ok.injEq] at h2
    obtain ⟨rfl, rfl⟩ := h2
    obtain ⟨g, c, hid⟩ := element_simple_ok _ _ _ _ _ _ h1
    refine ⟨⟨g.1, g.2.1, g.2.2⟩, c, fun j j0 j1 => ?_⟩
    obtain ⟨e1, e2⟩ := hid j j0 j1
    exact ⟨e1, by rw [e2]⟩

theorem process_elements_cons (env : OrdEnv) (sh : Bool) (e : Element) (rest : List Element)
    (o : Int → Int) :
    Orderizer.process_elements env sh (e :: rest) o =
      (Orderizer.process_element env sh e o >>= fun r =>
        Orderizer.process_elements env sh rest r.1 >>= fun ids => pure (r.2 :: ids)) := by
  rw [Orderizer.process_elements]

/-- The loop over the active elements: every entry of every `id` array is the
index of a vertex created in this loop, and that vertex carries the coordinates
of its point when the loop is done. -/
theorem process_elements_ok (env : OrdEnv) (sh : Bool) :
    ∀ (es : List Element) (o : Int → Int) (s : Orderizer) (ids : List (Int → Int))
      (s1 : Orderizer), Orderizer.process_elements env sh es o s = .ok ids s1 →
      Grows s s1 ∧ ids.length = es.length ∧
      ∀ (k : Nat) (idk : Int → Int) (ek : Element), ids[k]? = some idk → es[k]? = some ek →
        ∀ j, 0 ≤ j → j < ek.id_count env sh →
          s.vertex_count ≤ idk j ∧ idk j < s1.vertex_count ∧
          ((s1.verts (idk j)).1, (s1.verts (idk j)).2.1) = ek.point sh j := by
  intro es
  induction es with
  | nil =>
    intro o s ids s1 h
    simp only [Orderizer.process_elements, run_pure_def, Result.ok.injEq] at h
    obtain ⟨rfl, rfl⟩ := h
    exact ⟨grows_refl _, rfl, fun k idk ek hk => by simp at hk⟩
  | cons e rest ih =>
    intro o s ids s1 h
    rw [process_elements_cons] at h
    obtain ⟨r, s2, h1, h⟩ := run_bind_ok h
    obtain ⟨ids2, s3, h2, h⟩ := run_bind_ok h
    simp only [run_pure_def, Result.ok.injEq] at h
    obtain ⟨rfl, rfl⟩ := h
    obtain ⟨g1, c1, hid⟩ := process_element_ok env sh e o s r s2 h1
    obtain ⟨g2, l2, hrest⟩ := ih r.1 s2 ids2 s3 h2
    refine ⟨grows_trans g1 g2, by simp [l2], ?_⟩
    intro k idk ek hk1 hk2 j j0 j1
    have hlab : 0 < e.label_verts sh := by unfold Element.label_verts; split_ifs <;> omega
    cases k with
    | zero =>
      simp only [List.getElem?_cons_zero, Option.some.injEq] at hk1 hk2
      subst hk1 hk2
      obtain ⟨e1, e2⟩ := hid j j0 j1
      have hlt : r.2 j < s2.vertex_count := by rw [e1, c1]; omega
      refine ⟨by rw [e1]; omega, lt_of_lt_of_le hlt g2.1, ?_⟩
      rw [g2.2.1 _ hlt]
      exact e2
    | succ k =>
      simp only [List.getElem?_cons_succ] at hk1 hk2
      obtain ⟨a, b, c⟩ := hrest k idk ek hk1 hk2 j j0 j1
      exact ⟨le_trans g1.1 a, b, c⟩

/-- Two different iterations of the loop never put the same vertex index into
their `id` arrays. -/
theorem process_elements_distinct (env : OrdEnv) (sh : Bool) :
    ∀ (es : List Element) (o : Int → Int) (s : Orderizer) (ids : List (Int → Int))
      (s1 : Orderizer), Orderizer.process_elements env sh es o s = .ok ids s1 →
      ∀ (a b : Nat) (ida idb : Int → Int) (ea eb : Element), a < b →
        ids[a]? = some ida → ids[b]? = some idb → es[a]? = some ea → es[b]? = some eb →
        ∀ i j, 0 ≤ i → i < ea.id_count env sh → 0 ≤ j → j < eb.id_count env sh →
          ida i ≠ idb j := by
  intro es
  induction es with
  | nil =>
    intro o s ids s1 _ a b ida idb ea eb _ _ _ hea
    simp at hea
  | cons e rest ih =>
    intro o s ids s1 h a b ida idb ea eb hab ha hb hea heb i j i0 i1 j0 j1
    rw [process_elements_cons] at h
    obtain ⟨r, s2, h1, h⟩ := run_bind_ok h
    obtain ⟨ids2, s3, h2, h⟩ := run_bind_ok h
    simp only [run_pure_def, Result.ok.injEq] at h
    obtain ⟨rfl, rfl⟩ := h
    obtain ⟨b2, rfl⟩ : ∃ b2, b = b2 + 1 := ⟨b - 1, by omega⟩
    simp only [List.getElem?_cons_succ] at hb heb
    cases a with
    | zero =>
      simp only [List.getElem?_cons_zero, Option.some.injEq] at ha hea
      subst ha hea
      obtain ⟨_, c1, hid⟩ := process_element_ok env sh e o s r s2 h1
      obtain ⟨e1, _⟩ := hid i i0 i1
      obtain ⟨_, _, hrest⟩ := process_elements_ok env sh rest r.1 s2 ids2 s3 h2
      obtain ⟨lo, _, _⟩ := hrest b2 idb eb hb heb j j0 j1
      have hlt : r.2 i < s2.vertex_count := by rw [e1, c1]; omega
      omega
    | succ a2 =>
      simp only [List.getElem?_cons_succ] at ha hea
      exact ih r.1 s2 ids2 s3 h2 a2 b2 ida idb ea eb (by omega) ha hb hea heb i j i0 i1 j0 j1

theorem process_space_ok {env : OrdEnv} {space : Space} {sh : Bool} {s s1 : Orderizer}
    {ids : List (Int → Int)}
    (h : Orderizer.process_space env (some space) sh s = .ok ids s1) :
    ∃ s0, Orderizer.reallocate_common space.mesh.num_elements s = .ok () s0 ∧
      Orderizer.process_elements env sh space.mesh.active env.garbage s0 = .ok ids s1 := by
  unfold Orderizer.process_space at h
  simp only at h
  split_ifs at h
  obtain ⟨_, s0, h1, h2⟩ := run_bind_ok h
  exact ⟨s0, h1, h2⟩

/-! ### With an allocator that never fails, `process_space` returns -/

theorem run_bind_returns {σ α β : Type} {m : Run σ α} {k : α → Run σ β} {s s2 : σ} {a : α}
    (h : m s = .ok a s2) : (m >>= k) s = k a s2 := by
  simp only [run_bind_def, Run.bind, h]

theorem base_returns {α : Type} {m : Run LinearizerBase α} {s : Orderizer} {a : α}
    {b : LinearizerBase} (h : m s.toLinearizerBase = .ok a b) :
    Orderizer.base m s = .ok a { s with toLinearizerBase := b } := by
  unfold Orderizer.base
  rw [h]

theorem runSeq_returns {α : Type} (f : α → Run Orderizer Unit)
    (hf : ∀ a s, (∀ k, s.heap k = true) → ∃ s1, f a s = .ok () s1) 
    (hk : ∀ a s s1, f a s = .ok () s1 → s1.heap = s.heap) :
    ∀ (l : List α) (s : Orderizer), (∀ k, s.heap k = true) → ∃ s1, runSeq f l s = .ok () s1 := by
  intro l
  induction l with
  | nil => intro s _; exact ⟨s, rfl⟩
  | cons a rest ih =>
    intro s hs
    obtain ⟨s2, h2⟩ := hf a s hs
    obtain ⟨s1, h1⟩ := ih s2 (by rw [hk a s s2 h2]; exact hs)
    refine ⟨s1, ?_⟩
    rw [runSeq, run_bind_returns h2]
    exact h1

theorem make_label_vert_returns (x y val : ℚ) (s : Orderizer) (hs : ∀ k, s.heap k = true) :
    ∃ s1, Orderizer.make_label_vert x y val s = .ok () s1 := by
  obtain ⟨i, s2, h⟩ := make_vert_returns x y val s hs
  unfold Orderizer.make_label_vert
  rw [run_bind_returns h]
  exact ⟨_, rfl⟩

theorem make_verts_returns (x y : Int → ℚ) (o : Int → Int) (pt : Int → Int) (shift : Int) :
    ∀ (l : List Int) (id : Int → Int) (s : Orderizer), (∀ k, s.heap k = true) →
      ∃ id1 s1, Orderizer.make_verts x y o pt shift l id s = .ok id1 s1 := by
  intro l
  induction l with
  | nil => intro id s _; exact ⟨id, s, rfl⟩
  | cons i rest ih =>
    intro id s hs
    obtain ⟨index, s2, h⟩ := make_vert_returns (x i) (y i) (o (pt i)) s hs
    have hh := (make_vert_grows h).2.2
    obtain ⟨id1, s1, h1⟩ := ih (set_at id (i - shift) index) s2 (by rw [hh]; exact hs)
    refine ⟨id1, s1, ?_⟩
    rw [make_verts_cons, run_bind_returns h]
    exact h1

theorem base_add_triangle_returns (iv0 iv1 iv2 marker : Int) (s : Orderizer)
    (hs : ∀ k, s.heap k = true) :
    ∃ s1, Orderizer.base (LinearizerBase.add_triangle iv0 iv1 iv2 marker) s = .ok () s1 := by
  obtain ⟨b, hb⟩ := add_triangle_returns iv0 iv1 iv2 marker s.toLinearizerBase hs
  exact ⟨_, base_returns hb⟩

theorem base_add_edge_returns (iv1 iv2 marker : Int) (s : Orderizer)
    (hs : ∀ k, s.heap k = true) :
    ∃ s1, Orderizer.base (LinearizerBase.add_edge iv1 iv2 marker) s = .ok () s1 := by
  obtain ⟨b, hb⟩ := add_edge_returns iv1 iv2 marker s.toLinearizerBase hs
  exact ⟨_, base_returns hb⟩

theorem add_element_triangles_returns (tab : OrdTables) (e : Element) (id : Int → Int)
    (s : Orderizer) (hs : ∀ k, s.heap k = true) :
    ∃ s1, Orderizer.add_element_triangles tab e id s = .ok () s1 :=
  runSeq_returns _ (fun _ s hs => base_add_triangle_returns _ _ _ _ s hs)
    (fun _ _ _ h => (base_add_triangle_grows h).1.2.2) _ s hs

theorem element_simple_returns (env : OrdEnv) (e : Element) (o : Int → Int) (s : Orderizer)
    (hs : ∀ k, s.heap k = true) : ∃ id s1, Orderizer.element_simple env e o s = .ok id s1 := by
  unfold Orderizer.element_simple
  obtain ⟨s2, a1⟩ := make_label_vert_returns (e.phys_x_simple 0) (e.phys_y_simple 0) (o 4) s hs
  have hs2 : ∀ k, s2.heap k = true := by rw [(make_label_vert_ok a1).1.2.2]; exact hs
  obtain ⟨s3, a2⟩ := make_label_vert_returns (e.phys_x_simple 0) (e.phys_y_simple 0) (o 5) s2 hs2
  have hs3 : ∀ k, s3.heap k = true := by rw [(make_label_vert_ok a2).1.2.2]; exact hs2
  obtain ⟨id, s4, a3⟩ := make_verts_returns e.phys_x_simple e.phys_y_simple o
    (env.simple.pt e.mode) 0 (loop_range 0 (env.simple.np e.mode)) env.garbage s3 hs3
  have hs4 : ∀ k, s4.heap k = true := by
    rw [(make_verts_range_ok _ _ _ _ _ _ _ _ _ _ _ a3).1.2.2]; exact hs3
  obtain ⟨s5, a4⟩ := add_element_triangles_returns env.simple e id s4 hs4
  have hs5 : ∀ k, s5.heap k = true := by
    rw [(add_element_triangles_keeps a4).1.2.2]; exact hs4
  obtain ⟨s6, a5⟩ := runSeq_returns
    (fun i => Orderizer.base (LinearizerBase.add_edge
      (id (env.simple.ord_edge e.mode i).1) (id (env.simple.ord_edge e.mode i).2.1)
      (e.en_marker (env.simple.ord_edge e.mode i).2.2)))
    (fun _ s hs => base_add_edge_returns _ _ _ s hs)
    (fun _ _ _ h => (base_add_edge_grows h).1.2.2)
    (loop_range 0 (env.simple.num_edge e.mode)) s5 hs5
  refine ⟨id, s6, ?_⟩
  rw [run_bind_returns a1, run_bind_returns a2, run_bind_returns a3, run_bind_returns a4,
    run_bind_returns a5]
  rfl

theorem element_full_returns (env : OrdEnv) (e : Element) (o : Int → Int) (s : Orderizer)
    (hs : ∀ k, s.heap k = true) : ∃ id s1, Orderizer.element_full env e o s = .ok id s1 := by
  unfold Orderizer.element_full
  obtain ⟨s2, a1⟩ := make_label_vert_returns (e.phys_x 0) (e.phys_y 0) (o 4) s hs
  have hs2 : ∀ k, s2.heap k = true := by rw [(make_label_vert_ok a1).1.2.2]; exact hs
  obtain ⟨id, s4, a3⟩ := make_verts_returns e.phys_x e.phys_y o
    (env.ord.pt e.mode) 1 (loop_range 1 (env.ord.np e.mode)) env.garbage s2 hs2
  have hs4 : ∀ k, s4.heap k = true := by
    rw [(make_verts_range_ok _ _ _ _ _ _ _ _ _ _ _ a3).1.2.2]; exact hs2
  obtain ⟨s5, a4⟩ := add_element_triangles_returns env.ord e id s4 hs4
  have hs5 : ∀ k, s5.heap k = true := by
    rw [(add_element_triangles_keeps a4).1.2.2]; exact hs4
  obtain ⟨s6, a5⟩ := runSeq_returns
    (fun i =>
      if e.en_bnd (env.ord.ord_edge e.mode i).2.2 ||
          decide (e.phys_y ((env.ord.ord_edge e.mode i).1 + 1) <
            e.phys_y ((env.ord.ord_edge e.mode i).2.1 + 1)) ||
          (decide (e.phys_y ((env.ord.ord_edge e.mode i).1 + 1) =
            e.phys_y ((env.ord.ord_edge e.mode i).2.1 + 1)) &&
          decide (e.phys_x ((env.ord.ord_edge e.mode i).1 + 1) <
            e.phys_x ((env.ord.ord_edge e.mode i).2.1 + 1))) then
        Orderizer.base (LinearizerBase.add_edge (id (env.ord.ord_edge e.mode i).1)
          (id (env.ord.ord_edge e.mode i).2.1) (e.en_marker (env.ord.ord_edge e.mode i).2.2))
      else pure ())
    (fun _ s hs => by
      beta_reduce
      split_ifs
      · exact base_add_edge_returns _ _ _ s hs
      · exact ⟨s, rfl⟩)
    (fun _ _ _ h => by
      beta_reduce at h
      split_ifs at h
      · exact (base_add_edge_grows h).1.2.2
      · exact (pure_step_keeps h).1.2.2)
    (loop_range 0 (env.ord.num_edge e.mode)) s5 hs5
  refine ⟨id, s6, ?_⟩
  simp only []
  rw [run_bind_returns a1, run_bind_returns a3, run_bind_returns a4, run_bind_returns a5]
  rfl

theorem process_element_returns (env : OrdEnv) (sh : Bool) (e : Element) (o : Int → Int)
    (s : Orderizer) (hs : ∀ k, s.heap k = true) :
    ∃ r s1, Orderizer.process_element env sh e o s = .ok r s1 := by
  unfold Orderizer.process_element
  by_cases hf : (sh || e.is_curved) = true
  · obtain ⟨id, s2, h⟩ := element_full_returns env e (element_orders env sh e o) s hs
    simp only [hf, if_true]
    rw [run_bind_returns h]
    exact ⟨_, _, rfl⟩
  · have hf2 : (sh || e.is_curved) = false := by simpa using hf
    obtain ⟨id, s2, h⟩ := element_simple_returns env e (element_orders env sh e o) s hs
    simp only [hf2, Bool.false_eq_true, if_false]
    rw [run_bind_returns h]
    exact ⟨_, _, rfl⟩

theorem process_elements_returns (env : OrdEnv) (sh : Bool) :
    ∀ (es : List Element) (o : Int → Int) (s : Orderizer), (∀ k, s.heap k = true) →
      ∃ ids s1, Orderizer.process_elements env sh es o s = .ok ids s1 := by
  intro es
  induction es with
  | nil => intro o s _; exact ⟨[], s, rfl⟩
  | cons e rest ih =>
    intro o s hs
    obtain ⟨r, s2, h⟩ := process_element_returns env sh e o s hs
    have hh := (process_element_ok env sh e o s r s2 h).1.2.2
    obtain ⟨ids, s1, h1⟩ := ih r.1 s2 (by rw [hh]; exact hs)
    refine ⟨r.2 :: ids, s1, ?_⟩
    rw [process_elements_cons, run_bind_returns h, run_bind_returns h1]
    rfl

/-- With an allocator that never fails, `reallocate_common` returns with all
counts reset. -/
theorem reallocate_common_returns (n : Int) (s : Orderizer) (hs : ∀ k, s.heap k = true) :
    ∃ s1, Orderizer.reallocate_common n s = .ok () s1 ∧ s1.vertex_count = 0 ∧
      s1.heap = s.heap := by
  have hb : ∃ b, LinearizerBase.reallocate_common n s.toLinearizerBase = .ok () b ∧
      b.vertex_count = 0 ∧ b.heap = s.heap := by
    unfold LinearizerBase.reallocate_common
    simp only [LinearizerBase.realloc, hs, if_true]
    exact ⟨_, rfl, rfl, rfl⟩
  obtain ⟨b, hb, hv, hh⟩ := hb
  unfold Orderizer.reallocate_common
  rw [run_bind_returns (base_returns hb)]
  unfold Orderizer.reallocate_specific
  have hs2 : ∀ k, b.heap k = true := by rw [hh]; exact hs
  simp only [Orderizer.realloc, hs2, Bool.not_true, Bool.or_self, Bool.false_eq_true, if_false]
  exact ⟨_, rfl, hv, hh⟩

theorem process_space_returns (env : OrdEnv) (space : Space) (sh : Bool) (s : Orderizer)
    (hs : ∀ k, s.heap k = true) (hup : space.is_up_to_date = true) :
    ∃ ids s1, Orderizer.process_space env (some space) sh s = .ok ids s1 := by
  obtain ⟨s0, h0, _, hh⟩ := reallocate_common_returns space.mesh.num_elements s hs
  obtain ⟨ids, s1, h1⟩ := process_elements_returns env sh space.mesh.active env.garbage s0
    (by rw [hh]; exact hs)
  refine ⟨ids, s1, ?_⟩
  unfold Orderizer.process_space
  simp only [hup, Bool.not_true, Bool.false_eq_true, if_false]
  rw [run_bind_returns h0]
  exact h1

/-- C10 (amended): `process_space` creates every vertex with `make_vert`, which
never consults the deduplicator, so two different active elements processed in
one pass never get the same vertex index in their `id` arrays, whether or not
their points coincide: the endpoints of a shared edge have one vertex index
per element. -/
theorem process_space_fresh_vertices (env : OrdEnv) (space : Space) (sh : Bool)
    (s s1 : Orderizer) (ids : List (Int → Int))
    (h : Orderizer.process_space env (some space) sh s = .ok ids s1) :
    ∀ (a b : Nat) (ida idb : Int → Int) (ea eb : Element), a < b →
      ids[a]? = some ida → ids[b]? = some idb →
      space.mesh.active[a]? = some ea → space.mesh.active[b]? = some eb →
      ∀ i j, 0 ≤ i → i < ea.id_count env sh → 0 ≤ j → j < eb.id_count env sh →
        ida i ≠ idb j := by
  obtain ⟨s0, _, h2⟩ := process_space_ok h
  exact process_elements_distinct env sh _ _ s0 ids s1 h2

theorem unit_square_run :
    ∃ id1 id2 s1,
      Orderizer.process_space corner_env (some unit_square) false
        (Orderizer.new true fun _ => true) = .ok [id1, id2] s1 := by
  obtain ⟨ids, s1, h⟩ := process_space_returns corner_env unit_square false
    (Orderizer.new true fun _ => true) (fun _ => rfl) rfl
  obtain ⟨s0, _, h2⟩ := process_space_ok h
  obtain ⟨_, hl, _⟩ := process_elements_ok corner_env false _ _ s0 ids s1 h2
  have hl2 : ids.length = 2 := hl
  match ids, hl2 with
  | [id1, id2], _ => exact ⟨id1, id2, s1, h⟩

/-- C10, witness: the unit square cut into two triangles; the entries 1 of the
first `id` array and 0 of the second belong to the shared corner (1,0). -/
theorem process_space_fresh_vertices_witness :
    ∃ id1 id2 s1,
      Orderizer.process_space corner_env (some unit_square) false
        (Orderizer.new true fun _ => true) = .ok [id1, id2] s1 ∧
      ∀ (a b : Nat) (ida idb : Int → Int) (ea eb : Element), a < b →
        [id1, id2][a]? = some ida → [id1, id2][b]? = some idb →
        unit_square.mesh.active[a]? = some ea → unit_square.mesh.active[b]? = some eb →
        ∀ i j, 0 ≤ i → i < ea.id_count corner_env false → 0 ≤ j →
          j < eb.id_count corner_env false → ida i ≠ idb j :=
  unit_square_run.elim fun id1 h => h.elim fun id2 h => h.elim fun s1 h =>
    ⟨id1, id2, s1, h, process_space_fresh_vertices corner_env unit_square false _ s1 _ h⟩

theorem unit_square_indices (id1 id2 : Int → Int) (s1 : Orderizer)
    (h : Orderizer.process_space corner_env (some unit_square) false
      (Orderizer.new true fun _ => true) = .ok [id1, id2] s1) :
    id1 1 = 3 ∧ id2 0 = 7 := by
  obtain ⟨s0, h0, h2⟩ := process_space_ok h
  obtain ⟨s0b, h0b, hv, _⟩ := reallocate_common_returns unit_square.mesh.num_elements
    (Orderizer.new true fun _ => true) (fun _ => rfl)
  have e0 : s0 = s0b := by
    rw [h0] at h0b
    simp only [Result.ok.injEq, true_and] at h0b
    exact h0b
  subst e0
  have h3 : Orderizer.process_elements corner_env false [lower_triangle, upper_triangle]
      corner_env.garbage s0 = .ok [id1, id2] s1 := h2
  rw [process_elements_cons] at h3
  obtain ⟨r1, s2, a1, h3⟩ := run_bind_ok h3
  obtain ⟨ids2, s3, a2, h3⟩ := run_bind_ok h3
  simp only [run_pure_def, Result.ok.injEq, List.cons.injEq] at h3
  obtain ⟨⟨e1, rfl⟩, rfl⟩ := h3
  rw [process_elements_cons] at a2
  obtain ⟨r2, s4, a3, a2⟩ := run_bind_ok a2
  obtain ⟨ids3, s5, _, a2⟩ := run_bind_ok a2
  simp only [run_pure_def, Result.ok.injEq, List.cons.injEq] at a2
  obtain ⟨⟨e2, _⟩, _⟩ := a2
  obtain ⟨_, c1, i1⟩ := process_element_ok _ _ _ _ _ _ _ a1
  obtain ⟨_, _, i2⟩ := process_element_ok _ _ _ _ _ _ _ a3
  have l1 : lower_triangle.label_verts false = 2 := by decide
  have l2 : upper_triangle.label_verts false = 2 := by decide
  have n1 : lower_triangle.id_count corner_env false = 3 := by decide
  have n2 : upper_triangle.id_count corner_env false = 3 := by decide
  have k1 := (i1 1 (by decide) (by rw [n1]; decide)).1
  have k2 := (i2 0 (by decide) (by rw [n2]; decide)).1
  rw [l1, n1, hv] at c1
  rw [l1, hv, e1] at k1
  rw [l2, c1, e2] at k2
  exact ⟨by rw [k1]; decide, by rw [k2]; decide⟩

/-- C10, counterexample: processing the two triangles of the unit square in one
pass gives their shared corner (1,0) two different vertex indices, 3 (entry 1
of the `id` array of the first triangle) and 7 (entry 0 of that of the second),
and both vertices carry the coordinates (1,0). -/
theorem process_space_shared_vertices_counterexample :
    lower_triangle.point false 1 = upper_triangle.point false 0 ∧
    ∃ id1 id2 s1,
      Orderizer.process_space corner_env (some unit_square) false
        (Orderizer.new true fun _ => true) = .ok [id1, id2] s1 ∧
      id1 1 = 3 ∧ id2 0 = 7 ∧ id1 1 ≠ id2 0 ∧
      ((s1.verts 3).1, (s1.verts 3).2.1) = (1, 0) ∧
      ((s1.verts 7).1, (s1.verts 7).2.1) = (1, 0) := by
  refine ⟨by decide, ?_⟩
  obtain ⟨id1, id2, s1, h⟩ := unit_square_run
  obtain ⟨k1, k2⟩ := unit_square_indices id1 id2 s1 h
  obtain ⟨s0, _, h2⟩ := process_space_ok h
  obtain ⟨_, _, hv⟩ := process_elements_ok corner_env false _ _ s0 _ s1 h2
  obtain ⟨_, _, v1⟩ := hv 0 id1 lower_triangle rfl rfl 1 (by decide) (by decide)
  obtain ⟨_, _, v2⟩ := hv 1 id2 upper_triangle rfl rfl 0 (by decide) (by decide)
  rw [k1] at v1
  rw [k2] at v2
  refine ⟨id1, id2, s1, h, k1, k2, by rw [k1, k2]; decide, ?_, ?_⟩
  · rw [v1]; decide
  · rw [v2]; decide

/-! ### `hash` on a table whose size is a power of two -/

theorem wrap32_id (x : Int) (h0 : -2147483648 ≤ x) (h1 : x < 2147483648) : wrap32 x = x := by
  unfold wrap32
  omega

theorem pow_two_dvd_word (k : Nat) (hk : k ≤ 32) : (2 : Int) ^ k ∣ 4294967296 := by
  have h : (4294967296 : Int) = 2 ^ 32 := by norm_num
  rw [h]
  exact pow_dvd_pow 2 hk

theorem wrap32_emod (x : Int) (k : Nat) (hk : k ≤ 32) : wrap32 x % 2 ^ k = x % 2 ^ k := by
  have h : wrap32 x % 4294967296 = x % 4294967296 := by
    unfold wrap32
    omega
  rw [← Int.emod_emod_of_dvd (wrap32 x) (pow_two_dvd_word k hk), h,
    Int.emod_emod_of_dvd x (pow_two_dvd_word k hk)]

theorem pow_two_le_word (k : Nat) (hk : k ≤ 31) : (2 : Int) ^ k ≤ 2147483648 := by
  have h : (2147483648 : Int) = 2 ^ 31 := by norm_num
  rw [h]
  exact pow_le_pow_right₀ (by norm_num) hk

theorem and32_mask (x : Int) (k : Nat) (hk : k ≤ 31) :
    and32 x (2 ^ k - 1) = x % 2 ^ k := by
  have hle := pow_two_le_word k hk
  have hpos : (0 : Int) < 2 ^ k := by positivity
  have hb : ((2 : Int) ^ k - 1) % 4294967296 = 2 ^ k - 1 := by
    apply Int.emod_eq_of_lt <;> omega
  have hbn : (((2 : Int) ^ k - 1)).toNat = 2 ^ k - 1 := by
    have : ((2 : Int) ^ k - 1) = ((2 ^ k - 1 : Nat) : Int) := by
      have h1 : 1 ≤ 2 ^ k := Nat.one_le_two_pow
      push_cast [Nat.cast_sub h1]
      rfl
    rw [this, Int.toNat_natCast]
  have ha : (0 : Int) ≤ x % 4294967296 := Int.emod_nonneg _ (by norm_num)
  unfold and32
  rw [hb, hbn]
  have hl : Nat.land (x % 4294967296).toNat (2 ^ k - 1) = (x % 4294967296).toNat % 2 ^ k :=
    Nat.and_pow_two_sub_one_eq_mod _ _
  rw [hl]
  have hc : Int.ofNat ((x % 4294967296).toNat % 2 ^ k) = x % 2 ^ k := by
    have : Int.ofNat ((x % 4294967296).toNat % 2 ^ k)
        = ((x % 4294967296).toNat : Int) % ((2 ^ k : Nat) : Int) := by
      simp
    rw [this, Int.toNat_of_nonneg ha]
    push_cast
    exact Int.emod_emod_of_dvd x (pow_two_dvd_word k (by omega))
  rw [hc]
  have h0 : 0 ≤ x % 2 ^ k := Int.emod_nonneg _ (by positivity)
  have h1 : x % 2 ^ k < 2 ^ k := Int.emod_lt_of_pos _ hpos
  exact wrap32_id _ (by omega) (by omega)

theorem pow_two_exponent (k : Nat) (h : (2 : Int) ^ k ≤ 2147483647) : k ≤ 30 := by
  by_contra hc
  have h31 : 31 ≤ k := by omega
  have : (2 : Int) ^ 31 ≤ 2 ^ k := pow_le_pow_right₀ (by norm_num) h31
  norm_num at this
  omega

/-- C11: on a table whose size `vertex_size` is a power of two (in the range of
`int`), `hash(p1, p2)` is the non-negative residue modulo `vertex_size` of the
32-bit wrapped sum `984120265 * p1 + 125965121 * p2`, which is also the
residue of the exact sum. -/
theorem hash_power_of_two (s : LinearizerBase) (p1 p2 : Int) (k : Nat)
    (hk : s.vertex_size = 2 ^ k) (hr : s.vertex_size ≤ 2147483647) :
    s.hash p1 p2 = wrap32 (984120265 * p1 + 125965121 * p2) % s.vertex_size ∧
    s.hash p1 p2 = (984120265 * p1 + 125965121 * p2) % s.vertex_size ∧
    0 ≤ s.hash p1 p2 ∧ s.hash p1 p2 < s.vertex_size := by
  have hk30 : k ≤ 30 := pow_two_exponent k (hk ▸ hr)
  have hpos : (0 : Int) < 2 ^ k := by positivity
  have h : s.hash p1 p2 = wrap32 (984120265 * p1 + 125965121 * p2) % 2 ^ k := by
    unfold LinearizerBase.hash
    rw [hk]
    exact and32_mask _ k (by omega)
  rw [hk]
  refine ⟨h, ?_, ?_, ?_⟩
  · rw [h]
    exact wrap32_emod _ k (by omega)
  · rw [h]
    exact Int.emod_nonneg _ (by positivity)
  · rw [h]
    exact Int.emod_lt_of_pos _ hpos

/-- C11, instance: in the table of 8 buckets of `nested_edge`, for the pair
3, 7, whose sum of products exceeds the range of `int`. -/
theorem hash_power_of_two_witness :
    nested_edge.vertex_size = 2 ^ 3 ∧ nested_edge.vertex_size ≤ 2147483647 ∧
    (nested_edge.hash 3 7 =
        wrap32 (984120265 * 3 + 125965121 * 7) % nested_edge.vertex_size ∧
      nested_edge.hash 3 7 = (984120265 * 3 + 125965121 * 7) % nested_edge.vertex_size ∧
      0 ≤ nested_edge.hash 3 7 ∧ nested_edge.hash 3 7 < nested_edge.vertex_size) :=
  ⟨by decide, by decide, hash_power_of_two nested_edge 3 7 3 (by decide) (by decide)⟩

/-! ### The size of the hash table -/

theorem grow_floor (n : Int) (h : 0 ≤ n) : grow n = 3 * n / 2 := by
  unfold grow
  exact Int.tdiv_eq_ediv (by omega) (by omega)

theorem not_powerOfTwo_10000 : ¬ PowerOfTwo 10000 := by
  rintro ⟨k, hk⟩
  by_cases h : k ≤ 13
  · interval_cases k <;> norm_num at hk
  · have h14 : 14 ≤ k := by omega
    have : (2 : Int) ^ 14 ≤ 2 ^ k := pow_le_pow_right₀ (by norm_num) h14
    norm_num at this
    omega

/-- What a call of `LinearizerBase::reallocate_common` does to `vertex_size`,
however it ends. -/
theorem reallocate_common_vertex_size (n : Int) (s : LinearizerBase) :
    (∀ s1, LinearizerBase.reallocate_common n s = .ok () s1 →
      s1.vertex_size = Max.max (wrap32 (6 * n)) (Max.max s.vertex_size 10000)) ∧
    (∀ s1, LinearizerBase.reallocate_common n s = .out_of_memory s1 →
      s1.vertex_size = Max.max (wrap32 (6 * n)) (Max.max s.vertex_size 10000)) := by
  unfold LinearizerBase.reallocate_common
  simp only [LinearizerBase.realloc]
  constructor <;> intro s1 h <;> split_ifs at h <;>
    first
    | (simp only [Result.ok.injEq, true_and] at h; subst h; rfl)
    | (simp only [Result.out_of_memory.injEq] at h; subst h
       first
       | rfl
       | (simp only [LinearizerBase.free, LinearizerBase.deinit_linearizer_base,
            LinearizerBase.unlock_data]
          split_ifs <;> rfl))

theorem free_sizes (s : LinearizerBase) :
    s.free.vertex_size = s.vertex_size ∧ s.free.triangle_size = s.triangle_size ∧
    s.free.edges_size = s.edges_size := by
  unfold LinearizerBase.free
  simp only
  split_ifs <;> exact ⟨rfl, rfl, rfl⟩

theorem orderizer_free_sizes (s : Orderizer) :
    (Orderizer.free s).vertex_size = s.vertex_size ∧
    (Orderizer.free s).triangle_size = s.triangle_size ∧
    (Orderizer.free s).edges_size = s.edges_size := by
  unfold Orderizer.free
  simp only
  split_ifs <;> exact free_sizes _

/-- The two ways `Orderizer::reallocate_specific` ends: it returns, or it
throws after `Orderizer::free`; the members of the base class are untouched up
to there, four allocation requests apart. -/
theorem reallocate_specific_cases (n : Int) (s : Orderizer) :
    (∃ s1, Orderizer.reallocate_specific n s = .ok () s1 ∧
      s1.toLinearizerBase = { s.toLinearizerBase with heap_calls := s.heap_calls + 4 }) ∨
    (∃ s0 : Orderizer, Orderizer.reallocate_specific n s = .out_of_memory (Orderizer.free s0) ∧
      s0.toLinearizerBase = { s.toLinearizerBase with heap_calls := s.heap_calls + 4 }) := by
  unfold Orderizer.reallocate_specific
  dsimp only [Orderizer.realloc]
  split_ifs
  · exact Or.inr ⟨_, rfl, rfl⟩
  · exact Or.inl ⟨_, rfl, rfl⟩

/-- What `Orderizer::reallocate_specific` leaves alone, however it ends. -/
theorem reallocate_specific_sizes (n : Int) (s s1 : Orderizer)
    (h : Orderizer.reallocate_specific n s = .ok () s1 ∨
      Orderizer.reallocate_specific n s = .out_of_memory s1) :
    s1.vertex_size = s.vertex_size ∧ s1.triangle_size = s.triangle_size ∧
    s1.edges_size = s.edges_size := by
  rcases reallocate_specific_cases n s with ⟨s2, h2, hb⟩ | ⟨s0, h2, hb⟩
  · rw [h2] at h
    rcases h with h | h
    · simp only [Result.ok.injEq, true_and] at h
      subst h
      rw [hb]
      exact ⟨rfl, rfl, rfl⟩
    · cases h
  · rw [h2] at h
    rcases h with h | h
    · cases h
    · simp only [Result.out_of_memory.injEq] at h
      subst h
      have := orderizer_free_sizes s0
      rw [hb] at this
      exact this

/-- What the whole call `reallocate_common(mesh)` on an `Orderizer` does to
`vertex_size`, however it ends. -/
theorem orderizer_reallocate_common_vertex_size (n : Int) (s s1 : Orderizer)
    (h : Orderizer.reallocate_common n s = .ok () s1 ∨
      Orderizer.reallocate_common n s = .out_of_memory s1) :
    s1.vertex_size = Max.max (wrap32 (6 * n)) (Max.max s.vertex_size 10000) := by
  have hb := reallocate_common_vertex_size n s.toLinearizerBase
  unfold Orderizer.reallocate_common at h
  simp only [run_bind_def, Run.bind, Orderizer.base] at h
  cases h0 : LinearizerBase.reallocate_common n s.toLinearizerBase with
  | ok a b =>
    rw [h0] at h
    simp only at h
    rw [(reallocate_specific_sizes n _ s1 h).1]
    exact hb.1 b h0
  | out_of_memory b =>
    rw [h0] at h
    rcases h with h | h
    · cases h
    · simp only [Result.out_of_memory.injEq] at h
      subst h
      exact hb.2 b h0
  | invalid_input b => rw [h0] at h; rcases h with h | h <;> cases h
  | out_of_fuel => rw [h0] at h; rcases h with h | h <;> cases h

/-- The index that `&` yields has its one bits among those of the mask. -/
theorem and32_submask (x m : Int) (h0 : 0 ≤ m) (h1 : m < 2147483648) :
    Nat.land (and32 x m).toNat m.toNat = (and32 x m).toNat := by
  have hm : m % 4294967296 = m := Int.emod_eq_of_lt h0 (by omega)
  have hle : Nat.land (x % 4294967296).toNat m.toNat ≤ m.toNat := Nat.and_le_right
  have hz : (Int.ofNat (Nat.land (x % 4294967296).toNat m.toNat)) ≤ m := by
    have : ((Nat.land (x % 4294967296).toNat m.toNat : Nat) : Int) ≤ (m.toNat : Int) := by
      exact_mod_cast hle
    rw [Int.toNat_of_nonneg h0] at this
    exact this
  have hn : (0 : Int) ≤ Int.ofNat (Nat.land (x % 4294967296).toNat m.toNat) :=
    Int.ofNat_nonneg _
  unfold and32
  rw [hm, wrap32_id _ (by omega) (by omega)]
  show Nat.land (Nat.land (x % 4294967296).toNat m.toNat) m.toNat =
    Nat.land (x % 4294967296).toNat m.toNat
  refine (Nat.land_assoc _ _ _).trans ?_
  rw [Nat.and_self]
  rfl


theorem not_powerOfTwo_15000 : ¬ PowerOfTwo 15000 := by
  rintro ⟨k, hk⟩
  by_cases h : k ≤ 13
  · interval_cases k <;> norm_num at hk
  · have h14 : 14 ≤ k := by omega
    have : (2 : Int) ^ 14 ≤ 2 ^ k := pow_le_pow_right₀ (by norm_num) h14
    norm_num at this
    omega

/-- C12, the failing input evaluated: the first `reallocate_common` on a fresh
`Orderizer`, for a mesh of 100 elements and with an allocator that never fails,
returns with `vertex_size` 10000, which is not a power of two.  `hash` masks
with 9999 there, so the bucket index is not the remainder modulo the table
size: the pair 0, 1 goes to bucket 769, while the remainder of 125965121
modulo 10000 is 5121.  Every index has its one bits among the eight one bits
of 9999, so at most 256 of the 10000 buckets are ever selected; bucket 16 is
not among them.  And the growth step of `add_vertex` on a full vertex buffer
of that size gives `vertex_size` 15000, again not a power of two. -/
theorem hash_table_size_not_power_of_two :
    (∃ s1, Orderizer.reallocate_common 100 (Orderizer.new true (fun _ => true)) = .ok () s1 ∧
      s1.vertex_size = 10000 ∧ ¬ PowerOfTwo s1.vertex_size ∧
      s1.hash 0 1 = 769 ∧ (984120265 * 0 + 125965121 * 1 : Int) % s1.vertex_size = 5121 ∧
      ∀ p1 p2, Nat.land (s1.hash p1 p2).toNat 9999 = (s1.hash p1 p2).toNat ∧
        s1.hash p1 p2 ≠ 16) ∧
    ∃ index u1, Orderizer.add_vertex full_orderizer = .ok index u1 ∧
      full_orderizer.vertex_size = 10000 ∧ u1.vertex_size = 15000 ∧
      ¬ PowerOfTwo u1.vertex_size := by
  refine ⟨?_, _, _, rfl, by decide, by decide, not_powerOfTwo_15000⟩
  obtain ⟨s1, h, _⟩ := reallocate_common_returns 100 (Orderizer.new true (fun _ => true))
    (fun _ => rfl)
  have hv := orderizer_reallocate_common_vertex_size 100 _ s1 (Or.inl h)
  have hv2 : s1.vertex_size = 10000 := by
    rw [hv]
    decide
  have hsub : ∀ p1 p2, Nat.land (s1.hash p1 p2).toNat 9999 = (s1.hash p1 p2).toNat := by
    intro p1 p2
    unfold LinearizerBase.hash
    rw [hv2]
    exact and32_submask _ 9999 (by decide) (by decide)
  refine ⟨s1, h, hv2, ?_, ?_, ?_, ?_⟩
  · rw [hv2]
    exact not_powerOfTwo_10000
  · unfold LinearizerBase.hash
    rw [hv2]
    decide
  · rw [hv2]
    decide
  · intro p1 p2
    refine ⟨hsub p1 p2, fun h16 => ?_⟩
    have := hsub p1 p2
    rw [h16] at this
    revert this
    decide

/-! ### Allocation failures -/

/-- On paired buffers `free` releases all four and marks the object empty; the
three counts stay as they are. -/
theorem free_released (s : LinearizerBase) (hp : Paired s) :
    Released s.free ∧ s.free.empty = true ∧ s.free.triangle_count = s.triangle_count ∧
    s.free.edges_count = s.edges_count ∧ s.free.vertex_count = s.vertex_count := by
  obtain ⟨h1, h2⟩ := hp
  unfold Released LinearizerBase.free
  simp only
  split_ifs <;> simp_all

theorem free_deinit_released (s : LinearizerBase) (hp : Paired s) :
    Released s.free.deinit_linearizer_base ∧ s.free.deinit_linearizer_base.empty = true ∧
    s.free.deinit_linearizer_base.triangle_count = s.triangle_count ∧
    s.free.deinit_linearizer_base.edges_count = s.edges_count ∧
    s.free.deinit_linearizer_base.vertex_count = s.vertex_count :=
  free_released s hp

/-- A failing growth in `add_triangle`: the exception state is the object after
`free` and `deinit_linearizer_base`. -/
theorem add_triangle_fails (iv0 iv1 iv2 marker : Int) (s : LinearizerBase) (hp : Paired s)
    (hfull : s.triangle_count ≥ s.triangle_size)
    (hf : s.heap s.heap_calls = false ∨ s.heap (s.heap_calls + 1) = false) :
    ∃ s1, LinearizerBase.add_triangle iv0 iv1 iv2 marker s = .out_of_memory s1 ∧
      Released s1 ∧ s1.empty = true ∧ s1.triangle_count = s.triangle_count ∧
      s1.edges_count = s.edges_count ∧ s1.vertex_count = s.vertex_count := by
  unfold LinearizerBase.add_triangle
  simp only [LinearizerBase.realloc, hfull, if_true]
  by_cases h0 : s.heap s.heap_calls = true
  · have h1 : s.heap (s.heap_calls + 1) = false := by
      rcases hf with hf | hf
      · rw [hf] at h0; cases h0
      · exact hf
    simp only [h0, h1, if_true, Bool.false_eq_true, if_false]
    refine ⟨_, rfl, ?_⟩
    apply free_deinit_released
    exact ⟨fun h => by simp at h, hp.2⟩
  · simp only [h0, if_false]
    refine ⟨_, rfl, ?_⟩
    apply free_deinit_released
    exact hp


theorem full_triangle_buffer_paired : Paired full_triangle_buffer := by
  constructor <;> intro h <;> cases h

/-- C13, as the code has it: when `add_triangle` must grow the triangle buffer
and one of the two growth allocations fails, on an object whose marker buffers
exist only together with their data buffers, the call throws the out-of-memory
exception and afterwards all four buffers are null and `is_empty()` is true;
`get_num_triangles()`, `get_num_edges()` and the vertex count are not reset,
they keep their values from before the call. -/
theorem add_triangle_out_of_memory (iv0 iv1 iv2 marker : Int) (s : LinearizerBase)
    (hp : Paired s) (hfull : s.triangle_count ≥ s.triangle_size)
    (hf : s.heap s.heap_calls = false ∨ s.heap (s.heap_calls + 1) = false) :
    ∃ s1, LinearizerBase.add_triangle iv0 iv1 iv2 marker s = .out_of_memory s1 ∧
      Released s1 ∧ s1.is_empty = true ∧ s1.get_num_triangles = s.get_num_triangles ∧
      s1.get_num_edges = s.get_num_edges ∧ s1.vertex_count = s.vertex_count :=
  add_triangle_fails iv0 iv1 iv2 marker s hp hfull hf

/-- C13, instance: the full default-sized triangle buffer with an exhausted
allocator. -/
theorem add_triangle_out_of_memory_witness :
    Paired full_triangle_buffer ∧
    full_triangle_buffer.triangle_count ≥ full_triangle_buffer.triangle_size ∧
    (full_triangle_buffer.heap full_triangle_buffer.heap_calls = false ∨
      full_triangle_buffer.heap (full_triangle_buffer.heap_calls + 1) = false) ∧
    ∃ s1, LinearizerBase.add_triangle 0 1 2 7 full_triangle_buffer = .out_of_memory s1 ∧
      Released s1 ∧ s1.is_empty = true ∧
      s1.get_num_triangles = full_triangle_buffer.get_num_triangles ∧
      s1.get_num_edges = full_triangle_buffer.get_num_edges ∧
      s1.vertex_count = full_triangle_buffer.vertex_count :=
  ⟨full_triangle_buffer_paired, by decide, Or.inl rfl,
    add_triangle_out_of_memory 0 1 2 7 full_triangle_buffer full_triangle_buffer_paired
      (by decide) (Or.inl rfl)⟩

/-- C13, counterexample: with 10000 triangles in a buffer of capacity 10000 and
an allocator that fails, `add_triangle` throws the out-of-memory exception and
afterwards `get_num_triangles()` is 10000, `get_num_edges()` is 400 and the
vertex count is 5200. -/
theorem add_triangle_out_of_memory_counterexample :
    full_triangle_buffer.triangle_count ≥ full_triangle_buffer.triangle_size ∧
    full_triangle_buffer.heap full_triangle_buffer.heap_calls = false ∧
    ∃ s1, LinearizerBase.add_triangle 0 1 2 7 full_triangle_buffer = .out_of_memory s1 ∧
      s1.get_num_triangles = 10000 ∧ s1.get_num_edges = 400 ∧ s1.vertex_count = 5200 := by
  obtain ⟨s1, h, _, _, h1, h2, h3⟩ :=
    add_triangle_fails 0 1 2 7 full_triangle_buffer full_triangle_buffer_paired (by decide)
      (Or.inl rfl)
  exact ⟨by decide, rfl, s1, h, h1, h2, h3⟩

/-- The `tri_markers` branch of `reallocate_common`: when the request for `tris`
is granted and the one for `tri_markers` refused, the exception leaves the
buffers and the flag `empty` as they were, `tris` being allocated. -/
theorem reallocate_common_tri_markers_fails (n : Int) (s : LinearizerBase)
    (h0 : s.heap s.heap_calls = true) (h1 : s.heap (s.heap_calls + 1) = false) :
    ∃ s1, LinearizerBase.reallocate_common n s = .out_of_memory s1 ∧
      s1.tris_live = true ∧ s1.tri_markers_live = s.tri_markers_live ∧
      s1.edges_live = s.edges_live ∧ s1.edge_markers_live = s.edge_markers_live ∧
      s1.empty = s.empty := by
  unfold LinearizerBase.reallocate_common
  simp only [LinearizerBase.realloc, h0, h1, if_true, Bool.false_eq_true, if_false]
  exact ⟨_, rfl, rfl, rfl, rfl, rfl, rfl⟩

/-- The other three allocation points of `reallocate_common` (`tris`, `edges`,
`edge_markers`): the exception leaves all four buffers null and the object
empty. -/
theorem reallocate_common_fails_released (n : Int) (s : LinearizerBase) (hp : Paired s)
    (hf : s.heap s.heap_calls = false ∨
      (s.heap s.heap_calls = true ∧ s.heap (s.heap_calls + 1) = true ∧
        (s.heap (s.heap_calls + 2) = false ∨ s.heap (s.heap_calls + 3) = false))) :
    ∃ s1, LinearizerBase.reallocate_common n s = .out_of_memory s1 ∧
      Released s1 ∧ s1.empty = true := by
  unfold LinearizerBase.reallocate_common
  simp only [LinearizerBase.realloc]
  rcases hf with h0 | ⟨h0, h1, h2⟩
  · simp only [h0, Bool.false_eq_true, if_false]
    refine ⟨_, rfl, ?_⟩
    have := free_deinit_released
      { s with
        vertex_size := Max.max (wrap32 (6 * n)) (Max.max s.vertex_size 10000)
        triangle_size := Max.max (wrap32 (6 * n)) (Max.max s.triangle_size 10000)
        edges_size := Max.max (wrap32 (10 * n)) (Max.max s.edges_size 15000)
        vertex_count := 0, triangle_count := 0, edges_count := 0
        heap_calls := s.heap_calls + 1 } hp
    exact ⟨this.1, this.2.1⟩
  · simp only [h0, h1, if_true]
    by_cases h3 : s.heap (s.heap_calls + 1 + 1) = true
    · have h4 : s.heap (s.heap_calls + 1 + 1 + 1) = false := by
        rcases h2 with h2 | h2
        · rw [h2] at h3; cases h3
        · exact h2
      simp only [h3, h4, if_true, Bool.false_eq_true, if_false]
      refine ⟨_, rfl, ?_⟩
      have := free_deinit_released
        { s with
          vertex_size := Max.max (wrap32 (6 * n)) (Max.max s.vertex_size 10000)
          triangle_size := Max.max (wrap32 (6 * n)) (Max.max s.triangle_size 10000)
          edges_size := Max.max (wrap32 (10 * n)) (Max.max s.edges_size 15000)
          vertex_count := 0, triangle_count := 0, edges_count := 0
          tris_live := true, tri_markers_live := true, edges_live := true
          heap_calls := s.heap_calls + 1 + 1 + 1 + 1 }
        ⟨fun h => by simp at h, fun h => by simp at h⟩
      exact ⟨this.1, this.2.1⟩
    · simp only [h3, if_false]
      refine ⟨_, rfl, ?_⟩
      have := free_deinit_released
        { s with
          vertex_size := Max.max (wrap32 (6 * n)) (Max.max s.vertex_size 10000)
          triangle_size := Max.max (wrap32 (6 * n)) (Max.max s.triangle_size 10000)
          edges_size := Max.max (wrap32 (10 * n)) (Max.max s.edges_size 15000)
          vertex_count := 0, triangle_count := 0, edges_count := 0
          tris_live := true, tri_markers_live := true
          heap_calls := s.heap_calls + 1 + 1 + 1 }
        ⟨fun h => by simp at h, hp.2⟩
      exact ⟨this.1, this.2.1⟩


/-- A failing growth in `add_edge`: as in `add_triangle`, the exception state
is the object after `free` and `deinit_linearizer_base`. -/
theorem add_edge_fails (iv1 iv2 marker : Int) (s : LinearizerBase) (hp : Paired s)
    (hfull : s.edges_count ≥ s.edges_size)
    (hf : s.heap s.heap_calls = false ∨ s.heap (s.heap_calls + 1) = false) :
    ∃ s1, LinearizerBase.add_edge iv1 iv2 marker s = .out_of_memory s1 ∧
      Released s1 ∧ s1.empty = true := by
  unfold LinearizerBase.add_edge
  simp only [LinearizerBase.realloc, hfull, if_true]
  by_cases h0 : s.heap s.heap_calls = true
  · have h1 : s.heap (s.heap_calls + 1) = false := by
      rcases hf with hf | hf
      · rw [hf] at h0; cases h0
      · exact hf
    simp only [h0, h1, if_true, Bool.false_eq_true, if_false]
    refine ⟨_, rfl, ?_⟩
    have := free_deinit_released
      { s with
        edges_live := true
        edges_size := grow s.edges_size
        heap_calls := s.heap_calls + 1 + 1 }
      ⟨hp.1, fun h => by simp at h⟩
    exact ⟨this.1, this.2.1⟩
  · simp only [h0, if_false]
    refine ⟨_, rfl, ?_⟩
    have := free_deinit_released { s with heap_calls := s.heap_calls + 1 } hp
    exact ⟨this.1, this.2.1⟩

/-- C14, the failing input evaluated: an `Orderizer` whose allocator refuses
exactly the tenth request.  The first `reallocate_common` returns; in the
second one the request for `tris` is granted and the one for `tri_markers` is
refused, and the out-of-memory exception leaves all four buffers allocated and
`is_empty()` false. -/
theorem reallocate_common_tri_markers_failure :
    tenth_request_fails 8 = true ∧ tenth_request_fails 9 = false ∧
    ∃ s1 s2, Orderizer.reallocate_common 1 (Orderizer.new true tenth_request_fails) = .ok () s1 ∧
      Orderizer.reallocate_common 1 s1 = .out_of_memory s2 ∧
      s2.tris_live = true ∧ s2.tri_markers_live = true ∧ s2.edges_live = true ∧
      s2.edge_markers_live = true ∧ s2.is_empty = false :=
  ⟨rfl, rfl, _, _, rfl, rfl, rfl, rfl, rfl, rfl, rfl⟩

/-! ### Appending and capacities -/

/-- Everything a returning `add_triangle` does. -/
theorem add_triangle_frame {iv0 iv1 iv2 marker : Int} {s s1 : LinearizerBase}
    (h : LinearizerBase.add_triangle iv0 iv1 iv2 marker s = .ok () s1) :
    s1.edges = s.edges ∧ s1.edge_markers = s.edge_markers ∧ s1.edges_count = s.edges_count ∧
    s1.vertex_size = s.vertex_size ∧ s1.edges_size = s.edges_size ∧
    s1.triangle_size =
      (if s.triangle_count ≥ s.triangle_size then grow s.triangle_size else s.triangle_size) := by
  unfold LinearizerBase.add_triangle at h
  simp only [LinearizerBase.realloc] at h
  by_cases hc : s.triangle_count ≥ s.triangle_size
  · rw [if_pos hc]
    rw [if_pos hc] at h
    split_ifs at h
    simp only [Result.ok.injEq, true_and] at h
    subst h
    exact ⟨rfl, rfl, rfl, rfl, rfl, rfl⟩
  · rw [if_neg hc]
    rw [if_neg hc] at h
    simp only [Result.ok.injEq, true_and] at h
    subst h
    exact ⟨rfl, rfl, rfl, rfl, rfl, rfl⟩

/-- Everything a returning `add_edge` does. -/
theorem add_edge_frame {iv1 iv2 marker : Int} {s s1 : LinearizerBase}
    (h : LinearizerBase.add_edge iv1 iv2 marker s = .ok () s1) :
    s1.edges = (fun i => if i = s.edges_count then (iv1, iv2) else s.edges i) ∧
    s1.edge_markers = (fun i => if i = s.edges_count then marker else s.edge_markers i) ∧
    s1.edges_count = s.edges_count + 1 ∧
    s1.tris = s.tris ∧ s1.tri_markers = s.tri_markers ∧ s1.triangle_count = s.triangle_count ∧
    s1.vertex_size = s.vertex_size ∧ s1.triangle_size = s.triangle_size ∧
    s1.edges_size =
      (if s.edges_count ≥ s.edges_size then grow s.edges_size else s.edges_size) := by
  unfold LinearizerBase.add_edge at h
  simp only [LinearizerBase.realloc] at h
  by_cases hc : s.edges_count ≥ s.edges_size
  · rw [if_pos hc]
    rw [if_pos hc] at h
    split_ifs at h
    simp only [Result.ok.injEq, true_and] at h
    subst h
    exact ⟨rfl, rfl, rfl, rfl, rfl, rfl, rfl, rfl, rfl⟩
  · rw [if_neg hc]
    rw [if_neg hc] at h
    simp only [Result.ok.injEq, true_and] at h
    subst h
    exact ⟨rfl, rfl, rfl, rfl, rfl, rfl, rfl, rfl, rfl⟩

/-- The capacities after a returning `add_vertex`. -/
theorem add_vertex_frame {s s1 : Orderizer} {index : Int}
    (h : Orderizer.add_vertex s = .ok index s1) :
    s1.triangle_size = s.triangle_size ∧ s1.edges_size = s.edges_size ∧
    s1.vertex_size =
      (if s.vertex_count ≥ s.vertex_size then grow s.vertex_size else s.vertex_size) := by
  unfold Orderizer.add_vertex at h
  simp only [Orderizer.realloc] at h
  by_cases hc : s.vertex_count ≥ s.vertex_size
  · rw [if_pos hc]
    rw [if_pos hc] at h
    split_ifs at h
    simp only [Result.ok.injEq] at h
    obtain ⟨_, rfl⟩ := h
    exact ⟨rfl, rfl, rfl⟩
  · rw [if_neg hc]
    rw [if_neg hc] at h
    simp only [Result.ok.injEq] at h
    obtain ⟨_, rfl⟩ := h
    exact ⟨rfl, rfl, rfl⟩

/-- C16: append-only buffers.  A returning `add_triangle(iv0, iv1, iv2, m)`
stores the triangle and the marker at the old `triangle_count`, increments
`triangle_count` by one and changes no other triangle or marker, no edge, no
edge marker and not `edges_count`; a returning `add_edge(jv1, jv2, k)` stores
the edge and the marker at the old `edges_count`, increments `edges_count` by
one and changes no other edge or edge marker, no triangle, no triangle marker
and not `triangle_count`. -/
theorem append_only {iv0 iv1 iv2 m jv1 jv2 k : Int} {s s1 t t1 : LinearizerBase}
    (h1 : LinearizerBase.add_triangle iv0 iv1 iv2 m s = .ok () s1)
    (h2 : LinearizerBase.add_edge jv1 jv2 k t = .ok () t1) :
    (s1.tris s.triangle_count = (iv0, iv1, iv2) ∧ s1.tri_markers s.triangle_count = m ∧
      s1.triangle_count = s.triangle_count + 1 ∧
      (∀ i, i ≠ s.triangle_count → s1.tris i = s.tris i ∧ s1.tri_markers i = s.tri_markers i) ∧
      s1.edges = s.edges ∧ s1.edge_markers = s.edge_markers ∧
      s1.edges_count = s.edges_count) ∧
    (t1.edges t.edges_count = (jv1, jv2) ∧ t1.edge_markers t.edges_count = k ∧
      t1.edges_count = t.edges_count + 1 ∧
      (∀ i, i ≠ t.edges_count → t1.edges i = t.edges i ∧ t1.edge_markers i = t.edge_markers i) ∧
      t1.tris = t.tris ∧ t1.tri_markers = t.tri_markers ∧
      t1.triangle_count = t.triangle_count) := by
  obtain ⟨_, _, _, a1, a2, a3⟩ := add_triangle_ok h1
  obtain ⟨a4, a5, a6, _⟩ := add_triangle_frame h1
  obtain ⟨b1, b2, b3, b4, b5, b6, _⟩ := add_edge_frame h2
  refine ⟨⟨?_, ?_, a1, ?_, a4, a5, a6⟩, ⟨?_, ?_, b3, ?_, b4, b5, b6⟩⟩
  · rw [a2]; simp
  · rw [a3]; simp
  · intro i hi
    rw [a2, a3]
    simp [hi]
  · rw [b1]; simp
  · rw [b2]; simp
  · intro i hi
    rw [b1, b2]
    simp [hi]

/-- C16, instance: appending to `full_buffers`, which holds 10000 triangles and
15000 edges. -/
theorem append_only_witness :
    ∃ s1 t1,
      LinearizerBase.add_triangle 0 1 2 7 full_buffers = .ok () s1 ∧
      LinearizerBase.add_edge 0 1 7 full_buffers = .ok () t1 ∧
      (s1.tris full_buffers.triangle_count = (0, 1, 2) ∧
        s1.tri_markers full_buffers.triangle_count = 7 ∧
        s1.triangle_count = full_buffers.triangle_count + 1 ∧
        (∀ i, i ≠ full_buffers.triangle_count →
          s1.tris i = full_buffers.tris i ∧ s1.tri_markers i = full_buffers.tri_markers i) ∧
        s1.edges = full_buffers.edges ∧ s1.edge_markers = full_buffers.edge_markers ∧
        s1.edges_count = full_buffers.edges_count) ∧
      (t1.edges full_buffers.edges_count = (0, 1) ∧
        t1.edge_markers full_buffers.edges_count = 7 ∧
        t1.edges_count = full_buffers.edges_count + 1 ∧
        (∀ i, i ≠ full_buffers.edges_count →
          t1.edges i = full_buffers.edges i ∧
            t1.edge_markers i = full_buffers.edge_markers i) ∧
        t1.tris = full_buffers.tris ∧ t1.tri_markers = full_buffers.tri_markers ∧
        t1.triangle_count = full_buffers.triangle_count) :=
  ⟨_, _, rfl, rfl, append_only rfl rfl⟩

/-! ### `reallocate_common` -/

/-- Everything the common part of a returning `reallocate_common` sets. -/
theorem reallocate_common_ok {n : Int} {s s1 : LinearizerBase}
    (h : LinearizerBase.reallocate_common n s = .ok () s1) :
    s1.vertex_size = Max.max (wrap32 (6 * n)) (Max.max s.vertex_size 10000) ∧
    s1.triangle_size = Max.max (wrap32 (6 * n)) (Max.max s.triangle_size 10000) ∧
    s1.edges_size = Max.max (wrap32 (10 * n)) (Max.max s.edges_size 15000) ∧
    s1.vertex_count = 0 ∧ s1.triangle_count = 0 ∧ s1.edges_count = 0 ∧ s1.empty = false := by
  unfold LinearizerBase.reallocate_common at h
  simp only [LinearizerBase.realloc] at h
  split_ifs at h
  simp only [Result.ok.injEq, true_and] at h
  subst h
  exact ⟨rfl, rfl, rfl, rfl, rfl, rfl, rfl⟩

/-- The same for the complete call on an `Orderizer`. -/
theorem orderizer_reallocate_common_ok {n : Int} {u u1 : Orderizer}
    (h : Orderizer.reallocate_common n u = .ok () u1) :
    u1.vertex_size = Max.max (wrap32 (6 * n)) (Max.max u.vertex_size 10000) ∧
    u1.triangle_size = Max.max (wrap32 (6 * n)) (Max.max u.triangle_size 10000) ∧
    u1.edges_size = Max.max (wrap32 (10 * n)) (Max.max u.edges_size 15000) ∧
    u1.vertex_count = 0 ∧ u1.triangle_count = 0 ∧ u1.edges_count = 0 ∧ u1.empty = false := by
  unfold Orderizer.reallocate_common at h
  obtain ⟨_, u2, hu2, hsp⟩ := run_bind_ok h
  obtain ⟨b, hb0, rfl⟩ := base_ok hu2
  have hb := reallocate_common_ok hb0
  rcases reallocate_specific_cases n { u with toLinearizerBase := b } with ⟨s2, h2, he⟩ | ⟨s0, h2, _⟩
  · rw [h2] at hsp
    simp only [Result.ok.injEq, true_and] at hsp
    subst hsp
    rw [he]
    exact hb
  · rw [h2] at hsp
    cases hsp

/-- C17, as the code has it: postcondition of a returning `reallocate_common`
for a mesh of `n` elements, for the common part of `LinearizerBase` and for the
complete call on an `Orderizer`.  The products `6 * n` and `10 * n` are taken in
`int`: `vertex_size` and `triangle_size` are the maximum of the wrapped `6 * n`,
the old value and 10000, `edges_size` is the maximum of the wrapped `10 * n`,
the old value and 15000; no capacity is below its old value, all three counts
are zero and `is_empty()` is false.  For `0 <= n <= 214748364` both products
are within `int` and the capacities are `max(6n, old, 10000)`,
`max(6n, old, 10000)` and `max(10n, old, 15000)`. -/
theorem reallocate_common_postcondition {n : Int} {s s1 : LinearizerBase} {u u1 : Orderizer}
    (h1 : LinearizerBase.reallocate_common n s = .ok () s1)
    (h2 : Orderizer.reallocate_common n u = .ok () u1) :
    (s1.vertex_size = Max.max (wrap32 (6 * n)) (Max.max s.vertex_size 10000) ∧
      s1.triangle_size = Max.max (wrap32 (6 * n)) (Max.max s.triangle_size 10000) ∧
      s1.edges_size = Max.max (wrap32 (10 * n)) (Max.max s.edges_size 15000) ∧
      s.vertex_size ≤ s1.vertex_size ∧ s.triangle_size ≤ s1.triangle_size ∧
      s.edges_size ≤ s1.edges_size ∧
      s1.vertex_count = 0 ∧ s1.triangle_count = 0 ∧ s1.edges_count = 0 ∧
      s1.is_empty = false) ∧
    (u1.vertex_size = Max.max (wrap32 (6 * n)) (Max.max u.vertex_size 10000) ∧
      u1.triangle_size = Max.max (wrap32 (6 * n)) (Max.max u.triangle_size 10000) ∧
      u1.edges_size = Max.max (wrap32 (10 * n)) (Max.max u.edges_size 15000) ∧
      u.vertex_size ≤ u1.vertex_size ∧ u.triangle_size ≤ u1.triangle_size ∧
      u.edges_size ≤ u1.edges_size ∧
      u1.vertex_count = 0 ∧ u1.triangle_count = 0 ∧ u1.edges_count = 0 ∧
      u1.is_empty = false) ∧
    (0 ≤ n → n ≤ 214748364 →
      (s1.vertex_size = Max.max (6 * n) (Max.max s.vertex_size 10000) ∧
        s1.triangle_size = Max.max (6 * n) (Max.max s.triangle_size 10000) ∧
        s1.edges_size = Max.max (10 * n) (Max.max s.edges_size 15000)) ∧
      (u1.vertex_size = Max.max (6 * n) (Max.max u.vertex_size 10000) ∧
        u1.triangle_size = Max.max (6 * n) (Max.max u.triangle_size 10000) ∧
        u1.edges_size = Max.max (10 * n) (Max.max u.edges_size 15000))) := by
  obtain ⟨a1, a2, a3, a4, a5, a6, a7⟩ := reallocate_common_ok h1
  obtain ⟨b1, b2, b3, b4, b5, b6, b7⟩ := orderizer_reallocate_common_ok h2
  refine ⟨⟨a1, a2, a3, ?_, ?_, ?_, a4, a5, a6, a7⟩, ⟨b1, b2, b3, ?_, ?_, ?_, b4, b5, b6, b7⟩, ?_⟩
  · rw [a1]; exact le_trans (le_max_left _ _) (le_max_right _ _)
  · rw [a2]; exact le_trans (le_max_left _ _) (le_max_right _ _)
  · rw [a3]; exact le_trans (le_max_left _ _) (le_max_right _ _)
  · rw [b1]; exact le_trans (le_max_left _ _) (le_max_right _ _)
  · rw [b2]; exact le_trans (le_max_left _ _) (le_max_right _ _)
  · rw [b3]; exact le_trans (le_max_left _ _) (le_max_right _ _)
  · intro h0 hn
    have w6 : wrap32 (6 * n) = 6 * n := wrap32_id _ (by omega) (by omega)
    have w10 : wrap32 (10 * n) = 10 * n := wrap32_id _ (by omega) (by omega)
    rw [w6] at a1 a2 b1 b2
    rw [w10] at a3 b3
    exact ⟨⟨a1, a2, a3⟩, b1, b2, b3⟩

/-- C17, instance: a mesh of 2000 elements, on `grown_buffers` (capacities
15000, 15000, 15000) and on a new `Orderizer`; the capacities become 15000,
15000, 20000 and 12000, 12000, 20000. -/
theorem reallocate_common_postcondition_witness :
    ∃ s1 u1,
      LinearizerBase.reallocate_common 2000 grown_buffers = .ok () s1 ∧
      Orderizer.reallocate_common 2000 (Orderizer.new true fun _ => true) = .ok () u1 ∧
      (s1.vertex_size, s1.triangle_size, s1.edges_size) = (15000, 15000, 20000) ∧
      (u1.vertex_size, u1.triangle_size, u1.edges_size) = (12000, 12000, 20000) ∧
      (s1.vertex_size = Max.max (wrap32 (6 * 2000)) (Max.max grown_buffers.vertex_size 10000) ∧
        s1.triangle_size =
          Max.max (wrap32 (6 * 2000)) (Max.max grown_buffers.triangle_size 10000) ∧
        s1.edges_size = Max.max (wrap32 (10 * 2000)) (Max.max grown_buffers.edges_size 15000) ∧
        grown_buffers.vertex_size ≤ s1.vertex_size ∧
        grown_buffers.triangle_size ≤ s1.triangle_size ∧
        grown_buffers.edges_size ≤ s1.edges_size ∧
        s1.vertex_count = 0 ∧ s1.triangle_count = 0 ∧ s1.edges_count = 0 ∧
        s1.is_empty = false) ∧
      (u1.vertex_size =
          Max.max (wrap32 (6 * 2000))
            (Max.max (Orderizer.new true fun _ => true).vertex_size 10000) ∧
        u1.triangle_size =
          Max.max (wrap32 (6 * 2000))
            (Max.max (Orderizer.new true fun _ => true).triangle_size 10000) ∧
        u1.edges_size =
          Max.max (wrap32 (10 * 2000))
            (Max.max (Orderizer.new true fun _ => true).edges_size 15000) ∧
        (Orderizer.new true fun _ => true).vertex_size ≤ u1.vertex_size ∧
        (Orderizer.new true fun _ => true).triangle_size ≤ u1.triangle_size ∧
        (Orderizer.new true fun _ => true).edges_size ≤ u1.edges_size ∧
        u1.vertex_count = 0 ∧ u1.triangle_count = 0 ∧ u1.edges_count = 0 ∧
        u1.is_empty = false) ∧
      ((0 : Int) ≤ 2000 → (2000 : Int) ≤ 214748364 →
        (s1.vertex_size = Max.max (6 * 2000) (Max.max grown_buffers.vertex_size 10000) ∧
          s1.triangle_size = Max.max (6 * 2000) (Max.max grown_buffers.triangle_size 10000) ∧
          s1.edges_size = Max.max (10 * 2000) (Max.max grown_buffers.edges_size 15000)) ∧
        (u1.vertex_size =
            Max.max (6 * 2000) (Max.max (Orderizer.new true fun _ => true).vertex_size 10000) ∧
          u1.triangle_size =
            Max.max (6 * 2000)
              (Max.max (Orderizer.new true fun _ => true).triangle_size 10000) ∧
          u1.edges_size =
            Max.max (10 * 2000)
              (Max.max (Orderizer.new true fun _ => true).edges_size 15000))) :=
  ⟨_, _, rfl, rfl, by decide, by decide, reallocate_common_postcondition rfl rfl⟩

/-- C17, counterexample: a mesh of 400000000 elements on a new object, with an
allocator that never fails.  The products 2400000000 and 4000000000 do not fit
in `int`; the wrapped values are negative and the call returns with the
capacities 10000, 10000 and 15000 of the defaults, not with
`max(6n, old, 10000)` and `max(10n, old, 15000)`. -/
theorem reallocate_common_postcondition_counterexample :
    ∃ s1,
      LinearizerBase.reallocate_common 400000000 (LinearizerBase.new true fun _ => true) =
        .ok () s1 ∧
      (s1.vertex_size, s1.triangle_size, s1.edges_size) = (10000, 10000, 15000) ∧
      Max.max (6 * 400000000) (Max.max (LinearizerBase.new true fun _ => true).vertex_size 10000)
        = 2400000000 ∧
      Max.max (6 * 400000000)
        (Max.max (LinearizerBase.new true fun _ => true).triangle_size 10000) = 2400000000 ∧
      Max.max (10 * 400000000) (Max.max (LinearizerBase.new true fun _ => true).edges_size 15000)
        = 4000000000 :=
  ⟨_, rfl, by decide, by decide, by decide, by decide⟩

/-! ### The pinned maximum -/

/-- C18: for a negative argument `set_max_absolute_value` issues the warning
and leaves the whole object as it was, `auto_max`, the pinned maximum `max`,
`min_val`, `max_val`, all buffers and all counts included. -/
theorem set_max_absolute_value_negative (s : LinearizerBase) (max_abs : ℚ) (h : max_abs < 0) :
    (s.set_max_absolute_value max_abs).1 = s ∧ (s.set_max_absolute_value max_abs).2 = true := by
  unfold LinearizerBase.set_max_absolute_value
  rw [if_pos h]
  exact ⟨rfl, rfl⟩

/-- C18, instance: the argument -1 on an object whose last pass found the
maximum 10. -/
theorem set_max_absolute_value_negative_witness :
    (-1 : ℚ) < 0 ∧ (processed_field.set_max_absolute_value (-1)).1 = processed_field ∧
      (processed_field.set_max_absolute_value (-1)).2 = true :=
  ⟨by norm_num, set_max_absolute_value_negative processed_field (-1) (by norm_num)⟩

theorem set_max_absolute_value_eq (s : LinearizerBase) (m : ℚ) (h : 0 ≤ m) :
    s.set_max_absolute_value m = ({ s with auto_max := false, max := m }, false) := by
  unfold LinearizerBase.set_max_absolute_value
  rw [if_neg (not_lt.mpr h)]

/-- C19, as the code has it: for every `m >= 0`, `set_max_absolute_value(m)`
issues no warning and switches automatic detection off (`auto_max = false`); it
stores `m` in the member `max`, and `max_val` and `min_val`, the values
`get_max_value()` and `get_min_value()` return, are the same as before the
call. -/
theorem set_max_absolute_value_pins (s : LinearizerBase) (m : ℚ) (h : 0 ≤ m) :
    (s.set_max_absolute_value m).2 = false ∧
    (s.set_max_absolute_value m).1.auto_max = false ∧
    (s.set_max_absolute_value m).1.max = m ∧
    (s.set_max_absolute_value m).1.get_max_value = s.get_max_value ∧
    (s.set_max_absolute_value m).1.get_min_value = s.get_min_value := by
  rw [set_max_absolute_value_eq s m h]
  exact ⟨rfl, rfl, rfl, rfl, rfl⟩

/-- C19, instance: pinning 5 on an object whose last pass found the maximum
10. -/
theorem set_max_absolute_value_pins_witness :
    (0 : ℚ) ≤ 5 ∧
    (processed_field.set_max_absolute_value 5).2 = false ∧
    (processed_field.set_max_absolute_value 5).1.auto_max = false ∧
    (processed_field.set_max_absolute_value 5).1.max = 5 ∧
    (processed_field.set_max_absolute_value 5).1.get_max_value = processed_field.get_max_value ∧
    (processed_field.set_max_absolute_value 5).1.get_min_value = processed_field.get_min_value :=
  ⟨by norm_num, set_max_absolute_value_pins processed_field 5 (by norm_num)⟩

/-- C19, counterexample: pinning 5 on an object whose `max_val` is 10 leaves
`get_max_value()` at 10, not at 5. -/
theorem set_max_absolute_value_pins_counterexample :
    (0 : ℚ) ≤ 5 ∧ (processed_field.set_max_absolute_value 5).1.auto_max = false ∧
    (processed_field.set_max_absolute_value 5).1.get_max_value = 10 ∧
    (processed_field.set_max_absolute_value 5).1.get_max_value ≠ 5 := by
  rw [set_max_absolute_value_eq processed_field 5 (by norm_num)]
  refine ⟨by norm_num, rfl, rfl, ?_⟩
  show (10 : ℚ) ≠ 5
  norm_num

/-! ### The level cache -/

theorem set_at_set_at {α : Type} (a : Int → α) (i : Int) (v w : α) :
    set_at (set_at a i v) i w = set_at a i w := by
  funext j
  unfold set_at
  split_ifs <;> rfl

/-- With an entry in the cache, `get_max_level` returns it and changes
nothing. -/
theorem get_max_level_hit (env : LevelEnv) (e : Element) (polynomial_order : Int) (mesh : Mesh)
    (s : LinearizerBase) (h : s.level_map e.id ≠ -1) :
    s.get_max_level env e polynomial_order mesh = (s.level_map e.id, s) := by
  unfold LinearizerBase.get_max_level
  rw [if_pos h]

/-- Without an entry, `get_max_level` computes the level, stores it at `e.id`
and returns it. -/
theorem get_max_level_miss (env : LevelEnv) (e : Element) (polynomial_order : Int) (mesh : Mesh)
    (s : LinearizerBase) (h : s.level_map e.id = -1) :
    s.get_max_level env e polynomial_order mesh =
      (env.fresh_level e polynomial_order mesh,
        { s with level_map := set_at s.level_map e.id (env.fresh_level e polynomial_order mesh) }) := by
  unfold LinearizerBase.get_max_level LevelEnv.fresh_level
  rw [if_neg (not_not.mpr h)]
  by_cases hq : (e.is_quad && polynomial_order == 1) = true
  · simp only [hq, if_true]
    by_cases hc : e.is_curved = true
    · simp [hc, set_at, set_at_set_at]
    · simp [hc, set_at, set_at_set_at]
  · simp only [hq, if_false]
    by_cases hc : e.is_curved = true
    · simp [hc, set_at]
    · simp [hc, set_at]

theorem fresh_level_nonneg (env : LevelEnv) (e : Element) (polynomial_order : Int) (mesh : Mesh)
    (hL : 0 ≤ env.LIN_MAX_LEVEL) (hr : 0 ≤ env.ratio_int e polynomial_order mesh) :
    0 ≤ env.fresh_level e polynomial_order mesh := by
  unfold LevelEnv.fresh_level
  split_ifs
  · decide
  · exact hL
  · exact le_min hL hr

/-- After any call the returned level is the entry of the cache. -/
theorem get_max_level_stored (env : LevelEnv) (e : Element) (polynomial_order : Int) (mesh : Mesh)
    (s : LinearizerBase) :
    (s.get_max_level env e polynomial_order mesh).2.level_map e.id =
      (s.get_max_level env e polynomial_order mesh).1 := by
  by_cases h : s.level_map e.id = -1
  · rw [get_max_level_miss env e polynomial_order mesh s h]
    simp [set_at]
  · rw [get_max_level_hit env e polynomial_order mesh s h]

theorem init_linearizer_base_level_map (s : LinearizerBase) (max_element_id i : Int)
    (h0 : 0 ≤ i) (h1 : i < max_element_id) :
    (s.init_linearizer_base max_element_id).level_map i = -1 := by
  unfold LinearizerBase.init_linearizer_base
  simp only
  rw [if_pos ⟨h0, h1⟩]

/-- C20: idempotence of the level cache.  Two calls of `get_max_level` for an
element `e` return the same value: the second call, whatever polynomial order
and mesh it is given, returns the entry `level_map[e.id]` left by the first one
and changes nothing.  The only condition is that the level of the first call
is not -1, the mark of an empty entry.  And `init_linearizer_base` sets every
entry of the new `level_map` to -1, so that the first call for `e` afterwards
returns the freshly computed level, whatever the cache held before. -/
theorem get_max_level_idempotent (env : LevelEnv) (e : Element) (order1 order2 : Int)
    (mesh1 mesh2 : Mesh) (s : LinearizerBase) (max_element_id : Int)
    (hlevel : (s.get_max_level env e order1 mesh1).1 ≠ -1)
    (h0 : 0 ≤ e.id) (h1 : e.id < max_element_id) :
    ((s.get_max_level env e order1 mesh1).2.get_max_level env e order2 mesh2).1 =
        (s.get_max_level env e order1 mesh1).1 ∧
    ((s.get_max_level env e order1 mesh1).2.get_max_level env e order2 mesh2).1 =
        (s.get_max_level env e order1 mesh1).2.level_map e.id ∧
    ((s.get_max_level env e order1 mesh1).2.get_max_level env e order2 mesh2).2 =
        (s.get_max_level env e order1 mesh1).2 ∧
    (∀ i, 0 ≤ i → i < max_element_id → (s.init_linearizer_base max_element_id).level_map i = -1) ∧
    ((s.init_linearizer_base max_element_id).get_max_level env e order1 mesh1).1 =
        env.fresh_level e order1 mesh1 := by
  have hst := get_max_level_stored env e order1 mesh1 s
  have hne : (s.get_max_level env e order1 mesh1).2.level_map e.id ≠ -1 := by
    rw [hst]
    exact hlevel
  rw [get_max_level_hit env e order2 mesh2 _ hne]
  refine ⟨hst, rfl, rfl, fun i hi0 hi1 => init_linearizer_base_level_map s max_element_id i hi0 hi1,
    ?_⟩
  rw [get_max_level_miss env e order1 mesh1 _
    (init_linearizer_base_level_map s max_element_id e.id h0 h1)]

/-- C20, instance: at the start of a pass, the straight triangle with id 0 is
asked for with order 0 and then with order 9.  For order 0 the ratio is not a
number and the level stored is the least `int`; the second call returns it
again, although the level for order 9 would be 6. -/
theorem get_max_level_idempotent_witness :
    (new_pass.get_max_level root_levels lower_triangle 0 unit_square.mesh).1 ≠ -1 ∧
    0 ≤ lower_triangle.id ∧ lower_triangle.id < 2 ∧
    (new_pass.get_max_level root_levels lower_triangle 0 unit_square.mesh).1 = -2147483648 ∧
    root_levels.fresh_level lower_triangle 9 unit_square.mesh = 6 ∧
    (((new_pass.get_max_level root_levels lower_triangle 0 unit_square.mesh).2.get_max_level
          root_levels lower_triangle 9 unit_square.mesh).1 =
        (new_pass.get_max_level root_levels lower_triangle 0 unit_square.mesh).1 ∧
      ((new_pass.get_max_level root_levels lower_triangle 0 unit_square.mesh).2.get_max_level
          root_levels lower_triangle 9 unit_square.mesh).1 =
        (new_pass.get_max_level root_levels lower_triangle 0 unit_square.mesh).2.level_map
          lower_triangle.id ∧
      ((new_pass.get_max_level root_levels lower_triangle 0 unit_square.mesh).2.get_max_level
          root_levels lower_triangle 9 unit_square.mesh).2 =
        (new_pass.get_max_level root_levels lower_triangle 0 unit_square.mesh).2 ∧
      (∀ i, 0 ≤ i → i < 2 → (new_pass.init_linearizer_base 2).level_map i = -1) ∧
      ((new_pass.init_linearizer_base 2).get_max_level root_levels lower_triangle 0
          unit_square.mesh).1 =
        root_levels.fresh_level lower_triangle 0 unit_square.mesh) :=
  ⟨by decide, by decide, by decide, by decide, by decide,
    get_max_level_idempotent root_levels lower_triangle 0 9 unit_square.mesh unit_square.mesh
      new_pass 2 (by decide) (by decide) (by decide)⟩

/-! ### The pairing of data and marker buffers is kept by every operation -/

theorem paired_new (auto_max : Bool) (heap : Nat → Bool) :
    Paired (LinearizerBase.new auto_max heap) := by
  constructor <;> intro _ <;> rfl

theorem paired_free (s : LinearizerBase) (hp : Paired s) : Paired s.free := by
  have h := (free_released s hp).1
  exact ⟨fun _ => h.2.1, fun _ => h.2.2.2⟩

theorem paired_free_deinit (s : LinearizerBase) (hp : Paired s) :
    Paired s.free.deinit_linearizer_base :=
  paired_free s hp

/-- A step that allocates a data buffer or leaves a buffer and its markers as
they are keeps the pairing. -/
theorem paired_of (s s1 : LinearizerBase) (hp : Paired s)
    (h1 : s1.tris_live = true ∨
      (s1.tris_live = s.tris_live ∧ s1.tri_markers_live = s.tri_markers_live))
    (h2 : s1.edges_live = true ∨
      (s1.edges_live = s.edges_live ∧ s1.edge_markers_live = s.edge_markers_live)) :
    Paired s1 := by
  constructor
  · intro h
    rcases h1 with h1 | ⟨h1, h3⟩
    · rw [h1] at h; cases h
    · rw [h3]; exact hp.1 (h1 ▸ h)
  · intro h
    rcases h2 with h2 | ⟨h2, h3⟩
    · rw [h2] at h; cases h
    · rw [h3]; exact hp.2 (h2 ▸ h)

/-- However `add_triangle` ends, the pairing is kept. -/
theorem paired_add_triangle (iv0 iv1 iv2 marker : Int) (s s1 : LinearizerBase) (hp : Paired s)
    (h : LinearizerBase.add_triangle iv0 iv1 iv2 marker s = .ok () s1 ∨
      LinearizerBase.add_triangle iv0 iv1 iv2 marker s = .out_of_memory s1) : Paired s1 := by
  unfold LinearizerBase.add_triangle at h
  simp only [LinearizerBase.realloc] at h
  split_ifs at h <;> rcases h with h | h <;> cases h <;>
    first
    | exact paired_of s _ hp (by first | exact Or.inl rfl | exact Or.inr ⟨rfl, rfl⟩)
        (Or.inr ⟨rfl, rfl⟩)
    | (apply paired_free_deinit
       exact paired_of s _ hp (by first | exact Or.inl rfl | exact Or.inr ⟨rfl, rfl⟩)
        (Or.inr ⟨rfl, rfl⟩))

/-- However `add_edge` ends, the pairing is kept. -/
theorem paired_add_edge (iv1 iv2 marker : Int) (s s1 : LinearizerBase) (hp : Paired s)
    (h : LinearizerBase.add_edge iv1 iv2 marker s = .ok () s1 ∨
      LinearizerBase.add_edge iv1 iv2 marker s = .out_of_memory s1) : Paired s1 := by
  unfold LinearizerBase.add_edge at h
  simp only [LinearizerBase.realloc] at h
  split_ifs at h <;> rcases h with h | h <;> cases h <;>
    first
    | exact paired_of s _ hp (Or.inr ⟨rfl, rfl⟩)
        (by first | exact Or.inl rfl | exact Or.inr ⟨rfl, rfl⟩)
    | (apply paired_free_deinit
       exact paired_of s _ hp (Or.inr ⟨rfl, rfl⟩)
        (by first | exact Or.inl rfl | exact Or.inr ⟨rfl, rfl⟩))

/-- However the common part of `reallocate_common` ends, the pairing is kept. -/
theorem paired_reallocate_common (n : Int) (s s1 : LinearizerBase) (hp : Paired s)
    (h : LinearizerBase.reallocate_common n s = .ok () s1 ∨
      LinearizerBase.reallocate_common n s = .out_of_memory s1) : Paired s1 := by
  unfold LinearizerBase.reallocate_common at h
  simp only [LinearizerBase.realloc] at h
  split_ifs at h <;> rcases h with h | h <;> cases h <;>
    first
    | exact paired_of s _ hp (by first | exact Or.inl rfl | exact Or.inr ⟨rfl, rfl⟩)
        (by first | exact Or.inl rfl | exact Or.inr ⟨rfl, rfl⟩)
    | (apply paired_free_deinit
       exact paired_of s _ hp (by first | exact Or.inl rfl | exact Or.inr ⟨rfl, rfl⟩)
        (by first | exact Or.inl rfl | exact Or.inr ⟨rfl, rfl⟩))

/-! ### The level of curved elements and of quadrilaterals of order 1 -/

theorem fresh_level_curved (env : LevelEnv) (e : Element) (polynomial_order : Int) (mesh : Mesh)
    (hc : e.is_curved = true) :
    env.fresh_level e polynomial_order mesh =
      if e.is_quad = true ∧ polynomial_order = 1 then 2 else env.LIN_MAX_LEVEL := by
  unfold LevelEnv.fresh_level
  by_cases hq : e.is_quad = true ∧ polynomial_order = 1
  · simp [hq.1, hq.2]
  · rw [if_neg hq]
    have : (e.is_quad && polynomial_order == 1) = false := by
      by_cases h1 : e.is_quad = true
      · have h2 : ¬ polynomial_order = 1 := fun h => hq ⟨h1, h⟩
        simp [h1, h2]
      · simp [h1]
    simp [this, hc]

theorem fresh_level_quad_one (env : LevelEnv) (e : Element) (mesh : Mesh)
    (hq : e.is_quad = true) : env.fresh_level e 1 mesh = 2 := by
  unfold LevelEnv.fresh_level
  simp [hq]

/-- C21, as the code has it: for a curved element whose level is not yet
cached, `get_max_level` returns `LIN_MAX_LEVEL`, unless the element is a
quadrilateral and the polynomial order is 1: then it returns 2.  The returned
level is the one left in the cache. -/
theorem get_max_level_curved (env : LevelEnv) (e : Element) (polynomial_order : Int)
    (mesh : Mesh) (s : LinearizerBase) (hcache : s.level_map e.id = -1)
    (hc : e.is_curved = true) :
    (s.get_max_level env e polynomial_order mesh).1 =
      (if e.is_quad = true ∧ polynomial_order = 1 then 2 else env.LIN_MAX_LEVEL) ∧
    (s.get_max_level env e polynomial_order mesh).2.level_map e.id =
      (s.get_max_level env e polynomial_order mesh).1 := by
  refine ⟨?_, get_max_level_stored env e polynomial_order mesh s⟩
  rw [get_max_level_miss env e polynomial_order mesh s hcache]
  exact fresh_level_curved env e polynomial_order mesh hc

/-- C21, instance: the curved quadrilateral at the start of a pass, asked for
with order 3. -/
theorem get_max_level_curved_witness :
    new_pass.level_map curved_quad.id = -1 ∧ curved_quad.is_curved = true ∧
    (new_pass.get_max_level order_levels curved_quad 3 unit_square.mesh).1 = 6 ∧
    (new_pass.get_max_level order_levels curved_quad 3 unit_square.mesh).1 =
      (if curved_quad.is_quad = true ∧ (3 : Int) = 1 then 2 else order_levels.LIN_MAX_LEVEL) ∧
    (new_pass.get_max_level order_levels curved_quad 3 unit_square.mesh).2.level_map
        curved_quad.id =
      (new_pass.get_max_level order_levels curved_quad 3 unit_square.mesh).1 :=
  ⟨by decide, by decide, by decide,
    get_max_level_curved order_levels curved_quad 3 unit_square.mesh new_pass (by decide)
      (by decide)⟩

/-- C21, counterexample: with `LIN_MAX_LEVEL` 6, the curved quadrilateral, not
yet cached, asked for with polynomial order 1 gets level 2, not 6. -/
theorem get_max_level_curved_counterexample :
    new_pass.level_map curved_quad.id = -1 ∧ curved_quad.is_curved = true ∧
    order_levels.LIN_MAX_LEVEL = 6 ∧
    (new_pass.get_max_level order_levels curved_quad 1 unit_square.mesh).1 = 2 := by
  decide

/-- C22, as the code has it: for a quadrilateral whose level is not yet cached,
a call of `get_max_level` with polynomial order 1 returns 2, whatever the area
of the element, the bounding box of the mesh and the curvature are; when the
level is cached, the call returns the cached level, whatever it is. -/
theorem get_max_level_quad_one (env : LevelEnv) (e : Element) (mesh : Mesh)
    (s : LinearizerBase) (hq : e.is_quad = true) :
    (s.level_map e.id = -1 → (s.get_max_level env e 1 mesh).1 = 2) ∧
    (s.level_map e.id ≠ -1 → (s.get_max_level env e 1 mesh).1 = s.level_map e.id) := by
  constructor
  · intro h
    rw [get_max_level_miss env e 1 mesh s h]
    exact fresh_level_quad_one env e mesh hq
  · intro h
    rw [get_max_level_hit env e 1 mesh s h]

/-- C22, instance: the straight quadrilateral at the start of a pass. -/
theorem get_max_level_quad_one_witness :
    straight_quad.is_quad = true ∧ new_pass.level_map straight_quad.id = -1 ∧
    (new_pass.level_map straight_quad.id = -1 →
      (new_pass.get_max_level order_levels straight_quad 1 unit_square.mesh).1 = 2) ∧
    (new_pass.level_map straight_quad.id ≠ -1 →
      (new_pass.get_max_level order_levels straight_quad 1 unit_square.mesh).1 =
        new_pass.level_map straight_quad.id) :=
  ⟨by decide, by decide,
    get_max_level_quad_one order_levels straight_quad unit_square.mesh new_pass (by decide)⟩

/-- C22, counterexample: at the start of a pass the straight quadrilateral is
asked for with order 5 and gets level 4; the next call in the same pass, with
order 1, returns 4 again, not 2. -/
theorem get_max_level_quad_one_counterexample :
    straight_quad.is_quad = true ∧
    (new_pass.get_max_level order_levels straight_quad 5 unit_square.mesh).1 = 4 ∧
    ((new_pass.get_max_level order_levels straight_quad 5 unit_square.mesh).2.get_max_level
      order_levels straight_quad 1 unit_square.mesh).1 = 4 := by
  decide

/-! ### Appends stay within the capacity; the bucket index stays within the table -/

theorem grow_gt (n : Int) (h : 2 ≤ n) : n < grow n := by
  rw [grow_floor n (by omega)]
  omega

theorem land_le_right (a b : Nat) : Nat.land a b ≤ b := Nat.and_le_right

/-- On a non-negative mask within the range of `int`, the bitwise `&` lies
between 0 and the mask. -/
theorem and32_le (x m : Int) (h0 : 0 ≤ m) (h1 : m < 2147483648) :
    0 ≤ and32 x m ∧ and32 x m ≤ m := by
  have hm : m % 4294967296 = m := Int.emod_eq_of_lt h0 (by omega)
  have hle : Nat.land (x % 4294967296).toNat m.toNat ≤ m.toNat := land_le_right _ _
  have hz : (Int.ofNat (Nat.land (x % 4294967296).toNat m.toNat)) ≤ m := by
    have : ((Nat.land (x % 4294967296).toNat m.toNat : Nat) : Int) ≤ (m.toNat : Int) := by
      exact_mod_cast hle
    rw [Int.toNat_of_nonneg h0] at this
    exact this
  have hn : (0 : Int) ≤ Int.ofNat (Nat.land (x % 4294967296).toNat m.toNat) :=
    Int.ofNat_nonneg _
  unfold and32
  rw [hm, wrap32_id _ (by omega) (by omega)]
  exact ⟨hn, hz⟩

/-- C28: for all `p1`, `p2` and every table size `vertex_size >= 1` in the
range of `int`, a power of two or not, `hash(p1, p2)` lies between 0 and
`vertex_size - 1`; the sum of products is taken with 32-bit wrap-around. -/
theorem hash_in_range (s : LinearizerBase) (p1 p2 : Int) (h1 : 1 ≤ s.vertex_size)
    (h2 : s.vertex_size ≤ 2147483647) :
    0 ≤ s.hash p1 p2 ∧ s.hash p1 p2 ≤ s.vertex_size - 1 := by
  unfold LinearizerBase.hash
  exact and32_le _ _ (by omega) (by omega)

/-- C28, instance: the default table size 10000 and a pair whose sum of
products exceeds the range of `int`. -/
theorem hash_in_range_witness :
    1 ≤ full_buffers.vertex_size ∧ full_buffers.vertex_size ≤ 2147483647 ∧
    0 ≤ full_buffers.hash 3 7 ∧ full_buffers.hash 3 7 ≤ full_buffers.vertex_size - 1 :=
  ⟨by decide, by decide, hash_in_range full_buffers 3 7 (by decide) (by decide)⟩

/-- C27: on a buffer whose count is within its capacity and whose capacity is
at least 2, a returning `add_triangle` writes at an index, the old count, that
is below the capacity after the call, and leaves the count within the
capacity; the same holds for `add_edge` and for `Orderizer::add_vertex`, which
hands out the old vertex count as the index. -/
theorem append_within_capacity {iv0 iv1 iv2 m jv1 jv2 k index : Int}
    {s s1 t t1 : LinearizerBase} {u u1 : Orderizer}
    (hs : s.triangle_count ≤ s.triangle_size) (hs2 : 2 ≤ s.triangle_size)
    (ht : t.edges_count ≤ t.edges_size) (ht2 : 2 ≤ t.edges_size)
    (hu : u.vertex_count ≤ u.vertex_size) (hu2 : 2 ≤ u.vertex_size)
    (h1 : LinearizerBase.add_triangle iv0 iv1 iv2 m s = .ok () s1)
    (h2 : LinearizerBase.add_edge jv1 jv2 k t = .ok () t1)
    (h3 : Orderizer.add_vertex u = .ok index u1) :
    (s1.tris s.triangle_count = (iv0, iv1, iv2) ∧ s1.tri_markers s.triangle_count = m ∧
      s.triangle_count < s1.triangle_size ∧ s1.triangle_count ≤ s1.triangle_size) ∧
    (t1.edges t.edges_count = (jv1, jv2) ∧ t1.edge_markers t.edges_count = k ∧
      t.edges_count < t1.edges_size ∧ t1.edges_count ≤ t1.edges_size) ∧
    (index = u.vertex_count ∧ index < u1.vertex_size ∧ u1.vertex_count ≤ u1.vertex_size) := by
  obtain ⟨_, _, _, a1, a2, a3⟩ := add_triangle_ok h1
  obtain ⟨_, _, _, _, _, a4⟩ := add_triangle_frame h1
  obtain ⟨b1, b2, b3, _, _, _, _, _, b4⟩ := add_edge_frame h2
  obtain ⟨c1, c2, _, _⟩ := add_vertex_ok h3
  obtain ⟨_, _, c3⟩ := add_vertex_frame h3
  have gs := grow_gt _ hs2
  have gt := grow_gt _ ht2
  have gu := grow_gt _ hu2
  refine ⟨⟨by rw [a2]; simp, by rw [a3]; simp, ?_, ?_⟩, ⟨by rw [b1]; simp, by rw [b2]; simp, ?_, ?_⟩,
    c1, ?_, ?_⟩
  · rw [a4]; split_ifs <;> omega
  · rw [a4, a1]; split_ifs <;> omega
  · rw [b4]; split_ifs <;> omega
  · rw [b4, b3]; split_ifs <;> omega
  · rw [c3, c1]; split_ifs <;> omega
  · rw [c3, c2]; split_ifs <;> omega

/-- C27, instance: all three buffers full at their default sizes. -/
theorem append_within_capacity_witness :
    full_buffers.triangle_count ≤ full_buffers.triangle_size ∧
    2 ≤ full_buffers.triangle_size ∧
    full_buffers.edges_count ≤ full_buffers.edges_size ∧ 2 ≤ full_buffers.edges_size ∧
    full_orderizer.vertex_count ≤ full_orderizer.vertex_size ∧
    2 ≤ full_orderizer.vertex_size ∧
    ∃ s1 t1 u1 index,
      LinearizerBase.add_triangle 0 1 2 7 full_buffers = .ok () s1 ∧
      LinearizerBase.add_edge 0 1 7 full_buffers = .ok () t1 ∧
      Orderizer.add_vertex full_orderizer = .ok index u1 ∧
      (s1.tris full_buffers.triangle_count = (0, 1, 2) ∧
        s1.tri_markers full_buffers.triangle_count = 7 ∧
        full_buffers.triangle_count < s1.triangle_size ∧
        s1.triangle_count ≤ s1.triangle_size) ∧
      (t1.edges full_buffers.edges_count = (0, 1) ∧
        t1.edge_markers full_buffers.edges_count = 7 ∧
        full_buffers.edges_count < t1.edges_size ∧ t1.edges_count ≤ t1.edges_size) ∧
      (index = full_orderizer.vertex_count ∧ index < u1.vertex_size ∧
        u1.vertex_count ≤ u1.vertex_size) :=
  ⟨by decide, by decide, by decide, by decide, by decide, by decide, _, _, _, _, rfl, rfl, rfl,
    append_within_capacity (by decide) (by decide) (by decide) (by decide) (by decide)
      (by decide) rfl rfl rfl⟩

/-! ### The edges `process_space` appends -/

theorem sameEdges_refl (s : LinearizerBase) : SameEdges s s := ⟨rfl, rfl, rfl⟩

theorem sameEdges_trans {s s1 s2 : LinearizerBase} (h1 : SameEdges s s1) (h2 : SameEdges s1 s2) :
    SameEdges s s2 :=
  ⟨h2.1.trans h1.1, h2.2.1.trans h1.2.1, h2.2.2.trans h1.2.2⟩

theorem appendedEdges_of_same {s s1 : LinearizerBase} (h : SameEdges s s1) :
    AppendedEdges s s1 [] := by
  obtain ⟨h1, h2, h3⟩ := h
  refine ⟨by simp [h3], fun k hk => absurd hk (by simp), fun i _ => ?_⟩
  rw [h1, h2]
  exact ⟨rfl, rfl⟩

theorem appendedEdges_append {s s1 s2 : LinearizerBase} {l1 l2 : List MarkedEdge}
    (h1 : AppendedEdges s s1 l1) (h2 : AppendedEdges s1 s2 l2) :
    AppendedEdges s s2 (l1 ++ l2) := by
  obtain ⟨c1, n1, o1⟩ := h1
  obtain ⟨c2, n2, o2⟩ := h2
  refine ⟨?_, ?_, ?_⟩
  · rw [c2, c1, List.length_append]; push_cast; ring
  · intro k hk
    by_cases hlt : k < l1.length
    · have := o2 (s.edges_count + k) (by rw [c1]; omega)
      rw [this.1, this.2]
      have e : (l1 ++ l2).get ⟨k, hk⟩ = l1.get ⟨k, hlt⟩ := by
        simp [List.getElem_append_left, hlt]
      rw [e]
      exact n1 k hlt
    · have hk2 : k - l1.length < l2.length := by
        rw [List.length_append] at hk; omega
      have := n2 (k - l1.length) hk2
      have e1 : s1.edges_count + ((k - l1.length : Nat) : Int) = s.edges_count + k := by
        rw [c1]; omega
      rw [e1] at this
      have e : (l1 ++ l2).get ⟨k, hk⟩ = l2.get ⟨k - l1.length, hk2⟩ := by
        simp [List.getElem_append_right, not_lt.mp hlt]
      rw [e]
      exact this
  · intro i hi
    have a := o1 i hi
    have b := o2 i (by rw [c1]; omega)
    exact ⟨b.1.trans a.1, b.2.trans a.2⟩

theorem appendedEdges_same_left {s s1 s2 : LinearizerBase} {l : List MarkedEdge}
    (h1 : SameEdges s s1) (h2 : AppendedEdges s1 s2 l) : AppendedEdges s s2 l := by
  have := appendedEdges_append (appendedEdges_of_same h1) h2
  simpa using this

theorem appendedEdges_same_right {s s1 s2 : LinearizerBase} {l : List MarkedEdge}
    (h1 : AppendedEdges s s1 l) (h2 : SameEdges s1 s2) : AppendedEdges s s2 l := by
  have := appendedEdges_append h1 (appendedEdges_of_same h2)
  simpa using this

/-- A returning `add_edge` appends its edge with its marker. -/
theorem add_edge_appended {iv1 iv2 marker : Int} {s s1 : LinearizerBase}
    (h : LinearizerBase.add_edge iv1 iv2 marker s = .ok () s1) :
    AppendedEdges s s1 [((iv1, iv2), marker)] := by
  obtain ⟨b1, b2, b3, _⟩ := add_edge_frame h
  refine ⟨by rw [b3]; simp, ?_, ?_⟩
  · intro k hk
    have hk0 : k = 0 := by simpa using hk
    subst hk0
    rw [b1, b2]
    simp
  · intro i hi
    rw [b1, b2]
    have : i ≠ s.edges_count := by omega
    simp [this]

theorem add_vertex_same_edges {s s1 : Orderizer} {index : Int}
    (h : Orderizer.add_vertex s = .ok index s1) :
    SameEdges s.toLinearizerBase s1.toLinearizerBase := by
  unfold Orderizer.add_vertex at h
  simp only [Orderizer.realloc] at h
  split_ifs at h <;> simp only [Result.ok.injEq] at h <;> obtain ⟨_, rfl⟩ := h <;>
    exact ⟨rfl, rfl, rfl⟩

theorem make_vert_same_edges {x y val : ℚ} {s s1 : Orderizer} {index : Int}
    (h : Orderizer.make_vert x y val s = .ok index s1) :
    SameEdges s.toLinearizerBase s1.toLinearizerBase := by
  unfold Orderizer.make_vert at h
  obtain ⟨i, s2, h1, h2⟩ := run_bind_ok h
  simp only [Result.ok.injEq] at h2
  obtain ⟨_, rfl⟩ := h2
  exact sameEdges_trans (add_vertex_same_edges h1) ⟨rfl, rfl, rfl⟩

theorem make_label_vert_same_edges {x y val : ℚ} {s s1 : Orderizer}
    (h : Orderizer.make_label_vert x y val s = .ok () s1) :
    SameEdges s.toLinearizerBase s1.toLinearizerBase := by
  unfold Orderizer.make_label_vert at h
  obtain ⟨index, s2, h1, h2⟩ := run_bind_ok h
  simp only [Result.ok.injEq, true_and] at h2
  subst h2
  exact sameEdges_trans (make_vert_same_edges h1) ⟨rfl, rfl, rfl⟩

theorem make_verts_same_edges (x y : Int → ℚ) (o : Int → Int) (pt : Int → Int) (shift : Int) :
    ∀ (l : List Int) (id : Int → Int) (s : Orderizer) (id1 : Int → Int) (s1 : Orderizer),
      Orderizer.make_verts x y o pt shift l id s = .ok id1 s1 →
      SameEdges s.toLinearizerBase s1.toLinearizerBase := by
  intro l
  induction l with
  | nil =>
    intro id s id1 s1 h
    simp only [Orderizer.make_verts, run_pure_def, Result.ok.injEq] at h
    obtain ⟨_, rfl⟩ := h
    exact sameEdges_refl _
  | cons i rest ih =>
    intro id s id1 s1 h
    rw [make_verts_cons] at h
    obtain ⟨index, s2, h1, h2⟩ := run_bind_ok h
    exact sameEdges_trans (make_vert_same_edges h1) (ih _ _ _ _ h2)

theorem base_add_triangle_same_edges {iv0 iv1 iv2 marker : Int} {s s1 : Orderizer}
    (h : Orderizer.base (LinearizerBase.add_triangle iv0 iv1 iv2 marker) s = .ok () s1) :
    SameEdges s.toLinearizerBase s1.toLinearizerBase := by
  obtain ⟨b, hb, rfl⟩ := base_ok h
  obtain ⟨a1, a2, a3, _⟩ := add_triangle_frame hb
  exact ⟨a1, a2, a3⟩

theorem add_element_triangles_same_edges {tab : OrdTables} {e : Element} {id : Int → Int} :
    ∀ {s s1 : Orderizer}, Orderizer.add_element_triangles tab e id s = .ok () s1 →
      SameEdges s.toLinearizerBase s1.toLinearizerBase := by
  unfold Orderizer.add_element_triangles
  generalize loop_range 0 (tab.num_elem e.mode) = l
  induction l with
  | nil =>
    intro s s1 h
    simp only [runSeq, run_pure_def, Result.ok.injEq, true_and] at h
    subst h
    exact sameEdges_refl _
  | cons i rest ih =>
    intro s s1 h
    obtain ⟨_, s2, h1, h2⟩ := run_bind_ok h
    exact sameEdges_trans (base_add_triangle_same_edges h1) (ih h2)

theorem base_add_edge_appended {iv1 iv2 marker : Int} {s s1 : Orderizer}
    (h : Orderizer.base (LinearizerBase.add_edge iv1 iv2 marker) s = .ok () s1) :
    AppendedEdges s.toLinearizerBase s1.toLinearizerBase [((iv1, iv2), marker)] := by
  obtain ⟨b, hb, rfl⟩ := base_ok h
  exact add_edge_appended hb

/-- A loop of guarded `add_edge` calls appends the edges that pass the guard,
in order. -/
theorem runSeq_edges (test : Int → Bool) (f : Int → MarkedEdge) :
    ∀ (l : List Int) (s s1 : Orderizer),
      runSeq (fun i =>
        if test i then Orderizer.base (LinearizerBase.add_edge (f i).1.1 (f i).1.2 (f i).2)
        else pure ()) l s = .ok () s1 →
      AppendedEdges s.toLinearizerBase s1.toLinearizerBase ((l.filter test).map f) := by
  intro l
  induction l with
  | nil =>
    intro s s1 h
    simp only [runSeq, run_pure_def, Result.ok.injEq, true_and] at h
    subst h
    exact appendedEdges_of_same (sameEdges_refl _)
  | cons i rest ih =>
    intro s s1 h
    obtain ⟨_, s2, h1, h2⟩ := run_bind_ok h
    have h3 := ih s2 s1 h2
    by_cases ht : test i = true
    · simp only [ht, if_true] at h1
      have := appendedEdges_append (base_add_edge_appended h1) h3
      simpa [List.filter, ht] using this
    · have ht2 : test i = false := by simpa using ht
      simp only [ht2, Bool.false_eq_true, if_false, run_pure_def, Result.ok.injEq, true_and] at h1
      subst h1
      simpa [List.filter, ht2] using h3

/-- The branch for edge orders and curved elements appends the table edges
that pass the test. -/
theorem element_full_edges (env : OrdEnv) (e : Element) (o : Int → Int) (s : Orderizer)
    (id : Int → Int) (s1 : Orderizer) (h : Orderizer.element_full env e o s = .ok id s1) :
    AppendedEdges s.toLinearizerBase s1.toLinearizerBase
      (((loop_range 0 (env.ord.num_edge e.mode)).filter (e.edge_test env.ord)).map
        (e.table_edge env.ord id)) := by
  unfold Orderizer.element_full at h
  simp only [] at h
  obtain ⟨_, s2, a1, h⟩ := run_bind_ok h
  obtain ⟨id2, s3, a2, h⟩ := run_bind_ok h
  obtain ⟨_, s4, a3, h⟩ := run_bind_ok h
  obtain ⟨_, s5, a4, h⟩ := run_bind_ok h
  simp only [run_pure_def, Result.ok.injEq] at h
  obtain ⟨rfl, rfl⟩ := h
  have k1 := make_label_vert_same_edges a1
  have k2 := make_verts_same_edges _ _ _ _ _ _ _ _ _ _ a2
  have k3 := add_element_triangles_same_edges a3
  have k4 := runSeq_edges (e.edge_test env.ord) (e.table_edge env.ord id2) _ s4 s5 a4
  exact appendedEdges_same_left (sameEdges_trans k1 (sameEdges_trans k2 k3)) k4

/-- The branch for the other elements appends every table edge. -/
theorem element_simple_edges (env : OrdEnv) (e : Element) (o : Int → Int) (s : Orderizer)
    (id : Int → Int) (s1 : Orderizer) (h : Orderizer.element_simple env e o s = .ok id s1) :
    AppendedEdges s.toLinearizerBase s1.toLinearizerBase
      ((loop_range 0 (env.simple.num_edge e.mode)).map (e.table_edge env.simple id)) := by
  unfold Orderizer.element_simple at h
  obtain ⟨_, s2, a1, h⟩ := run_bind_ok h
  obtain ⟨_, s2b, a1b, h⟩ := run_bind_ok h
  obtain ⟨id2, s3, a2, h⟩ := run_bind_ok h
  obtain ⟨_, s4, a3, h⟩ := run_bind_ok h
  obtain ⟨_, s5, a4, h⟩ := run_bind_ok h
  simp only [run_pure_def, Result.ok.injEq] at h
  obtain ⟨rfl, rfl⟩ := h
  have k1 := make_label_vert_same_edges a1
  have k1b := make_label_vert_same_edges a1b
  have k2 := make_verts_same_edges _ _ _ _ _ _ _ _ _ _ a2
  have k3 := add_element_triangles_same_edges a3
  have k4 := runSeq_edges (fun _ => true) (e.table_edge env.simple id2) _ s4 s5 a4
  have e1 : (loop_range 0 (env.simple.num_edge e.mode)).filter (fun _ => true) =
      loop_range 0 (env.simple.num_edge e.mode) := by simp
  rw [e1] at k4
  exact appendedEdges_same_left
    (sameEdges_trans k1 (sameEdges_trans k1b (sameEdges_trans k2 k3))) k4

/-- One iteration of the loop of `process_space` appends the edges listed by
`edge_list`. -/
theorem process_element_edges (env : OrdEnv) (sh : Bool) (e : Element) (o : Int → Int)
    (s : Orderizer) (r : (Int → Int) × (Int → Int)) (s1 : Orderizer)
    (h : Orderizer.process_element env sh e o s = .ok r s1) :
    AppendedEdges s.toLinearizerBase s1.toLinearizerBase (e.edge_list env sh r.2) := by
  unfold Orderizer.process_element at h
  unfold Element.edge_list
  by_cases hf : (sh || e.is_curved) = true
  · simp only [hf, if_true] at h ⊢
    obtain ⟨id, s2, h1, h2⟩ := run_bind_ok h
    simp only [Result.ok.injEq] at h2
    obtain ⟨rfl, rfl⟩ := h2
    exact appendedEdges_same_right (element_full_edges _ _ _ _ _ _ h1) ⟨rfl, rfl, rfl⟩
  · have hf2 : (sh || e.is_curved) = false := by simpa using hf
    simp only [hf2, Bool.false_eq_true, if_false] at h ⊢
    obtain ⟨id, s2, h1, h2⟩ := run_bind_ok h
    simp only [Result.ok.injEq] at h2
    obtain ⟨rfl, rfl⟩ := h2
    exact appendedEdges_same_right (element_simple_edges _ _ _ _ _ _ h1) ⟨rfl, rfl, rfl⟩

/-- The loop over the active elements appends the edges listed by
`edge_lists`. -/
theorem process_elements_edges (env : OrdEnv) (sh : Bool) :
    ∀ (es : List Element) (o : Int → Int) (s : Orderizer) (ids : List (Int → Int))
      (s1 : Orderizer), Orderizer.process_elements env sh es o s = .ok ids s1 →
      AppendedEdges s.toLinearizerBase s1.toLinearizerBase (edge_lists env sh es ids) := by
  intro es
  induction es with
  | nil =>
    intro o s ids s1 h
    simp only [Orderizer.process_elements, run_pure_def, Result.ok.injEq] at h
    obtain ⟨rfl, rfl⟩ := h
    exact appendedEdges_of_same (sameEdges_refl _)
  | cons e rest ih =>
    intro o s ids s1 h
    rw [process_elements_cons] at h
    obtain ⟨r, s2, h1, h⟩ := run_bind_ok h
    obtain ⟨ids2, s3, h2, h⟩ := run_bind_ok h
    simp only [run_pure_def, Result.ok.injEq] at h
    obtain ⟨rfl, rfl⟩ := h
    exact appendedEdges_append (process_element_edges env sh e o s r s2 h1) (ih _ _ _ _ h2)

/-- The edge buffer after a returning `process_space` holds exactly the edges
listed by `edge_lists`, from index 0 on. -/
theorem process_space_edges {env : OrdEnv} {space : Space} {sh : Bool} {s s1 : Orderizer}
    {ids : List (Int → Int)}
    (h : Orderizer.process_space env (some space) sh s = .ok ids s1) :
    s1.edges_count = (edge_lists env sh space.mesh.active ids).length ∧
    ∀ (k : Nat) (hk : k < (edge_lists env sh space.mesh.active ids).length),
      s1.edges k = ((edge_lists env sh space.mesh.active ids).get ⟨k, hk⟩).1 ∧
      s1.edge_markers k = ((edge_lists env sh space.mesh.active ids).get ⟨k, hk⟩).2 := by
  obtain ⟨s0, h0, h2⟩ := process_space_ok h
  have hc := (orderizer_reallocate_common_ok h0).2.2.2.2.2.1
  obtain ⟨c, n, _⟩ := process_elements_edges env sh _ _ s0 ids s1 h2
  rw [hc] at c n
  refine ⟨by simpa using c, fun k hk => ?_⟩
  have := n k hk
  simpa using this

/-- The unit square in the simple mode: the vertex indices in the two `id`
arrays, and the coordinates these vertices carry after the pass. -/
theorem unit_square_ids (id1 id2 : Int → Int) (s1 : Orderizer)
    (h : Orderizer.process_space corner_env (some unit_square) false
      (Orderizer.new true fun _ => true) = .ok [id1, id2] s1) :
    ∀ j, 0 ≤ j → j < 3 →
      id1 j = 2 + j ∧ id2 j = 7 + j ∧
      ((s1.verts (id1 j)).1, (s1.verts (id1 j)).2.1) = lower_triangle.point false j ∧
      ((s1.verts (id2 j)).1, (s1.verts (id2 j)).2.1) = upper_triangle.point false j := by
  obtain ⟨s0, h0, h2⟩ := process_space_ok h
  obtain ⟨s0b, h0b, hv, _⟩ := reallocate_common_returns unit_square.mesh.num_elements
    (Orderizer.new true fun _ => true) (fun _ => rfl)
  have e0 : s0 = s0b := by
    rw [h0] at h0b
    simp only [Result.ok.injEq, true_and] at h0b
    exact h0b
  subst e0
  have h3 : Orderizer.process_elements corner_env false [lower_triangle, upper_triangle]
      corner_env.garbage s0 = .ok [id1, id2] s1 := h2
  obtain ⟨_, _, hco⟩ := process_elements_ok corner_env false _ _ s0 _ s1 h3
  rw [process_elements_cons] at h3
  obtain ⟨r1, s2, a1, h3⟩ := run_bind_ok h3
  obtain ⟨ids2, s3, a2, h3⟩ := run_bind_ok h3
  simp only [run_pure_def, Result.ok.injEq, List.cons.injEq] at h3
  obtain ⟨⟨e1, rfl⟩, rfl⟩ := h3
  rw [process_elements_cons] at a2
  obtain ⟨r2, s4, a3, a2⟩ := run_bind_ok a2
  obtain ⟨ids3, s5, _, a2⟩ := run_bind_ok a2
  simp only [run_pure_def, Result.ok.injEq, List.cons.injEq] at a2
  obtain ⟨⟨e2, _⟩, _⟩ := a2
  obtain ⟨_, c1, i1⟩ := process_element_ok _ _ _ _ _ _ _ a1
  obtain ⟨_, _, i2⟩ := process_element_ok _ _ _ _ _ _ _ a3
  have l1 : lower_triangle.label_verts false = 2 := by decide
  have l2 : upper_triangle.label_verts false = 2 := by decide
  have n1 : lower_triangle.id_count corner_env false = 3 := by decide
  have n2 : upper_triangle.id_count corner_env false = 3 := by decide
  rw [l1, n1, hv] at c1
  intro j j0 j1
  have k1 := (i1 j j0 (by rw [n1]; exact j1)).1
  have k2 := (i2 j j0 (by rw [n2]; exact j1)).1
  rw [l1, hv, e1] at k1
  rw [l2, c1, e2] at k2
  have p1 := (hco 0 id1 lower_triangle rfl rfl j j0 (by rw [n1]; exact j1)).2.2
  have p2 := (hco 1 id2 upper_triangle rfl rfl j j0 (by rw [n2]; exact j1)).2.2
  refine ⟨by rw [k1]; omega, by rw [k2]; simp, p1, p2⟩

theorem unit_square_edge_lists (id1 id2 : Int → Int) :
    edge_lists corner_env false unit_square.mesh.active [id1, id2] =
      [((id1 0, id1 1), 0), ((id1 1, id1 2), 0), ((id1 2, id1 0), 0),
        ((id2 0, id2 1), 0), ((id2 1, id2 2), 0), ((id2 2, id2 0), 0)] := rfl

/-- C23, the failing input evaluated: the unit square cut into two straight
triangles, processed in the simple mode.  The edge buffer holds six edges; the
interior edge between (1,0) and (0,1) is there twice, at index 1 from (1,0) to
(0,1) as an edge of the first triangle and at index 5 from (0,1) to (1,0) as
an edge of the second one. -/
theorem process_space_shared_edge_twice :
    lower_triangle.en_bnd 1 = false ∧ upper_triangle.en_bnd 2 = false ∧
    ∃ id1 id2 s1,
      Orderizer.process_space corner_env (some unit_square) false
        (Orderizer.new true fun _ => true) = .ok [id1, id2] s1 ∧
      s1.edges_count = 6 ∧
      s1.edges 1 = (id1 1, id1 2) ∧ s1.edges 5 = (id2 2, id2 0) ∧
      ((s1.verts (id1 1)).1, (s1.verts (id1 1)).2.1) = (1, 0) ∧
      ((s1.verts (id1 2)).1, (s1.verts (id1 2)).2.1) = (0, 1) ∧
      ((s1.verts (id2 2)).1, (s1.verts (id2 2)).2.1) = (0, 1) ∧
      ((s1.verts (id2 0)).1, (s1.verts (id2 0)).2.1) = (1, 0) := by
  obtain ⟨id1, id2, s1, h⟩ := unit_square_run
  obtain ⟨hc, hn⟩ := process_space_edges h
  have hids := unit_square_ids id1 id2 s1 h
  rw [unit_square_edge_lists] at hc
  have g1 := (hn 1 (by rw [unit_square_edge_lists]; simp)).1
  have g5 := (hn 5 (by rw [unit_square_edge_lists]; simp)).1
  simp only [unit_square_edge_lists] at g1 g5
  refine ⟨rfl, rfl, id1, id2, s1, h, hc, g1, g5, ?_, ?_, ?_, ?_⟩
  · rw [(hids 1 (by decide) (by decide)).2.2.1]; decide
  · rw [(hids 2 (by decide) (by decide)).2.2.1]; decide
  · rw [(hids 2 (by decide) (by decide)).2.2.2]; decide
  · rw [(hids 0 (by decide) (by decide)).2.2.2]; decide

/-! ### The VTK exports -/

theorem loop_range_const {α : Type} (n : Int) (c : α) :
    (loop_range 0 n).map (fun (_ : Int) => c) = List.replicate n.toNat c := by
  rw [List.map_const', loop_range_length]
  simp

theorem vtk_constants :
    "SCALARS " ++ "Mesh" ++ " " ++ "float" ++ " " ++ fmt_d 1 ++ "\n" = "SCALARS Mesh float 1\n" ∧
    "LOOKUP_TABLE " ++ "default" ++ "\n" = "LOOKUP_TABLE default\n" := by
  decide

/-- The text of a returning `save_mesh_vtk`. -/
theorem save_mesh_vtk_ok {env : OrdEnv} {fmt_g : ℚ → String} {space : Option Space}
    {file_opens : Bool} {s s1 : Orderizer} {text : List String}
    (h : Orderizer.save_mesh_vtk env fmt_g space file_opens s = .ok text s1) :
    (∃ ids, Orderizer.process_space env space false s = .ok ids s1) ∧
    text =
      ["# vtk DataFile Version 2.0\n", "\n", "ASCII\n\n", "DATASET UNSTRUCTURED_GRID\n"] ++
      ["POINTS " ++ fmt_d s1.vertex_count ++ " " ++ "float" ++ "\n"] ++
      (loop_range 0 s1.vertex_count).map (fun (i : Int) =>
        fmt_g (s1.verts i).1 ++ " " ++ fmt_g (s1.verts i).2.1 ++ " " ++ fmt_g 0 ++ "\n") ++
      ["\n", "CELLS " ++ fmt_d s1.edges_count ++ " " ++ fmt_d (3 * s1.edges_count) ++ "\n"] ++
      (loop_range 0 s1.edges_count).map (fun (i : Int) =>
        "2 " ++ fmt_d (s1.edges i).1 ++ " " ++ fmt_d (s1.edges i).2 ++ "\n") ++
      ["\n", "CELL_TYPES " ++ fmt_d s1.edges_count ++ "\n"] ++
      List.replicate s1.edges_count.toNat "3\n" ++
      ["\n", "CELL_DATA " ++ fmt_d s1.edges_count ++ "\n", "SCALARS Mesh float 1\n",
        "LOOKUP_TABLE default\n"] ++
      List.replicate s1.edges_count.toNat "0 \n" := by
  unfold Orderizer.save_mesh_vtk at h
  obtain ⟨ids, s2, h1, h2⟩ := run_bind_ok h
  by_cases hf : file_opens = true
  · simp only [hf, Bool.not_true, Bool.false_eq_true, if_false, Result.ok.injEq] at h2
    obtain ⟨rfl, rfl⟩ := h2
    refine ⟨⟨ids, h1⟩, ?_⟩
    rw [loop_range_const, loop_range_const, vtk_constants.1, vtk_constants.2]
  · have hf2 : file_opens = false := by simpa using hf
    simp only [hf2, Bool.not_false, if_true] at h2
    cases h2


/-- The text of a returning `save_markers_vtk` ends with one entry per
triangle, the marker of the triangle. -/
theorem save_markers_vtk_ok {env : OrdEnv} {fmt_g : ℚ → String} {space : Option Space}
    {file_opens : Bool} {s s1 : Orderizer} {text : List String}
    (h : Orderizer.save_markers_vtk env fmt_g space file_opens s = .ok text s1) :
    ∃ pre, text = pre ++
      ["\n", "CELL_DATA " ++ fmt_d s1.triangle_count ++ "\n", "SCALARS Mesh float 1\n",
        "LOOKUP_TABLE default\n"] ++
      (loop_range 0 s1.triangle_count).map (fun (i : Int) => fmt_d (s1.tri_markers i) ++ " \n") := by
  unfold Orderizer.save_markers_vtk at h
  obtain ⟨ids, s2, h1, h2⟩ := run_bind_ok h
  by_cases hf : file_opens = true
  · simp only [hf, Bool.not_true, Bool.false_eq_true, if_false, Result.ok.injEq] at h2
    obtain ⟨rfl, rfl⟩ := h2
    rw [vtk_constants.1, vtk_constants.2]
    exact ⟨_, rfl⟩
  · have hf2 : file_opens = false := by simpa using hf
    simp only [hf2, Bool.not_false, if_true] at h2
    cases h2

/-- When `process_space` returns and the file opens, `save_mesh_vtk` returns. -/
theorem save_mesh_vtk_returns {env : OrdEnv} (fmt_g : ℚ → String) {space : Option Space}
    {s s1 : Orderizer} {ids : List (Int → Int)}
    (h : Orderizer.process_space env space false s = .ok ids s1) :
    ∃ text, Orderizer.save_mesh_vtk env fmt_g space true s = .ok text s1 := by
  unfold Orderizer.save_mesh_vtk
  rw [run_bind_returns h]
  exact ⟨_, rfl⟩

/-- C24, as the code has it: the text written by a returning `save_mesh_vtk`
consists of the header, one line per vertex, the header
`CELLS edges_count 3*edges_count`, one line per edge, the header
`CELL_TYPES edges_count`, the cell type code 3 once per edge, and a
`CELL_DATA` scalar block with exactly `edges_count` entries, each of them the
constant 0, whatever `edge_markers` holds. -/
theorem save_mesh_vtk_cell_data {env : OrdEnv} {fmt_g : ℚ → String} {space : Option Space}
    {file_opens : Bool} {s s1 : Orderizer} {text : List String}
    (h : Orderizer.save_mesh_vtk env fmt_g space file_opens s = .ok text s1) :
    ∃ points lines : List String,
      points.length = s1.vertex_count.toNat ∧ lines.length = s1.edges_count.toNat ∧
      text =
        ["# vtk DataFile Version 2.0\n", "\n", "ASCII\n\n", "DATASET UNSTRUCTURED_GRID\n"] ++
        ["POINTS " ++ fmt_d s1.vertex_count ++ " " ++ "float" ++ "\n"] ++ points ++
        ["\n", "CELLS " ++ fmt_d s1.edges_count ++ " " ++ fmt_d (3 * s1.edges_count) ++ "\n"] ++
        lines ++
        ["\n", "CELL_TYPES " ++ fmt_d s1.edges_count ++ "\n"] ++
        List.replicate s1.edges_count.toNat "3\n" ++
        ["\n", "CELL_DATA " ++ fmt_d s1.edges_count ++ "\n", "SCALARS Mesh float 1\n",
          "LOOKUP_TABLE default\n"] ++
        List.replicate s1.edges_count.toNat "0 \n" := by
  obtain ⟨_, ht⟩ := save_mesh_vtk_ok h
  exact ⟨_, _, by rw [List.length_map, loop_range_length]; simp,
    by rw [List.length_map, loop_range_length]; simp, ht⟩

theorem marked_space_run :
    ∃ id s1, Orderizer.process_space corner_env (some marked_space) false
      (Orderizer.new true fun _ => true) = .ok [id] s1 := by
  obtain ⟨ids, s1, h⟩ := process_space_returns corner_env marked_space false
    (Orderizer.new true fun _ => true) (fun _ => rfl) rfl
  obtain ⟨s0, _, h2⟩ := process_space_ok h
  obtain ⟨_, hl, _⟩ := process_elements_ok corner_env false _ _ s0 ids s1 h2
  have hl2 : ids.length = 1 := hl
  match ids, hl2 with
  | [id], _ => exact ⟨id, s1, h⟩

theorem marked_space_edge_lists (id : Int → Int) :
    edge_lists corner_env false marked_space.mesh.active [id] =
      [((id 0, id 1), 5), ((id 1, id 2), 5), ((id 2, id 0), 5)] := rfl

/-- C24, instance: the export of the one-triangle mesh `marked_space`. -/
theorem save_mesh_vtk_cell_data_witness :
    ∃ text s1,
      Orderizer.save_mesh_vtk corner_env integer_part (some marked_space) true
        (Orderizer.new true fun _ => true) = .ok text s1 ∧
      ∃ points lines : List String,
        points.length = s1.vertex_count.toNat ∧ lines.length = s1.edges_count.toNat ∧
        text =
          ["# vtk DataFile Version 2.0\n", "\n", "ASCII\n\n", "DATASET UNSTRUCTURED_GRID\n"] ++
          ["POINTS " ++ fmt_d s1.vertex_count ++ " " ++ "float" ++ "\n"] ++ points ++
          ["\n", "CELLS " ++ fmt_d s1.edges_count ++ " " ++ fmt_d (3 * s1.edges_count) ++ "\n"] ++
          lines ++
          ["\n", "CELL_TYPES " ++ fmt_d s1.edges_count ++ "\n"] ++
          List.replicate s1.edges_count.toNat "3\n" ++
          ["\n", "CELL_DATA " ++ fmt_d s1.edges_count ++ "\n", "SCALARS Mesh float 1\n",
            "LOOKUP_TABLE default\n"] ++
          List.replicate s1.edges_count.toNat "0 \n" :=
  marked_space_run.elim fun _ h => h.elim fun s1 h =>
    (save_mesh_vtk_returns integer_part h).elim fun text ht =>
      ⟨text, s1, ht, save_mesh_vtk_cell_data ht⟩

/-- C24, counterexample: the mesh of one triangle whose three edges carry the
marker 5.  After the export `edge_markers` holds 5, 5, 5, and the `CELL_DATA`
block of the text has the three entries 0, 0, 0. -/
theorem save_mesh_vtk_cell_data_counterexample :
    ∃ text s1 pre,
      Orderizer.save_mesh_vtk corner_env integer_part (some marked_space) true
        (Orderizer.new true fun _ => true) = .ok text s1 ∧
      s1.edges_count = 3 ∧
      s1.edge_markers 0 = 5 ∧ s1.edge_markers 1 = 5 ∧ s1.edge_markers 2 = 5 ∧
      text = pre ++ ["CELL_DATA 3\n", "SCALARS Mesh float 1\n", "LOOKUP_TABLE default\n",
        "0 \n", "0 \n", "0 \n"] := by
  obtain ⟨id, s1, h⟩ := marked_space_run
  obtain ⟨text, ht⟩ := save_mesh_vtk_returns integer_part h
  obtain ⟨hc, hn⟩ := process_space_edges h
  rw [marked_space_edge_lists] at hc
  have hc3 : s1.edges_count = 3 := hc
  have g0 := (hn 0 (by rw [marked_space_edge_lists]; simp)).2
  have g1 := (hn 1 (by rw [marked_space_edge_lists]; simp)).2
  have g2 := (hn 2 (by rw [marked_space_edge_lists]; simp)).2
  simp only [marked_space_edge_lists] at g0 g1 g2
  obtain ⟨_, e⟩ := save_mesh_vtk_ok ht
  rw [hc3] at e
  have e3 : "CELL_DATA " ++ fmt_d 3 ++ "\n" = "CELL_DATA 3\n" := by decide
  have r3 : List.replicate (3 : Int).toNat "0 \n" = ["0 \n", "0 \n", "0 \n"] := rfl
  rw [e3, r3] at e
  have split : ∀ (a : List String) (y : String) (b c : List String),
      ∃ pre, a ++ (y :: b) ++ c = pre ++ (b ++ c) := fun a y b c => ⟨a ++ [y], by simp⟩
  obtain ⟨pre, hp⟩ := split
    (["# vtk DataFile Version 2.0\n", "\n", "ASCII\n\n", "DATASET UNSTRUCTURED_GRID\n"] ++
      ["POINTS " ++ fmt_d s1.vertex_count ++ " " ++ "float" ++ "\n"] ++
      (loop_range 0 s1.vertex_count).map (fun (i : Int) =>
        integer_part (s1.verts i).1 ++ " " ++ integer_part (s1.verts i).2.1 ++ " " ++
          integer_part 0 ++ "\n") ++
      ["\n", "CELLS " ++ fmt_d 3 ++ " " ++ fmt_d (3 * 3) ++ "\n"] ++
      (loop_range 0 3).map (fun (i : Int) =>
        "2 " ++ fmt_d (s1.edges i).1 ++ " " ++ fmt_d (s1.edges i).2 ++ "\n") ++
      ["\n", "CELL_TYPES " ++ fmt_d 3 ++ "\n"] ++
      List.replicate (3 : Int).toNat "3\n")
    "\n" ["CELL_DATA 3\n", "SCALARS Mesh float 1\n", "LOOKUP_TABLE default\n"]
    ["0 \n", "0 \n", "0 \n"]
  exact ⟨text, s1, pre, ht, hc3, by simpa using g0, by simpa using g1, by simpa using g2,
    e.trans hp⟩

/-! ### The label table -/

theorem mem_loop_range (lo hi i : Int) : i ∈ loop_range lo hi ↔ lo ≤ i ∧ i < hi := by
  unfold loop_range
  simp only [List.mem_map, List.mem_range]
  constructor
  · rintro ⟨k, hk, rfl⟩
    omega
  · rintro ⟨h1, h2⟩
    exact ⟨(i - lo).toNat, by omega, by omega⟩

/-- The label loop evaluated: it runs through and ends at offset 483; every
entry of `labels` is an offset below 995 at which the expected text stands,
NUL included within the 1000 bytes; and in the order of the loops every string
starts right after the NUL of the one before. -/
theorem label_table_eval :
    (label_table.map fun t =>
      decide (t.p = 483 ∧
        (∀ i ∈ loop_range 0 11, ∀ j ∈ loop_range 0 11,
          0 ≤ t.labels i j ∧ t.labels i j < 995 ∧
          t.string i j = some (expected_label i j) ∧
          t.labels i j + ((expected_label i j).length : Int) + 1 ≤ 1000) ∧
        ∀ n ∈ List.range 120,
          t.labels (((n + 1 : Nat) : Int) / 11) (((n + 1 : Nat) : Int) % 11) =
            t.labels ((n : Int) / 11) ((n : Int) % 11) +
              ((expected_label ((n : Int) / 11) ((n : Int) % 11)).length : Int) + 1)) =
      some true := by
  decide!

theorem label_table_some :
    ∃ t, label_table = some t ∧ t.p = 483 ∧
      (∀ i j, 0 ≤ i → i ≤ 10 → 0 ≤ j → j ≤ 10 →
        0 ≤ t.labels i j ∧ t.labels i j < 995 ∧
        t.string i j = some (expected_label i j) ∧
        t.labels i j + ((expected_label i j).length : Int) + 1 ≤ 1000) ∧
      ∀ n : Nat, n < 120 →
        t.labels (((n + 1 : Nat) : Int) / 11) (((n + 1 : Nat) : Int) % 11) =
          t.labels ((n : Int) / 11) ((n : Int) % 11) +
            ((expected_label ((n : Int) / 11) ((n : Int) % 11)).length : Int) + 1 := by
  have h := label_table_eval
  cases ht : label_table with
  | none => rw [ht] at h; cases h
  | some t =>
    rw [ht] at h
    simp only [Option.map_some', Option.some.injEq, decide_eq_true_eq] at h
    obtain ⟨h1, h2, h3⟩ := h
    refine ⟨t, rfl, h1, ?_, ?_⟩
    · intro i j i0 i1 j0 j1
      exact h2 i ((mem_loop_range 0 11 i).mpr ⟨i0, by omega⟩) j
        ((mem_loop_range 0 11 j).mpr ⟨j0, by omega⟩)
    · intro n hn
      exact h3 n (List.mem_range.mpr hn)

/-- Strings later in the order of the loops start after the NUL of earlier
ones. -/
theorem labels_increasing (t : LabelTable)
    (h : ∀ n : Nat, n < 120 →
      t.labels (((n + 1 : Nat) : Int) / 11) (((n + 1 : Nat) : Int) % 11) =
        t.labels ((n : Int) / 11) ((n : Int) % 11) +
          ((expected_label ((n : Int) / 11) ((n : Int) % 11)).length : Int) + 1) :
    ∀ (m n : Nat), n < m → m ≤ 120 →
      t.labels ((n : Int) / 11) ((n : Int) % 11) +
        ((expected_label ((n : Int) / 11) ((n : Int) % 11)).length : Int) + 1 ≤
      t.labels ((m : Int) / 11) ((m : Int) % 11) := by
  intro m
  induction m with
  | zero => intro n hn; omega
  | succ m ih =>
    intro n hn hm
    have hs := h m (by omega)
    by_cases hnm : n = m
    · subst hnm
      rw [hs]
    · have := ih n (by omega) (by omega)
      rw [hs]
      have : (0 : Int) ≤ ((expected_label ((m : Int) / 11) ((m : Int) % 11)).length : Int) :=
        Int.ofNat_nonneg _
      omega

theorem labels_disjoint (t : LabelTable)
    (h : ∀ n : Nat, n < 120 →
      t.labels (((n + 1 : Nat) : Int) / 11) (((n + 1 : Nat) : Int) % 11) =
        t.labels ((n : Int) / 11) ((n : Int) % 11) +
          ((expected_label ((n : Int) / 11) ((n : Int) % 11)).length : Int) + 1)
    (i j i2 j2 : Int) (i0 : 0 ≤ i) (i1 : i ≤ 10) (j0 : 0 ≤ j) (j1 : j ≤ 10)
    (k0 : 0 ≤ i2) (k1 : i2 ≤ 10) (l0 : 0 ≤ j2) (l1 : j2 ≤ 10) (hne : (i, j) ≠ (i2, j2)) :
    t.labels i j + ((expected_label i j).length : Int) + 1 ≤ t.labels i2 j2 ∨
    t.labels i2 j2 + ((expected_label i2 j2).length : Int) + 1 ≤ t.labels i j := by
  have hinc := labels_increasing t h
  have e1 : (((11 * i + j).toNat : Nat) : Int) = 11 * i + j := by omega
  have e2 : (((11 * i2 + j2).toNat : Nat) : Int) = 11 * i2 + j2 := by omega
  have d1 : (11 * i + j) / 11 = i := by omega
  have d2 : (11 * i + j) % 11 = j := by omega
  have d3 : (11 * i2 + j2) / 11 = i2 := by omega
  have d4 : (11 * i2 + j2) % 11 = j2 := by omega
  have hne2 : 11 * i + j ≠ 11 * i2 + j2 := by
    intro heq
    apply hne
    have a : i = i2 := by omega
    have b : j = j2 := by omega
    rw [a, b]
  rcases lt_or_gt_of_ne hne2 with hlt | hgt
  · left
    have := hinc (11 * i2 + j2).toNat (11 * i + j).toNat (by omega) (by omega)
    rw [e1, e2, d1, d2, d3, d4] at this
    exact this
  · right
    have := hinc (11 * i + j).toNat (11 * i2 + j2).toNat (by omega) (by omega)
    rw [e1, e2, d1, d2, d3, d4] at this
    exact this

/-- C29: the label table fits its buffer.  The loops of the constructor run
through without a failing assertion and end at offset 483; the offset `p` at
the start of each of the 121 iterations, which is the entry of `labels` set in
that iteration, is below 995, and the string written there, its NUL included,
lies within the 1000 bytes of the buffer. -/
theorem label_table_fits :
    ∃ t, label_table = some t ∧ t.p = 483 ∧
      ∀ i j, 0 ≤ i → i ≤ 10 → 0 ≤ j → j ≤ 10 →
        0 ≤ t.labels i j ∧ t.labels i j < 995 ∧
        ∃ text, t.string i j = some text ∧ t.labels i j + (text.length : Int) + 1 ≤ 1000 := by
  obtain ⟨t, ht, hp, hl, _⟩ := label_table_some
  refine ⟨t, ht, hp, fun i j i0 i1 j0 j1 => ?_⟩
  obtain ⟨a, b, c, d⟩ := hl i j i0 i1 j0 j1
  exact ⟨a, b, _, c, d⟩

/-! ### The label of an element -/

theorem sameLabels_refl (s : Orderizer) : SameLabels s s := ⟨rfl, rfl, rfl⟩

theorem sameLabels_trans {s s1 s2 : Orderizer} (h1 : SameLabels s s1) (h2 : SameLabels s1 s2) :
    SameLabels s s2 :=
  ⟨h2.1.trans h1.1, h2.2.1.trans h1.2.1, h2.2.2.trans h1.2.2⟩

/-- A sequence of steps each of which is in a reflexive and transitive relation
is in that relation. -/
theorem runSeq_rel {α : Type} (R : Orderizer → Orderizer → Prop) (hrefl : ∀ s, R s s)
    (htrans : ∀ s s1 s2, R s s1 → R s1 s2 → R s s2) (f : α → Run Orderizer Unit)
    (hf : ∀ a s s1, f a s = .ok () s1 → R s s1) :
    ∀ (l : List α) (s s1 : Orderizer), runSeq f l s = .ok () s1 → R s s1 := by
  intro l
  induction l with
  | nil =>
    intro s s1 h
    simp only [runSeq, run_pure_def, Result.ok.injEq, true_and] at h
    subst h
    exact hrefl _
  | cons a rest ih =>
    intro s s1 h
    obtain ⟨_, s2, h1, h2⟩ := run_bind_ok h
    exact htrans _ _ _ (hf a s s2 h1) (ih s2 s1 h2)

theorem base_same_labels {α : Type} {m : Run LinearizerBase α} {s s1 : Orderizer} {a : α}
    (h : Orderizer.base m s = .ok a s1) : SameLabels s s1 := by
  obtain ⟨b, _, rfl⟩ := base_ok h
  exact ⟨rfl, rfl, rfl⟩

theorem add_vertex_same_labels {s s1 : Orderizer} {index : Int}
    (h : Orderizer.add_vertex s = .ok index s1) : SameLabels s s1 := by
  unfold Orderizer.add_vertex at h
  simp only [Orderizer.realloc] at h
  split_ifs at h <;> simp only [Result.ok.injEq] at h <;> obtain ⟨_, rfl⟩ := h <;>
    exact ⟨rfl, rfl, rfl⟩

theorem make_vert_same_labels {x y val : ℚ} {s s1 : Orderizer} {index : Int}
    (h : Orderizer.make_vert x y val s = .ok index s1) : SameLabels s s1 := by
  unfold Orderizer.make_vert at h
  obtain ⟨i, s2, h1, h2⟩ := run_bind_ok h
  simp only [Result.ok.injEq] at h2
  obtain ⟨_, rfl⟩ := h2
  exact sameLabels_trans (add_vertex_same_labels h1) ⟨rfl, rfl, rfl⟩

theorem make_label_vert_same_labels {x y val : ℚ} {s s1 : Orderizer}
    (h : Orderizer.make_label_vert x y val s = .ok () s1) : SameLabels s s1 := by
  unfold Orderizer.make_label_vert at h
  obtain ⟨index, s2, h1, h2⟩ := run_bind_ok h
  simp only [Result.ok.injEq, true_and] at h2
  subst h2
  exact sameLabels_trans (make_vert_same_labels h1) ⟨rfl, rfl, rfl⟩

theorem make_verts_same_labels (x y : Int → ℚ) (o : Int → Int) (pt : Int → Int) (shift : Int) :
    ∀ (l : List Int) (id : Int → Int) (s : Orderizer) (id1 : Int → Int) (s1 : Orderizer),
      Orderizer.make_verts x y o pt shift l id s = .ok id1 s1 → SameLabels s s1 := by
  intro l
  induction l with
  | nil =>
    intro id s id1 s1 h
    simp only [Orderizer.make_verts, run_pure_def, Result.ok.injEq] at h
    obtain ⟨_, rfl⟩ := h
    exact sameLabels_refl _
  | cons i rest ih =>
    intro id s id1 s1 h
    rw [make_verts_cons] at h
    obtain ⟨index, s2, h1, h2⟩ := run_bind_ok h
    exact sameLabels_trans (make_vert_same_labels h1) (ih _ _ _ _ h2)

theorem element_full_same_labels (env : OrdEnv) (e : Element) (o : Int → Int) (s : Orderizer)
    (id : Int → Int) (s1 : Orderizer) (h : Orderizer.element_full env e o s = .ok id s1) :
    SameLabels s s1 := by
  unfold Orderizer.element_full at h
  simp only [] at h
  obtain ⟨_, s2, a1, h⟩ := run_bind_ok h
  obtain ⟨id2, s3, a2, h⟩ := run_bind_ok h
  obtain ⟨_, s4, a3, h⟩ := run_bind_ok h
  obtain ⟨_, s5, a4, h⟩ := run_bind_ok h
  simp only [run_pure_def, Result.ok.injEq] at h
  obtain ⟨rfl, rfl⟩ := h
  have k1 := make_label_vert_same_labels a1
  have k2 := make_verts_same_labels _ _ _ _ _ _ _ _ _ _ a2
  have k3 := runSeq_rel SameLabels sameLabels_refl (fun _ _ _ => sameLabels_trans) _
    (fun _ _ _ h => base_same_labels h) _ s3 s4 a3
  have k4 := runSeq_rel SameLabels sameLabels_refl (fun _ _ _ => sameLabels_trans) _
    (fun i s s1 h => by
      split_ifs at h
      · exact base_same_labels h
      · simp only [run_pure_def, Result.ok.injEq, true_and] at h
        subst h
        exact sameLabels_refl _) _ s4 s5 a4
  exact sameLabels_trans k1 (sameLabels_trans k2 (sameLabels_trans k3 k4))

theorem element_simple_same_labels (env : OrdEnv) (e : Element) (o : Int → Int) (s : Orderizer)
    (id : Int → Int) (s1 : Orderizer) (h : Orderizer.element_simple env e o s = .ok id s1) :
    SameLabels s s1 := by
  unfold Orderizer.element_simple at h
  obtain ⟨_, s2, a1, h⟩ := run_bind_ok h
  obtain ⟨_, s2b, a1b, h⟩ := run_bind_ok h
  obtain ⟨id2, s3, a2, h⟩ := run_bind_ok h
  obtain ⟨_, s4, a3, h⟩ := run_bind_ok h
  obtain ⟨_, s5, a4, h⟩ := run_bind_ok h
  simp only [run_pure_def, Result.ok.injEq] at h
  obtain ⟨rfl, rfl⟩ := h
  have k1 := make_label_vert_same_labels a1
  have k1b := make_label_vert_same_labels a1b
  have k2 := make_verts_same_labels _ _ _ _ _ _ _ _ _ _ a2
  have k3 := runSeq_rel SameLabels sameLabels_refl (fun _ _ _ => sameLabels_trans) _
    (fun _ _ _ h => base_same_labels h) _ s3 s4 a3
  have k4 := runSeq_rel SameLabels sameLabels_refl (fun _ _ _ => sameLabels_trans) _
    (fun _ _ _ h => base_same_labels h) _ s4 s5 a4
  exact sameLabels_trans k1 (sameLabels_trans k1b (sameLabels_trans k2 (sameLabels_trans k3 k4)))

theorem foldl_set_at_other {α : Type} (f : Int → α) (m : Int) :
    ∀ (l : List Int) (o : Int → α), (∀ k ∈ l, k ≠ m) →
      (l.foldl (fun o k => set_at o k (f k)) o) m = o m := by
  intro l
  induction l with
  | nil => intro o _; rfl
  | cons k rest ih =>
    intro o h
    rw [List.foldl_cons, ih _ (fun k2 hk2 => h k2 (List.mem_cons_of_mem _ hk2))]
    have : m ≠ k := fun e => h k (List.mem_cons_self _ _) e.symm
    simp [set_at, this]

/-- The slots 4 and 5 of the array `o`, which select the label: the horizontal
and the vertical order of a quadrilateral, twice the order of a triangle. -/
theorem element_orders_label (env : OrdEnv) (sh : Bool) (e : Element) (o : Int → Int)
    (hn : e.nvert ≤ 4) :
    (element_orders env sh e o 4, element_orders env sh e o 5) =
      if e.is_quad then (env.h_order e.element_order, env.v_order e.element_order)
      else (e.element_order, e.element_order) := by
  have hk : ∀ m : Int, 4 ≤ m → ∀ k ∈ loop_range 0 (e.nvert : Int), k ≠ m := by
    intro m hm k hk
    have := (mem_loop_range 0 _ k).mp hk
    omega
  unfold element_orders
  by_cases hq : e.is_quad = true
  · simp [hq, set_at]
  · have hq2 : e.is_quad = false := by simpa using hq
    simp only [hq2, Bool.false_eq_true, if_false]
    split_ifs <;>
      simp [foldl_set_at_other _ 4 _ _ (hk 4 (by omega)),
        foldl_set_at_other _ 5 _ _ (hk 5 (by omega)), set_at]

/-- One iteration of the loop of `process_space` stores the label selected by
the slots 4 and 5 of `o` at the old label count and increments the count. -/
theorem process_element_label (env : OrdEnv) (sh : Bool) (e : Element) (o : Int → Int)
    (s : Orderizer) (r : (Int → Int) × (Int → Int)) (s1 : Orderizer) (hn : e.nvert ≤ 4)
    (h : Orderizer.process_element env sh e o s = .ok r s1) :
    s1.ltext s.label_count =
      (if e.is_quad then (env.h_order e.element_order, env.v_order e.element_order)
       else (e.element_order, e.element_order)) ∧
    s1.label_count = s.label_count + 1 := by
  rw [← element_orders_label env sh e o hn]
  unfold Orderizer.process_element at h
  by_cases hf : (sh || e.is_curved) = true
  · simp only [hf, if_true] at h
    obtain ⟨id, s2, h1, h2⟩ := run_bind_ok h
    simp only [Result.ok.injEq] at h2
    obtain ⟨rfl, rfl⟩ := h2
    obtain ⟨c, _, _⟩ := element_full_same_labels _ _ _ _ _ _ h1
    simp [set_at, c]
  · have hf2 : (sh || e.is_curved) = false := by simpa using hf
    simp only [hf2, Bool.false_eq_true, if_false] at h
    obtain ⟨id, s2, h1, h2⟩ := run_bind_ok h
    simp only [Result.ok.injEq] at h2
    obtain ⟨rfl, rfl⟩ := h2
    obtain ⟨c, _, _⟩ := element_simple_same_labels _ _ _ _ _ _ h1
    simp [set_at, c]


/-- C25: the precomputed label table.  The loops of the constructor leave, for
all `i`, `j` in 0..10, at `labels[i][j]` the NUL-terminated decimal numeral of
`i` when `i = j` and the numerals of `i` and `j` with a vertical bar between
them otherwise, and no two of the 121 strings overlap.  An iteration of the
loop of `process_space` stores, at the old label count, the entry
`labels[h][v]` for a quadrilateral of horizontal order `h` and vertical order
`v`, and the entry `labels[order][order]` for a triangle. -/
theorem label_table_contents (env : OrdEnv) (sh : Bool) (e : Element) (o : Int → Int)
    (s : Orderizer) (r : (Int → Int) × (Int → Int)) (s1 : Orderizer) (hn : e.nvert ≤ 4)
    (h : Orderizer.process_element env sh e o s = .ok r s1) :
    (∃ t, label_table = some t ∧ t.HasTexts ∧ t.NoOverlap) ∧
    s1.ltext s.label_count =
      (if e.is_quad then (env.h_order e.element_order, env.v_order e.element_order)
       else (e.element_order, e.element_order)) ∧
    s1.label_count = s.label_count + 1 := by
  refine ⟨?_, process_element_label env sh e o s r s1 hn h⟩
  obtain ⟨t, ht, _, hl, hc⟩ := label_table_some
  refine ⟨t, ht, fun i j i0 i1 j0 j1 => (hl i j i0 i1 j0 j1).2.2.1, ?_⟩
  intro i j i2 j2 i0 i1 j0 j1 k0 k1 l0 l1 hne
  exact labels_disjoint t hc i j i2 j2 i0 i1 j0 j1 k0 k1 l0 l1 hne

/-- C25, instance: the triangle of order 2 processed on `full_orderizer` gets
the entry `labels[2][2]`. -/
theorem label_table_contents_witness :
    lower_triangle.nvert ≤ 4 ∧
    ∃ r s1,
      Orderizer.process_element corner_env false lower_triangle corner_env.garbage
        full_orderizer = .ok r s1 ∧
      (∃ t, label_table = some t ∧ t.HasTexts ∧ t.NoOverlap) ∧
      s1.ltext full_orderizer.label_count = (2, 2) ∧
      s1.label_count = full_orderizer.label_count + 1 :=
  ⟨by decide,
    (process_element_returns corner_env false lower_triangle corner_env.garbage full_orderizer
      (fun _ => rfl)).elim fun r h => h.elim fun s1 h =>
        ⟨r, s1, h, label_table_contents corner_env false lower_triangle corner_env.garbage
          full_orderizer r s1 (by decide) h⟩⟩

/-! ### The orientation test of the edge-order and curved mode -/

theorem edge_list_full (env : OrdEnv) (sh : Bool) (e : Element) (id : Int → Int)
    (h : (sh || e.is_curved) = true) :
    e.edge_list env sh id =
      ((loop_range 0 (env.ord.num_edge e.mode)).filter (e.edge_test env.ord)).map
        (e.table_edge env.ord id) := by
  unfold Element.edge_list
  rw [if_pos h]

theorem edge_list_simple (env : OrdEnv) (sh : Bool) (e : Element) (id : Int → Int)
    (h : (sh || e.is_curved) = false) :
    e.edge_list env sh id =
      (loop_range 0 (env.simple.num_edge e.mode)).map (e.table_edge env.simple id) := by
  unfold Element.edge_list
  rw [if_neg (by simp [h])]

/-- An interior edge that passes the test runs from its first point to a
second one that comes later in the order by `y`, then by `x`. -/
theorem edge_test_oriented (tab : OrdTables) (e : Element) (i : Int)
    (hb : e.en_bnd (tab.ord_edge e.mode i).2.2 = false) (ht : e.edge_test tab i = true) :
    e.phys_y ((tab.ord_edge e.mode i).1 + 1) < e.phys_y ((tab.ord_edge e.mode i).2.1 + 1) ∨
    (e.phys_y ((tab.ord_edge e.mode i).1 + 1) = e.phys_y ((tab.ord_edge e.mode i).2.1 + 1) ∧
      e.phys_x ((tab.ord_edge e.mode i).1 + 1) < e.phys_x ((tab.ord_edge e.mode i).2.1 + 1)) := by
  unfold Element.edge_test at ht
  simpa [hb] using ht

/-- Of two interior table edges, of two elements, that join the same two
different points in opposite directions, exactly one passes the test. -/
theorem edge_test_once (tab tab2 : OrdTables) (e e2 : Element) (i i2 : Int)
    (hb : e.en_bnd (tab.ord_edge e.mode i).2.2 = false)
    (hb2 : e2.en_bnd (tab2.ord_edge e2.mode i2).2.2 = false)
    (hx1 : e.phys_x ((tab.ord_edge e.mode i).1 + 1) =
      e2.phys_x ((tab2.ord_edge e2.mode i2).2.1 + 1))
    (hy1 : e.phys_y ((tab.ord_edge e.mode i).1 + 1) =
      e2.phys_y ((tab2.ord_edge e2.mode i2).2.1 + 1))
    (hx2 : e.phys_x ((tab.ord_edge e.mode i).2.1 + 1) =
      e2.phys_x ((tab2.ord_edge e2.mode i2).1 + 1))
    (hy2 : e.phys_y ((tab.ord_edge e.mode i).2.1 + 1) =
      e2.phys_y ((tab2.ord_edge e2.mode i2).1 + 1))
    (hne : e.phys_x ((tab.ord_edge e.mode i).1 + 1) ≠ e.phys_x ((tab.ord_edge e.mode i).2.1 + 1) ∨
      e.phys_y ((tab.ord_edge e.mode i).1 + 1) ≠ e.phys_y ((tab.ord_edge e.mode i).2.1 + 1)) :
    (e.edge_test tab i = true ∧ e2.edge_test tab2 i2 = false) ∨
    (e.edge_test tab i = false ∧ e2.edge_test tab2 i2 = true) := by
  unfold Element.edge_test
  rw [hb, hb2, ← hx1, ← hy1, ← hx2, ← hy2]
  simp only [Bool.false_or, Bool.or_eq_true, decide_eq_true_eq, Bool.and_eq_true,
    Bool.or_eq_false_iff, decide_eq_false_iff_not, Bool.and_eq_false_imp, not_lt]
  rcases lt_trichotomy (e.phys_y ((tab.ord_edge e.mode i).1 + 1))
      (e.phys_y ((tab.ord_edge e.mode i).2.1 + 1)) with h | h | h
  · left
    exact ⟨Or.inl h, le_of_lt h, fun h2 => absurd h2.symm (ne_of_lt h)⟩
  · rcases lt_trichotomy (e.phys_x ((tab.ord_edge e.mode i).1 + 1))
        (e.phys_x ((tab.ord_edge e.mode i).2.1 + 1)) with g | g | g
    · left
      exact ⟨Or.inr ⟨h, g⟩, le_of_eq h, fun _ => le_of_lt g⟩
    · rcases hne with hne | hne
      · exact absurd g hne
      · exact absurd h hne
    · right
      exact ⟨⟨le_of_eq h.symm, fun _ => le_of_lt g⟩, Or.inr ⟨h.symm, g⟩⟩
  · right
    exact ⟨⟨le_of_lt h, fun h2 => absurd h2 (ne_of_gt h)⟩, Or.inl h⟩

/-! ### `process_edge` -/

theorem process_edge_succ (fuel : Nat) (iv1 iv2 marker : Int) :
    LinearizerBase.process_edge (fuel + 1) iv1 iv2 marker =
      (LinearizerBase.peek fuel iv1 iv2 >>= fun mid =>
        if mid ≠ -1 then
          (LinearizerBase.process_edge fuel iv1 mid marker >>= fun _ =>
            LinearizerBase.process_edge fuel mid iv2 marker)
        else LinearizerBase.add_edge iv1 iv2 marker) := by
  rw [LinearizerBase.process_edge]

/-- What a result of `edge_leaves` with one more unit of fuel consists of. -/
theorem edge_leaves_cases (s : LinearizerBase) (fuel : Nat) (iv1 iv2 : Int)
    (l : List (Int × Int)) (h : edge_leaves s (fuel + 1) iv1 iv2 = some l) :
    (s.peek_vertex fuel iv1 iv2 = some (-1) ∧ l = [(iv1, iv2)]) ∨
    ∃ mid a b, s.peek_vertex fuel iv1 iv2 = some mid ∧ mid ≠ -1 ∧
      edge_leaves s fuel iv1 mid = some a ∧ edge_leaves s fuel mid iv2 = some b ∧
      l = a ++ b := by
  rw [edge_leaves] at h
  cases hp : s.peek_vertex fuel iv1 iv2 with
  | none => rw [hp] at h; cases h
  | some mid =>
    rw [hp] at h
    simp only at h
    by_cases hm : mid ≠ -1
    · rw [if_pos hm] at h
      cases ha : edge_leaves s fuel iv1 mid with
      | none => rw [ha] at h; cases h
      | some a =>
        cases hb : edge_leaves s fuel mid iv2 with
        | none => rw [ha, hb] at h; cases h
        | some b =>
          rw [ha, hb] at h
          simp only [Option.some.injEq] at h
          exact Or.inr ⟨mid, a, b, rfl, hm, ha, hb, h.symm⟩
    · rw [if_neg hm] at h
      simp only [Option.some.injEq] at h
      have : mid = -1 := by simpa using hm
      subst this
      exact Or.inl ⟨rfl, h.symm⟩

theorem edge_leaves_of_leaf (s : LinearizerBase) (fuel : Nat) (iv1 iv2 : Int)
    (h : s.peek_vertex fuel iv1 iv2 = some (-1)) :
    edge_leaves s (fuel + 1) iv1 iv2 = some [(iv1, iv2)] := by
  rw [edge_leaves, h]
  simp

theorem edge_leaves_of_split (s : LinearizerBase) (fuel : Nat) (iv1 iv2 mid : Int)
    (a b : List (Int × Int)) (h : s.peek_vertex fuel iv1 iv2 = some mid) (hm : mid ≠ -1)
    (ha : edge_leaves s fuel iv1 mid = some a) (hb : edge_leaves s fuel mid iv2 = some b) :
    edge_leaves s (fuel + 1) iv1 iv2 = some (a ++ b) := by
  rw [edge_leaves, h]
  simp only
  rw [if_pos hm, ha, hb]

/-- More fuel does not change a result of `edge_leaves`. -/
theorem edge_leaves_mono (s : LinearizerBase) :
    ∀ (fuel : Nat) (iv1 iv2 : Int) (l : List (Int × Int)), edge_leaves s fuel iv1 iv2 = some l →
      ∀ fuel2, fuel ≤ fuel2 → edge_leaves s fuel2 iv1 iv2 = some l := by
  intro fuel
  induction fuel with
  | zero => intro iv1 iv2 l h; simp [edge_leaves] at h
  | succ f ih =>
    intro iv1 iv2 l h fuel2 hle
    obtain ⟨g, rfl⟩ : ∃ g, fuel2 = g + 1 := ⟨fuel2 - 1, by omega⟩
    have hfg : f ≤ g := by omega
    rcases edge_leaves_cases s f iv1 iv2 l h with ⟨hp, rfl⟩ | ⟨mid, a, b, hp, hm, ha, hb, rfl⟩
    · exact edge_leaves_of_leaf s g iv1 iv2 (peek_vertex_mono s hp hfg)
    · exact edge_leaves_of_split s g iv1 iv2 mid a b (peek_vertex_mono s hp hfg) hm
        (ih _ _ _ ha g hfg) (ih _ _ _ hb g hfg)

/-- A returning `add_edge` leaves the deduplicator alone. -/
theorem add_edge_same_table {iv1 iv2 marker : Int} {s s1 : LinearizerBase}
    (h : LinearizerBase.add_edge iv1 iv2 marker s = .ok () s1) : SameTable s s1 := by
  unfold LinearizerBase.add_edge at h
  simp only [LinearizerBase.realloc] at h
  split_ifs at h <;> simp only [Result.ok.injEq, true_and] at h <;> subst h <;>
    exact ⟨rfl, rfl, rfl⟩

theorem add_edge_ne_fuel (iv1 iv2 marker : Int) (s : LinearizerBase) :
    LinearizerBase.add_edge iv1 iv2 marker s ≠ .out_of_fuel := by
  unfold LinearizerBase.add_edge
  simp only [LinearizerBase.realloc]
  split_ifs <;> simp

theorem add_edges_append (l1 l2 : List (Int × Int)) (marker : Int) :
    add_edges (l1 ++ l2) marker = (add_edges l1 marker >>= fun _ => add_edges l2 marker) := by
  induction l1 with
  | nil => rfl
  | cons t l ih =>
    show add_edges (t :: (l ++ l2)) marker = _
    simp only [add_edges, ih, run_bind_assoc]

theorem add_edges_ne_fuel (l : List (Int × Int)) (marker : Int) :
    ∀ s, add_edges l marker s ≠ .out_of_fuel := by
  induction l with
  | nil => intro s; simp [add_edges, run_pure_def]
  | cons t l ih =>
    intro s
    simp only [add_edges, run_bind_def, Run.bind]
    have := add_edge_ne_fuel t.1 t.2 marker s
    cases h : LinearizerBase.add_edge t.1 t.2 marker s with
    | ok a s1 => exact ih s1
    | out_of_memory s1 => simp
    | invalid_input s1 => simp
    | out_of_fuel => exact absurd h this

/-- A returning sequence of `add_edge` calls has appended its edges, each with
the marker, and has left the deduplicator and the allocator oracle alone. -/
theorem add_edges_ok (l : List (Int × Int)) (marker : Int) :
    ∀ s s1, add_edges l marker s = .ok () s1 →
      SameTable s s1 ∧ s1.heap = s.heap ∧
      AppendedEdges s s1 (l.map fun e => (e, marker)) := by
  induction l with
  | nil =>
    intro s s1 h
    simp only [add_edges, run_pure_def, Result.ok.injEq, true_and] at h
    subst h
    exact ⟨sameTable_refl _, rfl, appendedEdges_of_same (sameEdges_refl _)⟩
  | cons t l ih =>
    intro s s1 h
    obtain ⟨_, s2, h1, h2⟩ := run_bind_ok h
    obtain ⟨hT2, hh2, hA2⟩ := ih s2 s1 h2
    have hA := appendedEdges_append (add_edge_appended h1) hA2
    exact ⟨sameTable_trans (add_edge_same_table h1) hT2, hh2.trans (add_edge_ok h1).2, hA⟩

theorem add_edges_returns (l : List (Int × Int)) (marker : Int) :
    ∀ s, (∀ k, s.heap k = true) → ∃ s1, add_edges l marker s = .ok () s1 := by
  induction l with
  | nil => intro s _; exact ⟨s, rfl⟩
  | cons t l ih =>
    intro s hheap
    obtain ⟨s2, h2⟩ := add_edge_returns t.1 t.2 marker s hheap
    have hh := (add_edge_ok h2).2
    obtain ⟨s1, h1⟩ := ih s2 (by rw [hh]; exact hheap)
    refine ⟨s1, ?_⟩
    show (LinearizerBase.add_edge t.1 t.2 marker >>= fun _ => add_edges l marker) s = _
    rw [run_bind_returns h2]
    exact h1

/-- Sequencing after a run that amounts to adding edges: the continuation is
needed only on states with the same deduplicator. -/
theorem bind_add_edges_congr (s : LinearizerBase) (l : List (Int × Int)) (marker : Int)
    (k k2 : Unit → Run LinearizerBase Unit)
    (hk : ∀ s2, SameTable s s2 → k () s2 = k2 () s2) :
    ∀ s0, SameTable s s0 → (add_edges l marker >>= k) s0 = (add_edges l marker >>= k2) s0 := by
  intro s0 hT
  simp only [run_bind_def, Run.bind]
  cases h : add_edges l marker s0 with
  | ok a s2 =>
    exact hk s2 (sameTable_trans hT (add_edges_ok l marker s0 s2 h).1)
  | out_of_memory s2 => rfl
  | invalid_input s2 => rfl
  | out_of_fuel => rfl

/-- With enough fuel for `edge_leaves`, a call of `process_edge` is the
sequence of `add_edge` calls on the listed edges. -/
theorem process_edge_eq (s : LinearizerBase) :
    ∀ (fuel : Nat) (iv1 iv2 : Int) (l : List (Int × Int)), edge_leaves s fuel iv1 iv2 = some l →
      ∀ (marker : Int) (s0 : LinearizerBase), SameTable s s0 →
        LinearizerBase.process_edge fuel iv1 iv2 marker s0 = add_edges l marker s0 := by
  intro fuel
  induction fuel with
  | zero => intro iv1 iv2 l h; simp [edge_leaves] at h
  | succ f ih =>
    intro iv1 iv2 l h marker s0 hT
    rw [process_edge_succ]
    have hpeek : ∀ mid, s.peek_vertex f iv1 iv2 = some mid →
        LinearizerBase.peek f iv1 iv2 s0 = .ok mid s0 := by
      intro mid hp
      unfold LinearizerBase.peek
      rw [sameTable_peek_vertex hT, hp]
    rcases edge_leaves_cases s f iv1 iv2 l h with ⟨hp, rfl⟩ | ⟨mid, a, b, hp, hm, ha, hb, rfl⟩
    · rw [run_bind_returns (hpeek _ hp)]
      simp only [ne_eq, not_true_eq_false, if_false, add_edges, run_bind_unit]
    · rw [run_bind_returns (hpeek _ hp), if_pos hm, add_edges_append]
      have e1 : LinearizerBase.process_edge f iv1 mid marker s0 = add_edges a marker s0 :=
        ih _ _ _ ha marker s0 hT
      simp only [run_bind_def, Run.bind, e1]
      cases h2 : add_edges a marker s0 with
      | ok u s2 =>
        exact ih _ _ _ hb marker s2 (sameTable_trans hT (add_edges_ok a marker s0 s2 h2).1)
      | out_of_memory s2 => rfl
      | invalid_input s2 => rfl
      | out_of_fuel => rfl

/-- In a state whose stored indices exceed their parents and whose chains are
finite, `edge_leaves` has a result for every edge once the fuel suffices. -/
theorem edge_leaves_returns (s : LinearizerBase) (hpar : ParentsBelow s) (hend : ChainsEnd s)
    (iv1 iv2 : Int) : ∃ fuel l, edge_leaves s fuel iv1 iv2 = some l := by
  obtain ⟨B0, hB0⟩ := stored_bounded s hend
  have key : ∀ (n : Nat) (a b : Int), (2 * B0 - a - b).toNat < n →
      ∃ fuel l, edge_leaves s fuel a b = some l := by
    intro n
    induction n with
    | zero => intro a b h; omega
    | succ n ih =>
      intro a b hn
      obtain ⟨f0, mid, hp⟩ := peek_vertex_returns s hend a b
      by_cases hm : mid = -1
      · subst hm
        exact ⟨f0 + 1, _, edge_leaves_of_leaf s f0 a b hp⟩
      · have hm0 : 0 ≤ mid := by
          rcases peek_vertex_some s hp with h | h
          · exact absurd h hm
          · exact h.1
        obtain ⟨h1, h2, hst⟩ := peek_vertex_above s hpar hp hm0
        have hB := hB0 mid hst
        obtain ⟨fa, la, ha⟩ := ih a mid (by omega)
        obtain ⟨fb, lb, hb⟩ := ih mid b (by omega)
        refine ⟨max f0 (max fa fb) + 1, la ++ lb, ?_⟩
        exact edge_leaves_of_split s _ a b mid la lb
          (peek_vertex_mono s hp (le_max_left _ _)) hm
          (edge_leaves_mono s fa _ _ _ ha _ (le_trans (le_max_left _ _) (le_max_right _ _)))
          (edge_leaves_mono s fb _ _ _ hb _ (le_trans (le_max_right _ _) (le_max_right _ _)))
  exact key _ iv1 iv2 (Nat.lt_succ_self _)

theorem isChain_append {a m b : Int} {l1 l2 : List (Int × Int)} (h1 : IsChain a m l1)
    (h2 : IsChain m b l2) : IsChain a b (l1 ++ l2) := by
  induction h1 with
  | single a m => exact IsChain.link a m b l2 h2
  | link a c m l _ ih => exact IsChain.link a c b (l ++ l2) (ih h2)

theorem isChain_connected {a b : Int} {l : List (Int × Int)} (h : IsChain a b l) :
    ConnectedChain a b l := by
  induction h with
  | single a b =>
    refine ⟨⟨(a, b), (a, b), rfl, rfl, rfl, rfl⟩, ?_⟩
    intro k e e2 _ h2
    simp at h2
  | link a m b l hl ih =>
    obtain ⟨⟨first, last, hf, hla, hf1, hl2⟩, hc⟩ := ih
    cases l with
    | nil => simp at hf
    | cons x rest =>
      refine ⟨⟨(a, m), last, rfl, ?_, rfl, hl2⟩, ?_⟩
      · rw [List.getLast?_cons_cons]
        exact hla
      · intro k e e2 h1 h2
        cases k with
        | zero =>
          simp only [List.getElem?_cons_zero, Option.some.injEq] at h1
          simp only [zero_add, List.getElem?_cons_succ, List.getElem?_cons_zero,
            Option.some.injEq] at h2
          simp only [List.head?_cons, Option.some.injEq] at hf
          subst h1 h2
          rw [hf]
          exact hf1.symm
        | succ j =>
          rw [List.getElem?_cons_succ] at h1 h2
          exact hc j e e2 h1 h2

/-- The edges listed by `edge_leaves` form a chain from the first to the second
endpoint; `peek_vertex` reports no midpoint on any of them; and the list is the
single edge when `peek_vertex` reports no midpoint on it. -/
theorem edge_leaves_chain (s : LinearizerBase) :
    ∀ (fuel : Nat) (iv1 iv2 : Int) (l : List (Int × Int)), edge_leaves s fuel iv1 iv2 = some l →
      IsChain iv1 iv2 l ∧ (∀ e ∈ l, PeekIs s e.1 e.2 (-1)) ∧
      (PeekIs s iv1 iv2 (-1) → l = [(iv1, iv2)]) := by
  intro fuel
  induction fuel with
  | zero => intro iv1 iv2 l h; simp [edge_leaves] at h
  | succ f ih =>
    intro iv1 iv2 l h
    rcases edge_leaves_cases s f iv1 iv2 l h with ⟨hp, rfl⟩ | ⟨mid, a, b, hp, hm, ha, hb, rfl⟩
    · refine ⟨IsChain.single _ _, ?_, fun _ => rfl⟩
      intro e he
      have : e = (iv1, iv2) := by simpa using he
      subst this
      exact ⟨f, hp⟩
    · obtain ⟨c1, p1, _⟩ := ih _ _ _ ha
      obtain ⟨c2, p2, _⟩ := ih _ _ _ hb
      refine ⟨isChain_append c1 c2, ?_, ?_⟩
      · intro e he
        rcases List.mem_append.mp he with h1 | h1
        · exact p1 e h1
        · exact p2 e h1
      · rintro ⟨f2, hp2⟩
        exact absurd (peek_vertex_unique s hp hp2) hm


/-! ### The edge buffer while a chain of edges is appended -/

theorem sameTable_hash {s s0 : LinearizerBase} (h : SameTable s s0) (p1 p2 : Int) :
    s0.hash p1 p2 = s.hash p1 p2 := by
  unfold LinearizerBase.hash
  rw [h.2.2]

theorem sameTable_chain {s s0 : LinearizerBase} (h : SameTable s s0) (i : Int) (k : Nat) :
    s0.chain i k = s.chain i k := by
  induction k with
  | zero => rfl
  | succ k ih =>
    show s0.info (s0.chain i k) 2 = s.info (s.chain i k) 2
    rw [ih, h.2.1]

theorem sameTable_chainsEnd {s s0 : LinearizerBase} (h : SameTable s s0) (hend : ChainsEnd s) :
    ChainsEnd s0 := by
  intro p1 p2
  obtain ⟨k, hk⟩ := hend p1 p2
  refine ⟨k, ?_⟩
  rw [sameTable_chain h, sameTable_hash h, h.1]
  exact hk

theorem sameTable_parentsBelow {s s0 : LinearizerBase} (h : SameTable s s0)
    (hpar : ParentsBelow s) : ParentsBelow s0 := by
  rintro i ⟨p1, p2, k, hk, hall⟩
  have hs : Stored s i := by
    refine ⟨p1, p2, k, ?_, fun j hj => ?_⟩
    · rw [← hk, sameTable_chain h, sameTable_hash h, h.1]
    · have := hall j hj
      rw [sameTable_chain h, sameTable_hash h, h.1] at this
      exact this
  have := hpar i hs
  rw [h.2.1]
  exact this

/-- A returning `add_edge` on allocated buffers with the count within a
capacity of at least 2: the buffers stay allocated, the write at the old count
is below the capacity after the call, the count stays within the capacity and
the capacity does not shrink. -/
theorem add_edge_room {iv1 iv2 marker : Int} {s s1 : LinearizerBase}
    (h : LinearizerBase.add_edge iv1 iv2 marker s = .ok () s1)
    (hlive : s.edges_live = true ∧ s.edge_markers_live = true)
    (hcount : s.edges_count ≤ s.edges_size) (hcap : 2 ≤ s.edges_size) :
    (s1.edges_live = true ∧ s1.edge_markers_live = true) ∧
    s1.edges_count ≤ s1.edges_size ∧ 2 ≤ s1.edges_size ∧
    s1.edges_count = s.edges_count + 1 ∧
    s1.edges_size = (if s.edges_count ≥ s.edges_size then grow s.edges_size else s.edges_size) := by
  obtain ⟨_, _, hc, _, _, _, _, _, hs⟩ := add_edge_frame h
  have hg := grow_gt _ hcap
  have hl : s1.edges_live = true ∧ s1.edge_markers_live = true := by
    unfold LinearizerBase.add_edge at h
    simp only [LinearizerBase.realloc] at h
    split_ifs at h <;> simp only [Result.ok.injEq, true_and] at h <;> subst h
    · exact ⟨rfl, rfl⟩
    · exact hlive
  refine ⟨hl, ?_, ?_, hc, hs⟩
  · rw [hs, hc]; split_ifs <;> omega
  · rw [hs]; split_ifs <;> omega

/-- The same for a sequence of `add_edge` calls; and when the final count is at
most 1431655765, every growth step started from a capacity whose product with
1.5 is within the range of `int`. -/
theorem add_edges_room (l : List (Int × Int)) (marker : Int) :
    ∀ s s1, add_edges l marker s = .ok () s1 →
      (s.edges_live = true ∧ s.edge_markers_live = true) →
      s.edges_count ≤ s.edges_size → 2 ≤ s.edges_size →
      (s1.edges_live = true ∧ s1.edge_markers_live = true) ∧
      s1.edges_count ≤ s1.edges_size ∧
      (s.edges_size ≤ 2147483647 → s.edges_count + (l.length : Int) ≤ 1431655765 →
        s1.edges_size ≤ 2147483647) := by
  induction l with
  | nil =>
    intro s s1 h hlive hcount hcap
    simp only [add_edges, run_pure_def, Result.ok.injEq, true_and] at h
    subst h
    exact ⟨hlive, hcount, fun hi _ => hi⟩
  | cons t l ih =>
    intro s s1 h hlive hcount hcap
    obtain ⟨_, s2, h1, h2⟩ := run_bind_ok h
    obtain ⟨hl2, hc2, hcap2, hn2, hs2⟩ := add_edge_room h1 hlive hcount hcap
    obtain ⟨hl1, hc1, hi1⟩ := ih s2 s1 h2 hl2 hc2 hcap2
    refine ⟨hl1, hc1, fun hi hb => ?_⟩
    simp only [List.length_cons, Nat.cast_add, Nat.cast_one] at hb
    have hnn : (0 : Int) ≤ (l.length : Int) := Int.ofNat_nonneg _
    apply hi1
    · rw [hs2]
      split_ifs with hfull
      · rw [grow_floor _ (by omega)]
        omega
      · exact hi
    · rw [hn2]
      omega

/-- C26: `process_edge` emits a connected chain.  The state is well-founded
(stored indices above their parents, finite chains) and in the middle of a
pass: the edge buffers are allocated, the edge count is within a capacity of
at least 2, and the capacity is an `int`.  Then for all `iv1`, `iv2` the call
`process_edge(iv1, iv2, marker)` terminates: from some recursion bound on, it
is a fixed sequence of `add_edge` calls on a non-empty list of edges, of which
the first starts at `iv1`, the last ends at `iv2`, and each ends where the next
one starts; `peek_vertex` is -1 on each of them, and the list is the single
edge `(iv1, iv2)` when `peek_vertex(iv1, iv2)` is -1.  The call returns when no
allocation fails and the final edge count is at most 1431655765, so that the
growth steps stay within `int`.  A returning call has appended exactly these
edges, in order, each with the given marker, inside the buffer, which is still
allocated; the deduplicator is unchanged. -/
theorem process_edge_chain (s : LinearizerBase) (iv1 iv2 marker : Int)
    (hpar : ParentsBelow s) (hend : ChainsEnd s)
    (hlive : s.edges_live = true ∧ s.edge_markers_live = true)
    (hcount : s.edges_count ≤ s.edges_size) (hcap : 2 ≤ s.edges_size)
    (hint : s.edges_size ≤ 2147483647) :
    ∃ F l, ConnectedChain iv1 iv2 l ∧ (∀ e ∈ l, PeekIs s e.1 e.2 (-1)) ∧
      (PeekIs s iv1 iv2 (-1) → l = [(iv1, iv2)]) ∧
      ∀ fuel, F ≤ fuel →
        LinearizerBase.process_edge fuel iv1 iv2 marker s ≠ .out_of_fuel ∧
        LinearizerBase.process_edge fuel iv1 iv2 marker s = add_edges l marker s ∧
        ((∀ k, s.heap k = true) → s.edges_count + (l.length : Int) ≤ 1431655765 →
          ∃ s1, LinearizerBase.process_edge fuel iv1 iv2 marker s = .ok () s1 ∧
            s1.edges_size ≤ 2147483647) ∧
        ∀ s1, LinearizerBase.process_edge fuel iv1 iv2 marker s = .ok () s1 →
          AppendedEdges s s1 (l.map fun e => (e, marker)) ∧ SameTable s s1 ∧
          (s1.edges_live = true ∧ s1.edge_markers_live = true) ∧
          s1.edges_count ≤ s1.edges_size := by
  obtain ⟨F, l, hl⟩ := edge_leaves_returns s hpar hend iv1 iv2
  obtain ⟨hc, hp, hs⟩ := edge_leaves_chain s F iv1 iv2 l hl
  refine ⟨F, l, isChain_connected hc, hp, hs, fun fuel hle => ?_⟩
  have he := process_edge_eq s fuel iv1 iv2 l (edge_leaves_mono s F _ _ _ hl fuel hle) marker s
    (sameTable_refl s)
  rw [he]
  refine ⟨add_edges_ne_fuel l marker s, rfl, ?_, ?_⟩
  · intro hh hb
    obtain ⟨s1, h1⟩ := add_edges_returns l marker s hh
    exact ⟨s1, h1, (add_edges_room l marker s s1 h1 hlive hcount hcap).2.2 hint hb⟩
  · intro s1 h1
    obtain ⟨hT, _, hA⟩ := add_edges_ok l marker s s1 h1
    obtain ⟨hl1, hc1, _⟩ := add_edges_room l marker s s1 h1 hlive hcount hcap
    exact ⟨hA, hT, hl1, hc1⟩

theorem nested_edge_pass_same_table : SameTable nested_edge nested_edge_pass :=
  ⟨rfl, rfl, rfl⟩

theorem nested_edge_pass_edge_leaves :
    edge_leaves nested_edge_pass 4 0 1 = some [(0, 4), (4, 3), (3, 1)] := by
  decide

/-- C26, instance: the edge from 0 to 1 in `nested_edge_pass`, where vertex 3
is the midpoint of (0,1) and vertex 4 the midpoint of (0,3); the chain is
(0,4), (4,3), (3,1).  The edge buffer holds 14999 edges at capacity 15000, so
the second of the three appends grows it. -/
theorem process_edge_chain_witness :
    ParentsBelow nested_edge_pass ∧ ChainsEnd nested_edge_pass ∧
    (nested_edge_pass.edges_live = true ∧ nested_edge_pass.edge_markers_live = true) ∧
    nested_edge_pass.edges_count ≤ nested_edge_pass.edges_size ∧
    2 ≤ nested_edge_pass.edges_size ∧ nested_edge_pass.edges_size ≤ 2147483647 ∧
    edge_leaves nested_edge_pass 4 0 1 = some [(0, 4), (4, 3), (3, 1)] ∧
    ∃ F l, ConnectedChain 0 1 l ∧ (∀ e ∈ l, PeekIs nested_edge_pass e.1 e.2 (-1)) ∧
      (PeekIs nested_edge_pass 0 1 (-1) → l = [(0, 1)]) ∧
      ∀ fuel, F ≤ fuel →
        LinearizerBase.process_edge fuel 0 1 7 nested_edge_pass ≠ .out_of_fuel ∧
        LinearizerBase.process_edge fuel 0 1 7 nested_edge_pass =
          add_edges l 7 nested_edge_pass ∧
        ((∀ k, nested_edge_pass.heap k = true) →
          nested_edge_pass.edges_count + (l.length : Int) ≤ 1431655765 →
          ∃ s1, LinearizerBase.process_edge fuel 0 1 7 nested_edge_pass = .ok () s1 ∧
            s1.edges_size ≤ 2147483647) ∧
        ∀ s1, LinearizerBase.process_edge fuel 0 1 7 nested_edge_pass = .ok () s1 →
          AppendedEdges nested_edge_pass s1 (l.map fun e => (e, 7)) ∧
          SameTable nested_edge_pass s1 ∧
          (s1.edges_live = true ∧ s1.edge_markers_live = true) ∧
          s1.edges_count ≤ s1.edges_size :=
  ⟨sameTable_parentsBelow nested_edge_pass_same_table nested_edge_parents_below,
    sameTable_chainsEnd nested_edge_pass_same_table nested_edge_chains_end,
    ⟨rfl, rfl⟩, by decide, by decide, by decide, nested_edge_pass_edge_leaves,
    process_edge_chain nested_edge_pass 0 1 7
      (sameTable_parentsBelow nested_edge_pass_same_table nested_edge_parents_below)
      (sameTable_chainsEnd nested_edge_pass_same_table nested_edge_chains_end)
      ⟨rfl, rfl⟩ (by decide) (by decide) (by decide)⟩

end Hermes2D
